import Mathlib

/-!
# Jerasure: Galois-field facade and Reed-Solomon matrix construction

A shallow embedding of `galois.c` and `reed_sol.c`.

Conventions of the embedding.

* A C `int` that holds a field element is represented by its 32-bit two's
  complement pattern, a natural number below `2^32`; the value `-1` is
  therefore `4294967295` (`neg1`).  Elements are only compared with `0` and `1`
  and combined with `^`, which act on patterns.
* C `int`s used as sizes, counters, indices and widths are natural numbers;
  negative sizes are outside the model and index arithmetic is exact.
* An `int *` matrix is a map from index to entry (`Buf`); a `char *` fragment is
  an address into the byte-addressed `Heap` of the `World`.
* The external GF-Complete library is the parameter `gf_complete`; a field
  instance is a `gf_t` record of optional function pointers, each taking the
  handle it is called with as first argument.
* Process-wide mutable state (`gfp_array`, the `prim08`/`GF08` statics, memory,
  the error stream) is the record `World`; a routine is a function
  `World → Outcome (result × World)`.
-/

namespace Jerasure

/-! ## Data model -/

/-- Outcome of running a C routine: a normal return, or abnormal termination of
the process (a failed `assert(0)`, a call through a null pointer, or `free` of
a pointer that did not come from `malloc`). -/
inductive Outcome (α : Type) where
  | ret : α → Outcome α
  | fatal : Outcome α

/-- Byte-addressed memory: address to byte. -/
abbrev Heap := Nat → Nat

/-- An `int` array: index to entry. -/
abbrev Buf := Nat → Nat

/-- The pattern of the C `int` value `-1`. -/
def neg1 : Nat := 4294967295

/-- The `errno` value `ENOMEM`. -/
def ENOMEM : Nat := 12

/-- The `errno` value `EINVAL`. -/
def EINVAL : Nat := 22

/-- The constant `SCRATCH_SIZE` of `galois.c`. -/
def SCRATCH_SIZE : Nat := 256 <<< 10

/-- A GF-Complete field instance (`gf_t`): its private data (`scratch`) and the
five `w32` function pointers, `none` for a null pointer.  Every function takes
the handle it is called with (the `scratch` of the instance passed as `gf`,
`none` for a null handle) as its first argument.  A region function takes the
memory, `src`, `dest`, `val`, `bytes`, `add` and returns the new memory. -/
structure gf_t where
  scratch : Nat
  multiply : Option (Option Nat → Nat → Nat → Nat)
  divide : Option (Option Nat → Nat → Nat → Nat)
  inverse : Option (Option Nat → Nat → Nat)
  multiply_region : Option (Option Nat → Heap → Nat → Nat → Nat → Nat → Nat → Heap)
  extract_word : Option (Option Nat → Heap → Nat → Nat → Nat)

/-- A `gf_t` whose initialisation has not happened or has failed: no function
pointer is set. -/
def gf_blank : gf_t := ⟨0, none, none, none, none, none⟩

/-- The external GF-Complete library and allocator, as far as the two files
call them.  `gf_init_easy w` and `gf_init_hard w mult region divide prim arg1
arg2 base scratch` give the initialised instance, or `none` when the C call
returns 0.  `malloc_gf` tells whether `malloc(sizeof(gf_t))` succeeds and
`malloc_int n` is the (arbitrary) content of a fresh `int` array of `n`
entries, `none` when `malloc` returns `NULL`.  The four constants are those of
`gf_complete.h`. -/
structure gf_complete where
  gf_init_easy : Nat → Option gf_t
  gf_init_hard : Nat → Nat → Nat → Nat → Nat → Nat → Nat → Option gf_t → Option Nat → Option gf_t
  malloc_gf : Bool
  malloc_int : Nat → Option Buf
  GF_MULT_DEFAULT : Nat
  GF_MULT_BYTWO_b : Nat
  GF_REGION_DEFAULT : Nat
  GF_DIVIDE_DEFAULT : Nat

/-- A non-fatal report written to `stderr`. -/
inductive Report where
  | not_implemented (w : Nat)

/-- The process-wide mutable state of the two files. -/
structure World where
  gfp_array : Nat → Option gf_t
  gfp_is_composite : Nat → Nat
  prim08 : Nat
  GF08 : gf_t
  prim16 : Nat
  GF16 : gf_t
  prim32 : Nat
  GF32 : gf_t
  heap : Heap
  stderr : List Report

/-- A routine acting on the process state. -/
def GM (α : Type) : Type := World → Outcome (α × World)

/-- Sequencing of routines; a fatal outcome stops the run. -/
def GM.bind {α β : Type} (m : GM α) (f : α → GM β) : GM β := fun W =>
  match m W with
  | Outcome.ret (a, W') => f a W'
  | Outcome.fatal => Outcome.fatal

instance : Monad GM where
  pure a := fun W => Outcome.ret (a, W)
  bind := GM.bind

/-- The failed assertion `assert(0)`. -/
def GM.fatal {α : Type} : GM α := fun _ => Outcome.fatal

/-- The counted loop `for (t = 0; t < n; t++) s = body(t, s)`. -/
def iter {σ : Type} : Nat → (Nat → σ → σ) → σ → σ
  | 0, _, s => s
  | n + 1, body, s => body n (iter n body s)

/-- The counted loop `for (t = 0; t < n; t++) s = body(t, s)` whose body runs
in a monad. -/
def iterM {m : Type → Type} [Monad m] {σ : Type} : Nat → (Nat → σ → m σ) → σ → m σ
  | 0, _, s => pure s
  | n + 1, body, s => iterM n body s >>= body n

/-- The loop `for (i = lo; i < hi; i++) s = body(i, s)`. -/
def forP {σ : Type} (lo hi : Nat) (body : Nat → σ → σ) (s : σ) : σ :=
  iter (hi - lo) (fun t => body (lo + t)) s

/-- The loop `for (i = lo; i < hi; i++) s = body(i, s)` whose body runs in a
monad. -/
def forM {m : Type → Type} [Monad m] {σ : Type} (lo hi : Nat) (body : Nat → σ → m σ)
    (s : σ) : m σ :=
  iterM (hi - lo) (fun t => body (lo + t)) s

/-! ## galois.c -/

/-- The registry with slot `w` set to `p`. -/
def World.setField (W : World) (w : Nat) (p : Option gf_t) : World :=
  { W with gfp_array := Function.update W.gfp_array w p }

/-- `galois_init_default_field_noalloc(w)`: the slot is pointed at the static
instance before `gf_init_hard` runs on it. -/
def galois_init_default_field_noalloc (L : gf_complete) (w : Nat) : GM Nat := fun W =>
  if w = 8 ∨ w = 16 ∨ w = 32 then
    let tar := if w = 8 then 0 else if w = 16 then 1 else 2
    match L.gf_init_hard w L.GF_MULT_DEFAULT L.GF_REGION_DEFAULT L.GF_DIVIDE_DEFAULT
        0 0 0 none (some (tar * SCRATCH_SIZE)) with
    | some gf => Outcome.ret (0, W.setField w (some gf))
    | none => Outcome.ret (EINVAL, W.setField w (some gf_blank))
  else Outcome.ret (EINVAL, W)

/-- `galois_init_default_field(w)`. -/
def galois_init_default_field (L : gf_complete) (w : Nat) : GM Nat := fun W =>
  match W.gfp_array w with
  | some _ => Outcome.ret (0, W)
  | none =>
    if L.malloc_gf = false then Outcome.ret (ENOMEM, W)
    else
      match L.gf_init_easy w with
      | some gf => Outcome.ret (0, W.setField w (some gf))
      | none => Outcome.ret (EINVAL, W.setField w (some gf_blank))

/-- `galois_init(w)`: fatal for a width outside `[1,32]` and when the default
field cannot be set up. -/
def galois_init (L : gf_complete) (w : Nat) : GM Unit := fun W =>
  if w ≤ 0 ∨ w > 32 then Outcome.fatal
  else
    match (if w = 8 ∨ w = 16 ∨ w = 32 then galois_init_default_field_noalloc L w W
           else galois_init_default_field L w W) with
    | Outcome.fatal => Outcome.fatal
    | Outcome.ret (r, W') =>
      if r = ENOMEM then Outcome.fatal
      else if r = EINVAL then Outcome.fatal
      else Outcome.ret ((), W')

/-- `galois_single_multiply(x, y, w)`. -/
def galois_single_multiply (L : gf_complete) (x y w : Nat) : GM Nat := fun W =>
  if x = 0 ∨ y = 0 then Outcome.ret (0, W)
  else
    match (match W.gfp_array w with
           | none => galois_init L w W
           | some _ => Outcome.ret ((), W)) with
    | Outcome.fatal => Outcome.fatal
    | Outcome.ret (_, W1) =>
      if w ≤ 32 then
        match W1.gfp_array w with
        | none => Outcome.fatal
        | some gf =>
          match gf.multiply with
          | none => Outcome.fatal
          | some f => Outcome.ret (f (some gf.scratch) x y, W1)
      else Outcome.ret (0, { W1 with stderr := W1.stderr ++ [Report.not_implemented w] })

/-- `galois_single_divide(x, y, w)`. -/
def galois_single_divide (L : gf_complete) (x y w : Nat) : GM Nat := fun W =>
  if x = 0 then Outcome.ret (0, W)
  else if y = 0 then Outcome.ret (neg1, W)
  else
    match (match W.gfp_array w with
           | none => galois_init L w W
           | some _ => Outcome.ret ((), W)) with
    | Outcome.fatal => Outcome.fatal
    | Outcome.ret (_, W1) =>
      if w ≤ 32 then
        match W1.gfp_array w with
        | none => Outcome.fatal
        | some gf =>
          match gf.divide with
          | none => Outcome.fatal
          | some f => Outcome.ret (f (some gf.scratch) x y, W1)
      else Outcome.ret (0, { W1 with stderr := W1.stderr ++ [Report.not_implemented w] })

/-- `galois_w32_region_xor(src, dest, nbytes)`: the region function of the
instance registered for width 32, called on that instance with `val = 1` and
`add = 1`. -/
def galois_w32_region_xor (L : gf_complete) (src dest nbytes : Nat) : GM Unit := fun W =>
  match (match W.gfp_array 32 with
         | none => galois_init L 32 W
         | some _ => Outcome.ret ((), W)) with
  | Outcome.fatal => Outcome.fatal
  | Outcome.ret (_, W1) =>
    match W1.gfp_array 32 with
    | none => Outcome.fatal
    | some gf =>
      match gf.multiply_region with
      | none => Outcome.fatal
      | some f =>
        Outcome.ret ((), { W1 with heap := f (some gf.scratch) W1.heap src dest 1 nbytes 1 })

/-- The byte loop `for (i = 0; i < nbytes; i++) { *dest ^= *src; dest++; src++; }`
on the triple `(memory, dest, src)`. -/
def xor_byte_loop (nbytes : Nat) (h : Heap) (dest src : Nat) : Heap :=
  (iter nbytes (fun _ (st : Heap × Nat × Nat) =>
    (Function.update st.1 st.2.1 (st.1 st.2.1 ^^^ st.1 st.2.2), st.2.1 + 1, st.2.2 + 1))
    (h, dest, src)).1

/-- `galois_region_xor(src, dest, nbytes)`. -/
def galois_region_xor (L : gf_complete) (src dest nbytes : Nat) : GM Unit :=
  if nbytes ≥ 16 then galois_w32_region_xor L src dest nbytes
  else fun W => Outcome.ret ((), { W with heap := xor_byte_loop nbytes W.heap dest src })

/-! ## reed_sol.c: coding matrices -/

/-- `reed_sol_r6_coding_matrix_setup(k, w, matrix)`; the second loop carries
`tmp` next to the matrix. -/
def reed_sol_r6_coding_matrix_setup (L : gf_complete) (k w : Nat) (matrix : Buf) : GM Buf :=
  let m1 := forP 0 k (fun i m => Function.update m i 1) matrix
  let m2 := Function.update m1 k 1
  forM 1 k (fun i (st : Buf × Nat) =>
      galois_single_multiply L st.2 2 w >>= fun tmp =>
      pure (Function.update st.1 (k + i) tmp, tmp)) (m2, 1) >>= fun st =>
  pure st.1

/-- `reed_sol_r6_coding_matrix(k, w)`; `none` is the `NULL` result. -/
def reed_sol_r6_coding_matrix (L : gf_complete) (k w : Nat) : GM (Option Buf) :=
  if w ≠ 8 ∧ w ≠ 16 ∧ w ≠ 32 then pure none
  else
    match L.malloc_int (2 * k) with
    | none => pure none
    | some matrix => reed_sol_r6_coding_matrix_setup L k w matrix >>= fun m => pure (some m)

/-- `reed_sol_r6_coding_matrix_noalloc(k, w, matrix)`. -/
def reed_sol_r6_coding_matrix_noalloc (L : gf_complete) (k w : Nat) (matrix : Buf) :
    GM (Option Buf) :=
  if w ≠ 8 ∧ w ≠ 16 ∧ w ≠ 32 then pure none
  else reed_sol_r6_coding_matrix_setup L k w matrix >>= fun m => pure (some m)

/-- `reed_sol_extended_vandermonde_matrix_setup(rows, cols, w, vdm)`.  After the
loop `for (j = 0; j < cols-1; j++)` the counter `j` is `cols - 1`; the loop over
an interior row carries `k` next to the matrix. -/
def reed_sol_extended_vandermonde_matrix_setup (L : gf_complete) (rows cols w : Nat)
    (vdm : Buf) : GM (Option Buf) :=
  if w < 30 ∧ (1 <<< w) < rows then pure none
  else if w < 30 ∧ (1 <<< w) < cols then pure none
  else
    let v1 := Function.update vdm 0 1
    let v2 := forP 1 cols (fun j v => Function.update v j 0) v1
    if rows = 1 then pure (some v2)
    else
      let i := (rows - 1) * cols
      let v3 := forP 0 (cols - 1) (fun j v => Function.update v (i + j) 0) v2
      let v4 := Function.update v3 (i + (cols - 1)) 1
      if rows = 2 then pure (some v4)
      else
        forM 1 (rows - 1) (fun i v =>
          iterM cols (fun j (st : Buf × Nat) =>
            galois_single_multiply L st.2 i w >>= fun k =>
            pure (Function.update st.1 (i * cols + j) st.2, k)) (v, 1) >>= fun st =>
          pure st.1) v4 >>= fun v5 =>
        pure (some v5)

/-- `reed_sol_extended_vandermonde_matrix(rows, cols, w)`. -/
def reed_sol_extended_vandermonde_matrix (L : gf_complete) (rows cols w : Nat) :
    GM (Option Buf) :=
  match L.malloc_int (rows * cols) with
  | none => pure none
  | some vdm => reed_sol_extended_vandermonde_matrix_setup L rows cols w vdm

/-- `reed_sol_extended_vandermonde_matrix_noalloc(rows, cols, w, vdm)`. -/
def reed_sol_extended_vandermonde_matrix_noalloc (L : gf_complete) (rows cols w : Nat)
    (vdm : Buf) : GM (Option Buf) :=
  reed_sol_extended_vandermonde_matrix_setup L rows cols w vdm

/-- The pivot search
`for (j = i; j < rows && dist[srindex] == 0; j++) srindex += cols;`
run for at most `fuel` iterations from `(j, srindex)`; gives the final
`(j, srindex)`. -/
def pivot_search (rows cols : Nat) (dist : Buf) : Nat → Nat → Nat → Nat × Nat
  | 0, j, srindex => (j, srindex)
  | fuel + 1, j, srindex =>
    if j < rows ∧ dist srindex = 0 then
      pivot_search rows cols dist fuel (j + 1) (srindex + cols)
    else (j, srindex)

/-- The row swap
`for (k = 0; k < cols; k++) { tmp = dist[srindex+k]; dist[srindex+k] = dist[sindex+k]; dist[sindex+k] = tmp; }`. -/
def swap_loop (cols srindex sindex : Nat) (dist : Buf) : Buf :=
  iter cols (fun k d =>
    let tmp := d (srindex + k)
    let d1 := Function.update d (srindex + k) (d (sindex + k))
    Function.update d1 (sindex + k) tmp) dist

/-- The column scaling
`srindex = start; for (n iterations) { dist[srindex] = galois_single_multiply(tmp, dist[srindex], w); srindex += cols; }`. -/
def scale_col_loop (L : gf_complete) (n cols w tmp start : Nat) (dist : Buf) : GM Buf :=
  iterM n (fun _ (st : Buf × Nat) =>
    galois_single_multiply L tmp (st.1 st.2) w >>= fun v =>
    pure (Function.update st.1 st.2 v, st.2 + cols)) (dist, start) >>= fun st =>
  pure st.1

/-- The column elimination
`srindex = j; siindex = i; for (k = 0; k < rows; k++) { dist[srindex] = dist[srindex] ^ galois_single_multiply(tmp, dist[siindex], w); srindex += cols; siindex += cols; }`. -/
def add_col_loop (L : gf_complete) (rows cols w tmp j i : Nat) (dist : Buf) : GM Buf :=
  iterM rows (fun _ (st : Buf × Nat × Nat) =>
    galois_single_multiply L tmp (st.1 st.2.2) w >>= fun v =>
    pure (Function.update st.1 st.2.1 (st.1 st.2.1 ^^^ v), st.2.1 + cols, st.2.2 + cols))
    (dist, j, i) >>= fun st =>
  pure st.1

/-- The loop `for (j = 0; j < cols; j++)` that clears row `i` outside column
`i`. -/
def clear_row_loop (L : gf_complete) (rows cols w i sindex : Nat) (dist : Buf) : GM Buf :=
  iterM cols (fun j d =>
    let tmp := d (sindex + j)
    if j ≠ i ∧ tmp ≠ 0 then add_col_loop L rows cols w tmp j i d else pure d) dist

/-- One iteration, for pivot column `i`, of the main loop of
`reed_sol_big_vandermonde_distribution_matrix_setup`, on the pair
`(dist, sindex)`. -/
def elim_step (L : gf_complete) (rows cols w i : Nat) (st : Buf × Nat) : GM (Buf × Nat) :=
  let sindex := st.2 + cols
  let found := pivot_search rows cols st.1 (rows - i) i (sindex + i)
  if found.1 ≥ rows then GM.fatal
  else
    let d1 := if found.1 ≠ i then swap_loop cols (found.2 - i) sindex st.1 else st.1
    (if d1 (sindex + i) ≠ 1 then
        galois_single_divide L 1 (d1 (sindex + i)) w >>= fun tmp =>
        scale_col_loop L rows cols w tmp i d1
      else pure d1) >>= fun d2 =>
    clear_row_loop L rows cols w i sindex d2 >>= fun d3 =>
    pure (d3, sindex)

/-- The main loop `for (i = 1; i < cols; i++)` of the distribution-matrix
construction, started with `sindex = 0`. -/
def elimination (L : gf_complete) (rows cols w : Nat) (dist : Buf) : GM (Buf × Nat) :=
  forM 1 cols (elim_step L rows cols w) (dist, 0)

/-- One iteration, on the pair `(dist, sindex)`, of the first normalization
pass: the rows `cols .. rows-1` of the column at `sindex` are scaled by the
inverse of `dist[sindex]`, then `sindex++`. -/
def normalize_row_step (L : gf_complete) (rows cols w : Nat) (st : Buf × Nat) :
    GM (Buf × Nat) :=
  let tmp := st.1 st.2
  (if tmp ≠ 1 then
      galois_single_divide L 1 tmp w >>= fun tmp1 =>
      scale_col_loop L (rows - cols) cols w tmp1 st.2 st.1
    else pure st.1) >>= fun d =>
  pure (d, st.2 + 1)

/-- The first normalization pass: `sindex = cols*cols`, then the loop
`for (j = 0; j < cols; j++)`. -/
def normalize_row_pass (L : gf_complete) (rows cols w : Nat) (dist : Buf) : GM Buf :=
  iterM cols (fun _ => normalize_row_step L rows cols w) (dist, cols * cols) >>= fun st =>
  pure st.1

/-- One iteration, on the pair `(dist, sindex)`, of the second normalization
pass: the row at `sindex` is scaled by the inverse of `dist[sindex]`, then
`sindex += cols`. -/
def normalize_col_step (L : gf_complete) (cols w : Nat) (st : Buf × Nat) : GM (Buf × Nat) :=
  let tmp := st.1 st.2
  (if tmp ≠ 1 then
      galois_single_divide L 1 tmp w >>= fun tmp1 =>
      iterM cols (fun j d =>
        galois_single_multiply L (d (st.2 + j)) tmp1 w >>= fun v =>
        pure (Function.update d (st.2 + j) v)) st.1
    else pure st.1) >>= fun d =>
  pure (d, st.2 + cols)

/-- The second normalization pass: `sindex = cols*(cols+1)`, then the loop
`for (i = cols+1; i < rows; i++)`. -/
def normalize_col_pass (L : gf_complete) (rows cols w : Nat) (dist : Buf) : GM Buf :=
  forM (cols + 1) rows (fun _ => normalize_col_step L cols w) (dist, cols * (cols + 1))
    >>= fun st =>
  pure st.1

/-- `reed_sol_big_vandermonde_distribution_matrix_setup(rows, cols, w, dist)`;
`dist` is `none` for a null pointer. -/
def reed_sol_big_vandermonde_distribution_matrix_setup (L : gf_complete) (rows cols w : Nat)
    (dist : Option Buf) : GM (Option Buf) :=
  if cols ≥ rows then pure none
  else
    match dist with
    | none => pure none
    | some d =>
      elimination L rows cols w d >>= fun st =>
      normalize_row_pass L rows cols w st.1 >>= fun d1 =>
      normalize_col_pass L rows cols w d1 >>= fun d2 =>
      pure (some d2)

/-- `reed_sol_big_vandermonde_distribution_matrix_noalloc(rows, cols, w, dist)`. -/
def reed_sol_big_vandermonde_distribution_matrix_noalloc (L : gf_complete)
    (rows cols w : Nat) (dist : Buf) : GM (Option Buf) :=
  reed_sol_extended_vandermonde_matrix_noalloc L rows cols w dist >>= fun ret =>
  match ret with
  | none => pure none
  | some d => reed_sol_big_vandermonde_distribution_matrix_setup L rows cols w (some d)

/-- `reed_sol_big_vandermonde_distribution_matrix(rows, cols, w)`. -/
def reed_sol_big_vandermonde_distribution_matrix (L : gf_complete) (rows cols w : Nat) :
    GM (Option Buf) :=
  reed_sol_extended_vandermonde_matrix L rows cols w >>= fun dist =>
  match dist with
  | none => pure none
  | some d => reed_sol_big_vandermonde_distribution_matrix_setup L rows cols w (some d)

/-- `reed_sol_vandermonde_coding_matrix_setup(k, m, w, dist, vdm)`; the loop
carries the read index `i` next to `dist`. -/
def reed_sol_vandermonde_coding_matrix_setup (k m : Nat) (dist vdm : Buf) : Buf :=
  (iter (m * k) (fun j (st : Buf × Nat) =>
    (Function.update st.1 j (vdm st.2), st.2 + 1)) (dist, k * k)).1

/-- `reed_sol_vandermonde_coding_matrix(k, m, w)`. -/
def reed_sol_vandermonde_coding_matrix (L : gf_complete) (k m w : Nat) : GM (Option Buf) :=
  reed_sol_big_vandermonde_distribution_matrix L (k + m) k w >>= fun vdm =>
  match vdm with
  | none => pure none
  | some v =>
    match L.malloc_int (m * k) with
    | none => pure none
    | some dist => pure (some (reed_sol_vandermonde_coding_matrix_setup k m dist v))

/-- `reed_sol_vandermonde_coding_matrix_noalloc(k, m, w, matrix)`; `vdm0` is the
indeterminate initial content of the local array `vdm`. -/
def reed_sol_vandermonde_coding_matrix_noalloc (L : gf_complete) (k m w : Nat)
    (matrix vdm0 : Buf) : GM (Option Buf) :=
  reed_sol_big_vandermonde_distribution_matrix_noalloc L (k + m) k w vdm0 >>= fun ret =>
  match ret with
  | none => pure none
  | some v => pure (some (reed_sol_vandermonde_coding_matrix_setup k m matrix v))

/-! ## reed_sol.c: the R6 encoder -/

/-- `memcpy(dest, src, n)` (the regions do not overlap). -/
def memcpy (dest src n : Nat) : GM Unit := fun W =>
  Outcome.ret ((), { W with heap := fun a =>
    if dest ≤ a ∧ a < dest + n then W.heap (src + (a - dest)) else W.heap a })

/-- The pair of statics `primNN`, `GFNN` of one doubling accumulator. -/
structure Slot where
  prim : World → Nat
  GF : World → gf_t
  set : World → Nat → gf_t → World

/-- The statics `prim08`, `GF08`. -/
def slot08 : Slot := ⟨World.prim08, World.GF08, fun W p g => { W with prim08 := p, GF08 := g }⟩

/-- The statics `prim16`, `GF16`. -/
def slot16 : Slot := ⟨World.prim16, World.GF16, fun W p g => { W with prim16 := p, GF16 := g }⟩

/-- The statics `prim32`, `GF32`. -/
def slot32 : Slot := ⟨World.prim32, World.GF32, fun W p g => { W with prim32 := p, GF32 := g }⟩

/-- The common body of the three `reed_sol_galois_wNN_region_multby_2`: if
`primNN == -1`, `primNN = galois_single_multiply(1 << (w-1), 2, w)` and `GFNN`
is set up by `gf_init_hard(&GFNN, w, GF_MULT_BYTWO_b, GF_REGION_DEFAULT,
GF_DIVIDE_DEFAULT, primNN, 0, 0, NULL, NULL)` (fatal when that fails); then
`GFNN.multiply_region.w32(&GFNN, region, region, 2, nbytes, 0)`. -/
def region_multby_2 (L : gf_complete) (w : Nat) (sl : Slot) (region nbytes : Nat) :
    GM Unit := fun W =>
  match (if sl.prim W = neg1 then
           match galois_single_multiply L (1 <<< (w - 1)) 2 w W with
           | Outcome.fatal => Outcome.fatal
           | Outcome.ret (p, W1) =>
             match L.gf_init_hard w L.GF_MULT_BYTWO_b L.GF_REGION_DEFAULT L.GF_DIVIDE_DEFAULT
                 p 0 0 none none with
             | none => Outcome.fatal
             | some g => Outcome.ret ((), sl.set W1 p g)
         else Outcome.ret ((), W)) with
  | Outcome.fatal => Outcome.fatal
  | Outcome.ret (_, W2) =>
    match (sl.GF W2).multiply_region with
    | none => Outcome.fatal
    | some f =>
      Outcome.ret ((), { W2 with
        heap := f (some (sl.GF W2).scratch) W2.heap region region 2 nbytes 0 })

/-- `reed_sol_galois_w08_region_multby_2(region, nbytes)`. -/
def reed_sol_galois_w08_region_multby_2 (L : gf_complete) (region nbytes : Nat) : GM Unit :=
  region_multby_2 L 8 slot08 region nbytes

/-- `reed_sol_galois_w16_region_multby_2(region, nbytes)`. -/
def reed_sol_galois_w16_region_multby_2 (L : gf_complete) (region nbytes : Nat) : GM Unit :=
  region_multby_2 L 16 slot16 region nbytes

/-- `reed_sol_galois_w32_region_multby_2(region, nbytes)`. -/
def reed_sol_galois_w32_region_multby_2 (L : gf_complete) (region nbytes : Nat) : GM Unit :=
  region_multby_2 L 32 slot32 region nbytes

/-- The `switch (w)` of `reed_sol_r6_encode`: `none` after a `break`, `some 0`
for `default: return 0`. -/
def r6_switch (L : gf_complete) (w region size : Nat) : GM (Option Nat) :=
  if w = 8 then reed_sol_galois_w08_region_multby_2 L region size >>= fun _ => pure none
  else if w = 16 then reed_sol_galois_w16_region_multby_2 L region size >>= fun _ => pure none
  else if w = 32 then reed_sol_galois_w32_region_multby_2 L region size >>= fun _ => pure none
  else pure (some 0)

/-- The body of the loop `for (i = k-2; i >= 0; i--)` of `reed_sol_r6_encode`;
the result is `some r` when the function returns `r` from inside the loop. -/
def r6_step (L : gf_complete) (w : Nat) (data_ptrs coding_ptrs : Nat → Nat) (size i : Nat) :
    GM (Option Nat) :=
  r6_switch L w (coding_ptrs 1) size >>= fun o =>
  match o with
  | some r => pure (some r)
  | none => galois_region_xor L (data_ptrs i) (coding_ptrs 1) size >>= fun _ => pure none

/-- The loop `for (i = k-2; i >= 0; i--)` run for `n` iterations (iteration
`t` has `i = k-2-t`); an early return is carried through. -/
def r6_loop (L : gf_complete) (k w : Nat) (data_ptrs coding_ptrs : Nat → Nat) (size n : Nat) :
    GM (Option Nat) :=
  iterM n (fun t (ret : Option Nat) =>
    match ret with
    | some r => pure (some r)
    | none => r6_step L w data_ptrs coding_ptrs size (k - 2 - t)) none

/-- `reed_sol_r6_encode(k, w, data_ptrs, coding_ptrs, size)` for `k ≥ 1`; the
pointer arrays map an index to the address of the fragment. -/
def reed_sol_r6_encode (L : gf_complete) (k w : Nat) (data_ptrs coding_ptrs : Nat → Nat)
    (size : Nat) : GM Nat :=
  memcpy (coding_ptrs 0) (data_ptrs 0) size >>= fun _ =>
  forM 1 k (fun i _ => galois_region_xor L (data_ptrs i) (coding_ptrs 0) size) () >>= fun _ =>
  memcpy (coding_ptrs 1) (data_ptrs (k - 1)) size >>= fun _ =>
  r6_loop L k w data_ptrs coding_ptrs size (k - 1) >>= fun ret =>
  match ret with
  | some r => pure r
  | none => pure 1

/-! ## galois.c: inverse and registry management -/

/-- `galois_inverse(y, w)`. -/
def galois_inverse (L : gf_complete) (y w : Nat) : GM Nat :=
  if y = 0 then pure neg1 else galois_single_divide L 1 y w

/-- `galois_get_field_ptr(w)`; `none` is the `NULL` result. -/
def galois_get_field_ptr (w : Nat) : GM (Option gf_t) := fun W =>
  match W.gfp_array w with
  | some gf => Outcome.ret (some gf, W)
  | none => Outcome.ret (none, W)

/-- A call made to a release function: `gf_free(gf, recursive)` of GF-Complete,
or `free(gf)` of the allocator. -/
inductive Release where
  | gf_free (gf : gf_t) (recursive : Nat)
  | free (gf : gf_t)

/-- The object a non-null `gfp_array[w]` points to: one obtained from `malloc`,
or an entry of the static array `gfp_array_noalloc`.  The registry of `World`
holds the instances, not their addresses, so a routine that passes the pointer
to `free` takes this as a parameter. -/
inductive Storage where
  | heap
  | static_noalloc

/-- The storage of the instance that `galois_init(w)` registers in an empty
slot: `galois_init_default_field_noalloc` stores `&gfp_array_noalloc[tar]` for
the widths 8, 16 and 32, `galois_init_default_field` stores the result of
`malloc(sizeof(gf_t))` for every other width. -/
def galois_init_storage (w : Nat) : Storage :=
  if w = 8 ∨ w = 16 ∨ w = 32 then Storage.static_noalloc else Storage.heap

/-- `galois_uninit_field(w)`.  The parameter `gf_free` gives the value the
GF-Complete function `gf_free` returns, and `storage` tells where the pointer
in slot `w` points when it is not null.  `free(gfp_array[w])` on a pointer that
did not come from `malloc` is undefined behaviour: the call does not return
normally, which is the outcome `fatal`.  Otherwise the result is the returned
`ret` together with the calls made to the release functions, in order. -/
def galois_uninit_field (gf_free : gf_t → Nat → Nat) (storage : Storage) (w : Nat) :
    GM (Nat × List Release) := fun W =>
  match W.gfp_array w with
  | some gf =>
    let recursive := 1
    let ret := gf_free gf recursive
    match storage with
    | Storage.heap =>
      Outcome.ret ((ret, [Release.gf_free gf recursive, Release.free gf]), W.setField w none)
    | Storage.static_noalloc => Outcome.fatal
  | none => Outcome.ret ((0, []), W)

/-- `is_valid_gf(gf, w)`; `gf` is `none` for a null pointer. -/
def is_valid_gf (gf : Option gf_t) (_w : Nat) : Nat :=
  match gf with
  | none => 0
  | some g =>
    if g.multiply.isNone then 0
    else if g.multiply_region.isNone then 0
    else if g.divide.isNone then 0
    else if g.inverse.isNone then 0
    else if g.extract_word.isNone then 0
    else 1

/-- `galois_change_technique(gf, w)`; `gf` is `none` for a null pointer.  The
C function returns nothing: the result lists the calls made to the release
functions. -/
def galois_change_technique (gf : Option gf_t) (w : Nat) : GM (List Release) := fun W =>
  if w ≤ 0 ∨ w > 32 then Outcome.fatal
  else if is_valid_gf gf w = 0 then Outcome.fatal
  else
    let calls :=
      match W.gfp_array w with
      | some old => [Release.gf_free old (W.gfp_is_composite w)]
      | none => []
    Outcome.ret (calls, W.setField w gf)

/-! ## reed_sol.c: the caller's array after a buffer-supplied construction -/

/-- `reed_sol_big_vandermonde_distribution_matrix_noalloc(rows, cols, w, dist)`
with the content of the caller's array `dist` after the call next to the
result.  `reed_sol_extended_vandermonde_matrix_setup` returns `NULL` before its
first store, so the array is as it was; it returns `dist` itself otherwise, and
`reed_sol_big_vandermonde_distribution_matrix_setup` returns `NULL` before its
first store too, so the array is as the first phase left it. -/
def reed_sol_big_vandermonde_distribution_matrix_noalloc_array (L : gf_complete)
    (rows cols w : Nat) (dist : Buf) : GM (Option Buf × Buf) :=
  reed_sol_extended_vandermonde_matrix_noalloc L rows cols w dist >>= fun ret =>
  match ret with
  | none => pure (none, dist)
  | some d =>
    reed_sol_big_vandermonde_distribution_matrix_setup L rows cols w (some d) >>= fun r =>
    match r with
    | none => pure (none, d)
    | some d2 => pure (some d2, d2)

/-! ## galois.c: width-specialized region XOR -/

/-- `galois_w8_region_xor(src, dest, nbytes)`: the region function of the
instance registered for width 8 is called with `gfp_array[32]` as its handle
(`none` when that slot is null), `val = 1` and `add = 1`. -/
def galois_w8_region_xor (L : gf_complete) (src dest nbytes : Nat) : GM Unit := fun W =>
  match (match W.gfp_array 8 with
         | none => galois_init L 8 W
         | some _ => Outcome.ret ((), W)) with
  | Outcome.fatal => Outcome.fatal
  | Outcome.ret (_, W1) =>
    match W1.gfp_array 8 with
    | none => Outcome.fatal
    | some gf =>
      match gf.multiply_region with
      | none => Outcome.fatal
      | some f =>
        Outcome.ret ((), { W1 with
          heap := f ((W1.gfp_array 32).map fun g => g.scratch) W1.heap src dest 1 nbytes 1 })

/-- `galois_w16_region_xor(src, dest, nbytes)`: the region function of the
instance registered for width 16, called on that instance with `val = 1` and
`add = 1`. -/
def galois_w16_region_xor (L : gf_complete) (src dest nbytes : Nat) : GM Unit := fun W =>
  match (match W.gfp_array 16 with
         | none => galois_init L 16 W
         | some _ => Outcome.ret ((), W)) with
  | Outcome.fatal => Outcome.fatal
  | Outcome.ret (_, W1) =>
    match W1.gfp_array 16 with
    | none => Outcome.fatal
    | some gf =>
      match gf.multiply_region with
      | none => Outcome.fatal
      | some f =>
        Outcome.ret ((), { W1 with heap := f (some gf.scratch) W1.heap src dest 1 nbytes 1 })

/-! ## Definitions used in the proofs -/

/-- The product `gf->multiply.w32(gf, x, y)` of an instance called on itself
(`0` when the pointer is null). -/
def gf_t.mul (gf : gf_t) (x y : Nat) : Nat :=
  match gf.multiply with
  | some f => f (some gf.scratch) x y
  | none => 0

/-- The quotient `gf->divide.w32(gf, x, y)` of an instance called on itself
(`0` when the pointer is null). -/
def gf_t.div (gf : gf_t) (x y : Nat) : Nat :=
  match gf.divide with
  | some f => f (some gf.scratch) x y
  | none => 0

/-- The value `galois_single_multiply(x, y, w)` returns when the instance
registered for `w` is `gf`. -/
def gmul (gf : gf_t) (x y : Nat) : Nat :=
  if x = 0 ∨ y = 0 then 0 else gf.mul x y

/-- The value `galois_single_divide(x, y, w)` returns when the instance
registered for `w` is `gf`. -/
def gdiv (gf : gf_t) (x y : Nat) : Nat :=
  if x = 0 then 0 else if y = 0 then neg1 else gf.div x y

/-- The instance `galois_init(w)` registers in an empty slot `w`, `none` when
it ends fatally. -/
def default_field (L : gf_complete) (w : Nat) : Option gf_t :=
  if w = 8 ∨ w = 16 ∨ w = 32 then
    L.gf_init_hard w L.GF_MULT_DEFAULT L.GF_REGION_DEFAULT L.GF_DIVIDE_DEFAULT 0 0 0 none
      (some ((if w = 8 then 0 else if w = 16 then 1 else 2) * SCRATCH_SIZE))
  else if L.malloc_gf = false then none
  else L.gf_init_easy w

/-- The width `w` is supported and served by the instance `gf`: `w` lies in
`[1,32]`, and slot `w` of the registry holds `gf`, or is empty while the default
initialisation of the library yields `gf`. -/
def Ready (L : gf_complete) (w : Nat) (gf : gf_t) (W : World) : Prop :=
  1 ≤ w ∧ w ≤ 32 ∧
    (W.gfp_array w = some gf ∨ (W.gfp_array w = none ∧ default_field L w = some gf))

/-- The instance has its multiply and divide functions. -/
def HasOps (gf : gf_t) : Prop := gf.multiply.isSome = true ∧ gf.divide.isSome = true

/-- The instance `gf` implements the field GF(2^w) on the elements `0 .. 2^w-1`,
with `^` (bitwise exclusive or) as addition. -/
structure IsGF (w : Nat) (gf : gf_t) : Prop where
  w_pos : 1 ≤ w
  ops : HasOps gf
  mul_lt : ∀ x, x < 2 ^ w → ∀ y, y < 2 ^ w → gf.mul x y < 2 ^ w
  mul_comm : ∀ x, x < 2 ^ w → ∀ y, y < 2 ^ w → gf.mul x y = gf.mul y x
  mul_assoc : ∀ x, x < 2 ^ w → ∀ y, y < 2 ^ w → ∀ z, z < 2 ^ w →
    gf.mul (gf.mul x y) z = gf.mul x (gf.mul y z)
  mul_xor : ∀ x, x < 2 ^ w → ∀ y, y < 2 ^ w → ∀ z, z < 2 ^ w →
    gf.mul x (y ^^^ z) = gf.mul x y ^^^ gf.mul x z
  one_mul : ∀ x, x < 2 ^ w → gf.mul 1 x = x
  div_spec : ∀ x, x < 2 ^ w → ∀ y, y < 2 ^ w → y ≠ 0 →
    gf.div x y < 2 ^ w ∧ gf.mul (gf.div x y) y = x

/-- Total correctness of a routine: from a state satisfying `P` it returns, and
the result and final state satisfy `Q`. -/
def Triple {α : Type} (P : World → Prop) (m : GM α) (Q : α → World → Prop) : Prop :=
  ∀ W, P W → ∃ a W', m W = Outcome.ret (a, W') ∧ Q a W'

/-- The routine returns a value satisfying `q` and keeps the state invariant `I`. -/
def Yields {α : Type} (I : World → Prop) (m : GM α) (q : α → Prop) : Prop :=
  Triple I m (fun a W' => I W' ∧ q a)

/-- Under the state invariant `I`, `galois_single_multiply(x, y, w)` returns
`gmul gf x y`. -/
def MulOK (I : World → Prop) (L : gf_complete) (w : Nat) (gf : gf_t) : Prop :=
  ∀ x y, Yields I (galois_single_multiply L x y w) (fun v => v = gmul gf x y)

/-- Under the state invariant `I`, `galois_single_divide(x, y, w)` returns
`gdiv gf x y`. -/
def DivOK (I : World → Prop) (L : gf_complete) (w : Nat) (gf : gf_t) : Prop :=
  ∀ x y, Yields I (galois_single_divide L x y w) (fun v => v = gdiv gf x y)

/-- The power `i^j` obtained by multiplying `1` by `i`, `j` times, with
`galois_single_multiply`. -/
def gpow (gf : gf_t) (i : Nat) : Nat → Nat
  | 0 => 1
  | j + 1 => gmul gf (gpow gf i j) i

/-- The buffer `d` holds the `rows × cols` matrix `M` in row-major order. -/
def Rel (rows cols : Nat) (d : Buf) (M : Nat → Nat → Nat) : Prop :=
  ∀ r, r < rows → ∀ c, c < cols → d (r * cols + c) = M r c

/-- The extended Vandermonde matrix, entry by entry. -/
def extV (gf : gf_t) (rows cols : Nat) (r c : Nat) : Nat :=
  if r = 0 then (if c = 0 then 1 else 0)
  else if r = rows - 1 then (if c = cols - 1 then 1 else 0)
  else gpow gf r c

/-- Multiplication by the generator in GF(2^w) with reduction polynomial `poly`
(which has bit `w` set). -/
def ref_xtime (w poly x : Nat) : Nat :=
  if 2 ^ w ≤ 2 * x then (2 * x) ^^^ poly else 2 * x

/-- Shift-and-add multiplication: `n` rounds on `(x, y, acc)`. -/
def ref_mult_aux (w poly : Nat) : Nat → Nat → Nat → Nat → Nat
  | 0, _, _, acc => acc
  | n + 1, x, y, acc =>
    ref_mult_aux w poly n (ref_xtime w poly x) (y / 2) (if y % 2 = 1 then acc ^^^ x else acc)

/-- Product in GF(2^w) with reduction polynomial `poly`. -/
def ref_mult (w poly x y : Nat) : Nat := ref_mult_aux w poly w x y 0

/-- The product `x^2 * x^4 * ... * x^(2^n)` given `s = x`: squares `s` and
multiplies it into `acc`, `n` times. -/
def ref_inv_aux (w poly : Nat) : Nat → Nat → Nat → Nat
  | 0, _, acc => acc
  | n + 1, s, acc =>
    ref_inv_aux w poly n (ref_mult w poly s s) (ref_mult w poly acc (ref_mult w poly s s))

/-- Inverse of a nonzero element: `x^(2^w - 2) = x^2 * x^4 * ... * x^(2^(w-1))`. -/
def ref_inv (w poly x : Nat) : Nat := ref_inv_aux w poly (w - 1) x 1

/-- Reduction polynomials of the reference library. -/
def ref_poly (w : Nat) : Nat :=
  if w = 1 then 3 else if w = 2 then 7 else if w = 3 then 11 else if w = 4 then 19
  else if w = 8 then 285 else if w = 16 then 69643 else if w = 32 then 4299161607 else 0

/-- Little-endian word of `n` bytes at address `a`. -/
def read_word (h : Heap) (a : Nat) : Nat → Nat
  | 0 => 0
  | n + 1 => h a + 256 * read_word h (a + 1) n

/-- Byte `t` of the word `v`. -/
def word_byte (v t : Nat) : Nat := (v / 256 ^ t) % 256

/-- The region product of the reference library.  With `val = 0` the
destination is cleared (or kept, with `add`); with `val = 1` the source is
copied (or combined by `^`, with `add`) byte by byte; otherwise every `w`-bit
word of `src` is multiplied by `val` and stored to (or, with `add`, combined
by `^` into) `dest`. -/
def ref_region (w poly : Nat) (h : Heap) (src dest val bytes add : Nat) : Heap := fun a =>
  if dest ≤ a ∧ a < dest + bytes then
    if val = 0 then (if add = 0 then 0 else h a)
    else if val = 1 then (if add = 0 then h (src + (a - dest)) else h a ^^^ h (src + (a - dest)))
    else
      let b := word_byte
        (ref_mult w poly (read_word h (src + (a - dest) / (w / 8) * (w / 8)) (w / 8)) val)
        ((a - dest) % (w / 8))
      if add = 0 then b else h a ^^^ b
  else h a

/-- The reference instance for width `w`. -/
def ref_gf (w : Nat) : gf_t where
  scratch := w
  multiply := some (fun _ x y => ref_mult w (ref_poly w) x y)
  divide := some (fun _ x y => ref_mult w (ref_poly w) x (ref_inv w (ref_poly w) y))
  inverse := some (fun _ y => ref_inv w (ref_poly w) y)
  multiply_region := some (fun _ h src dest val bytes add =>
    ref_region w (ref_poly w) h src dest val bytes add)
  extract_word := some (fun _ h start index => read_word h (start + index * (w / 8)) (w / 8))

/-- The reference library: every supported width initialises to `ref_gf` and
allocation succeeds with zeroed memory. -/
def ref_lib : gf_complete where
  gf_init_easy := fun w => if ref_poly w = 0 then none else some (ref_gf w)
  gf_init_hard := fun w _ _ _ _ _ _ _ _ => if ref_poly w = 0 then none else some (ref_gf w)
  malloc_gf := true
  malloc_int := fun _ => some (fun _ => 0)
  GF_MULT_DEFAULT := 0
  GF_MULT_BYTWO_b := 6
  GF_REGION_DEFAULT := 0
  GF_DIVIDE_DEFAULT := 0

/-- The state of a fresh process: empty registry, unset doubling fields, zeroed
memory. -/
def World.init : World where
  gfp_array := fun _ => none
  gfp_is_composite := fun _ => 0
  prim08 := neg1
  GF08 := gf_blank
  prim16 := neg1
  GF16 := gf_blank
  prim32 := neg1
  GF32 := gf_blank
  heap := fun _ => 0
  stderr := []

/-- An element of the field implemented by `gf`: a natural number below `2^w`. -/
@[ext]
structure GFElt (w : Nat) (gf : gf_t) where
  val : Nat
  isLt : val < 2 ^ w

/-- The field element with pattern `n` (reduced below `2^w`). -/
def toF (w : Nat) (gf : gf_t) (n : Nat) : GFElt w gf :=
  ⟨n % 2 ^ w, Nat.mod_lt _ (Nat.two_pow_pos w)⟩

/-- The ring structure of the field implemented by `gf`: addition is `^`,
multiplication is the product of the instance. -/
instance GFElt.instCommRing (w : Nat) (gf : gf_t) [h : Fact (IsGF w gf)] :
    CommRing (GFElt w gf) :=
  @CommRing.ofMinimalAxioms (GFElt w gf)
    ⟨fun a b => ⟨a.val ^^^ b.val, Nat.xor_lt_two_pow a.isLt b.isLt⟩⟩
    ⟨fun a b => ⟨gf.mul a.val b.val, h.out.mul_lt _ a.isLt _ b.isLt⟩⟩
    ⟨fun a => a⟩
    ⟨⟨0, Nat.two_pow_pos w⟩⟩
    ⟨⟨1, Nat.one_lt_two_pow (by have := h.out.w_pos; omega)⟩⟩
    (fun a b c => GFElt.ext (Nat.xor_assoc _ _ _))
    (fun a => GFElt.ext (Nat.zero_xor _))
    (fun a => GFElt.ext (Nat.xor_self _))
    (fun a b c => GFElt.ext (h.out.mul_assoc _ a.isLt _ b.isLt _ c.isLt))
    (fun a b => GFElt.ext (h.out.mul_comm _ a.isLt _ b.isLt))
    (fun a => GFElt.ext (h.out.one_mul _ a.isLt))
    (fun a b c => GFElt.ext (h.out.mul_xor _ a.isLt _ b.isLt _ c.isLt))

/-- Every entry of the `rows × cols` matrix is a field element. -/
def InRange (w rows cols : Nat) (M : Nat → Nat → Nat) : Prop :=
  ∀ r, r < rows → ∀ c, c < cols → M r c < 2 ^ w

/-- The first `i` rows of the matrix are the first `i` unit vectors. -/
def Top (cols i : Nat) (M : Nat → Nat → Nat) : Prop :=
  ∀ r, r < i → ∀ c, c < cols → M r c = if r = c then 1 else 0

/-- Any `cols` distinct rows of the `rows × cols` matrix are linearly
independent over the field implemented by `gf`: a vector annihilated by `cols`
rows is zero. -/
def MDS (w : Nat) (gf : gf_t) [Fact (IsGF w gf)] (rows cols : Nat) (M : Nat → Nat → Nat) : Prop :=
  ∀ S : Finset Nat, (∀ r ∈ S, r < rows) → S.card = cols → ∀ x : Nat → GFElt w gf,
    (∀ r ∈ S, (Finset.range cols).sum (fun c => toF w gf (M r c) * x c) = 0) →
    ∀ c, c < cols → x c = 0

/-- The matrix with rows `a` and `b` exchanged. -/
def swapRows (M : Nat → Nat → Nat) (a b : Nat) : Nat → Nat → Nat :=
  fun r c => if r = a then M b c else if r = b then M a c else M r c

/-- The matrix with column `i` multiplied by `t` in the rows from `r0` on. -/
def scaleColFrom (gf : gf_t) (M : Nat → Nat → Nat) (i t r0 : Nat) : Nat → Nat → Nat :=
  fun r c => if c = i ∧ r0 ≤ r then gmul gf t (M r c) else M r c

/-- The matrix with `e` times column `i` added to column `j`. -/
def addCol (gf : gf_t) (M : Nat → Nat → Nat) (j i e : Nat) : Nat → Nat → Nat :=
  fun r c => if c = j then M r j ^^^ gmul gf e (M r i) else M r c

/-- The matrix with row `i` multiplied by `t`. -/
def scaleRow (gf : gf_t) (M : Nat → Nat → Nat) (i t : Nat) : Nat → Nat → Nat :=
  fun r c => if r = i then gmul gf (M r c) t else M r c

/-- The pivot search on the matrix: the first row from `j` on, within `fuel`
steps, that is out of range or has a nonzero entry in column `i`. -/
def find_row (M : Nat → Nat → Nat) (rows i : Nat) : Nat → Nat → Nat
  | 0, j => j
  | fuel + 1, j => if j < rows ∧ M j i = 0 then find_row M rows i fuel (j + 1) else j

/-- The matrix after row `i` has been cleared outside column `i`. -/
def clearRow (gf : gf_t) (M : Nat → Nat → Nat) (i cols : Nat) : Nat → Nat → Nat :=
  iter cols (fun j N => if j ≠ i ∧ N i j ≠ 0 then addCol gf N j i (N i j) else N) M

/-- One elimination step for pivot column `i`, on the matrix. -/
def stepM (gf : gf_t) (rows cols i : Nat) (M : Nat → Nat → Nat) : Nat → Nat → Nat :=
  let j := find_row M rows i (rows - i) i
  let M1 := if j ≠ i then swapRows M j i else M
  let M2 := if M1 i i ≠ 1 then scaleColFrom gf M1 i (gdiv gf 1 (M1 i i)) 0 else M1
  clearRow gf M2 i cols

/-- The matrix after the first `n` elimination steps (pivot columns `1 .. n`). -/
def elimM (gf : gf_t) (rows cols n : Nat) (M : Nat → Nat → Nat) : Nat → Nat → Nat :=
  iter n (fun t N => stepM gf rows cols (1 + t) N) M

/-- The matrix after the first normalization pass has treated `n` columns. -/
def pass1M (gf : gf_t) (cols n : Nat) (M : Nat → Nat → Nat) : Nat → Nat → Nat :=
  iter n (fun j N =>
    if N cols j ≠ 1 then scaleColFrom gf N j (gdiv gf 1 (N cols j)) cols else N) M

/-- The matrix after the second normalization pass has treated `n` rows. -/
def pass2M (gf : gf_t) (cols n : Nat) (M : Nat → Nat → Nat) : Nat → Nat → Nat :=
  iter n (fun t N =>
    if N (cols + 1 + t) 0 ≠ 1 then scaleRow gf N (cols + 1 + t) (gdiv gf 1 (N (cols + 1 + t) 0))
    else N) M

/-- The distribution matrix computed from the extended Vandermonde matrix. -/
def distM (gf : gf_t) (rows cols : Nat) : Nat → Nat → Nat :=
  pass2M gf cols (rows - (cols + 1))
    (pass1M gf cols cols (elimM gf rows cols (cols - 1) (extV gf rows cols)))

/-- Every entry below the identity block is nonzero. -/
def NZBelow (rows cols : Nat) (M : Nat → Nat → Nat) : Prop :=
  ∀ r, cols ≤ r → r < rows → ∀ c, c < cols → M r c ≠ 0

/-- The regions `[a, a+n)` and `[b, b+n)` do not overlap. -/
def Disj (a b n : Nat) : Prop := a + n ≤ b ∨ b + n ≤ a

/-- Memory after `memcpy(dest, src, n)`. -/
def heapCopy (h : Heap) (dest src n : Nat) : Heap := fun a =>
  if dest ≤ a ∧ a < dest + n then h (src + (a - dest)) else h a

/-- Memory after the bytes of `[src, src+n)` are combined by `^` into
`[dest, dest+n)`. -/
def xorInto (h : Heap) (src dest n : Nat) : Heap := fun a =>
  if dest ≤ a ∧ a < dest + n then h a ^^^ h (src + (a - dest)) else h a

/-- The value `f 0 ^ f 1 ^ ... ^ f (k-1)`. -/
def xor_range : Nat → (Nat → Nat) → Nat
  | 0, _ => 0
  | k + 1, f => xor_range k f ^^^ f k

/-- Memory after the region function of `g` is called on `g` itself (unchanged
when the pointer is null). -/
def regionApply (g : gf_t) (h : Heap) (src dest val n add : Nat) : Heap :=
  match g.multiply_region with
  | some f => f (some g.scratch) h src dest val n add
  | none => h

/-- Memory after `galois_region_xor(src, dest, size)` when `gf32` serves width
32. -/
def xorStep (gf32 : gf_t) (size : Nat) (h : Heap) (src dest : Nat) : Heap :=
  if size ≥ 16 then regionApply gf32 h src dest 1 size 1 else xor_byte_loop size h dest src

/-- Memory after `reed_sol_r6_encode` when `gf32` serves width 32 and `g` is
the doubling field: parity 0 after the first `n0` accumulations, parity 1
after the first `n1` Horner steps. -/
def encHeap (gf32 g : gf_t) (k : Nat) (data_ptrs coding_ptrs : Nat → Nat) (size : Nat)
    (h0 : Heap) : Heap :=
  iter (k - 1) (fun t h =>
      xorStep gf32 size (regionApply g h (coding_ptrs 1) (coding_ptrs 1) 2 size 0)
        (data_ptrs (k - 2 - t)) (coding_ptrs 1))
    (heapCopy
      (iter (k - 1) (fun t h => xorStep gf32 size h (data_ptrs (1 + t)) (coding_ptrs 0))
        (heapCopy h0 (coding_ptrs 0) (data_ptrs 0) size))
      (coding_ptrs 1) (data_ptrs (k - 1)) size)

/-- The accessors of a slot behave as two variables next to the rest of the
state. -/
def SlotOK (sl : Slot) : Prop :=
  ∀ W p g, sl.prim (sl.set W p g) = p ∧ sl.GF (sl.set W p g) = g ∧
    (sl.set W p g).heap = W.heap ∧ (sl.set W p g).gfp_array = W.gfp_array ∧
    ∀ (W0 : World) (h : Heap), sl.prim { W0 with heap := h } = sl.prim W0 ∧
      sl.GF { W0 with heap := h } = sl.GF W0 ∧
      ∀ (w : Nat) (p : Option gf_t), sl.prim (W0.setField w p) = sl.prim W0 ∧
        sl.GF (W0.setField w p) = sl.GF W0

/-- The doubling field of the slot is `g`: it is set up already, or the slot
is fresh and `gf_init_hard` yields `g` from the polynomial computed with the
field `gf` of the registry. -/
def DoubleReady (L : gf_complete) (w : Nat) (gf : gf_t) (sl : Slot) (g : gf_t) (W : World) :
    Prop :=
  (sl.prim W ≠ neg1 ∧ sl.GF W = g) ∨
  (sl.prim W = neg1 ∧
    L.gf_init_hard w L.GF_MULT_BYTWO_b L.GF_REGION_DEFAULT L.GF_DIVIDE_DEFAULT
      (gmul gf (1 <<< (w - 1)) 2) 0 0 none none = some g)

/-- The slot used by `reed_sol_r6_encode` for width `w`. -/
def slotOf (w : Nat) : Slot := if w = 8 then slot08 else if w = 16 then slot16 else slot32

/-- The backend state `reed_sol_r6_encode(k, w, .., size)` relies on: the
registry serves `w` with `gf` (needed to compute the doubling polynomial), the
doubling field is `g` with a region function, and for regions of 16 bytes or
more the registry serves width 32 with `gf32`, which has a region function. -/
def EncReady (L : gf_complete) (w : Nat) (gf gf32 g : gf_t) (size : Nat) (W : World) : Prop :=
  Ready L w gf W ∧ HasOps gf ∧ DoubleReady L w gf (slotOf w) g W ∧
    g.multiply_region.isSome = true ∧
    (16 ≤ size → Ready L 32 gf32 W ∧ gf32.multiply_region.isSome = true)

/-- The routine returns `a`, keeps the state invariant `I` and turns the
memory `h` into `F h`. -/
def Runs {α : Type} (I : World → Prop) (m : GM α) (a : α) (F : Heap → Heap) : Prop :=
  ∀ W, I W → ∃ W', m W = Outcome.ret (a, W') ∧ I W' ∧ W'.heap = F W.heap

/-- Partial correctness: whenever the routine returns, its result satisfies `Q`. -/
def Post {α : Type} (m : GM α) (Q : α → Prop) : Prop :=
  ∀ W a W', m W = Outcome.ret (a, W') → Q a

/-- Contract of a region function for `val = 1`, `add = 1` on non-overlapping
regions: the source bytes are combined by `^` into the destination. -/
def RegionXor (gf32 : gf_t) : Prop :=
  ∀ h src dest n, Disj src dest n → regionApply gf32 h src dest 1 n 1 = xorInto h src dest n

/-- Contract of a region function called in place with `val = 2`, `add = 0`:
nothing outside the region changes. -/
def RegionFrame (g : gf_t) : Prop :=
  ∀ (h : Heap) region n a, ¬ (region ≤ a ∧ a < region + n) →
    regionApply g h region region 2 n 0 a = h a

/-- Contract of the doubling region function for the field `gf` of width `w`:
on a region of bytes whose length is a multiple of the word size, the bytes
stay bytes and every word is multiplied by 2 in the field. -/
def RegionDoubles (w : Nat) (gf g : gf_t) : Prop :=
  ∀ (h : Heap) region n, (w / 8) ∣ n →
    (∀ a, region ≤ a → a < region + n → h a < 256) →
    (∀ a, region ≤ a → a < region + n → regionApply g h region region 2 n 0 a < 256) ∧
    ∀ p, p < n / (w / 8) →
      read_word (regionApply g h region region 2 n 0) (region + p * (w / 8)) (w / 8)
        = gmul gf (read_word h (region + p * (w / 8)) (w / 8)) 2

/-- The Horner value after `t` steps over the words `d 0 .. d (k-1)`: start
from `d (k-1)`, then double and add `d (k-2-t)`. -/
def horner (gf : gf_t) (d : Nat → Nat) (k : Nat) : Nat → Nat
  | 0 => d (k - 1)
  | t + 1 => gmul gf (horner gf d k t) 2 ^^^ d (k - 2 - t)

/-- The instance has all five capabilities `is_valid_gf` asks for. -/
def Capable (g : gf_t) : Prop :=
  g.multiply.isSome = true ∧ g.multiply_region.isSome = true ∧ g.divide.isSome = true ∧
    g.inverse.isSome = true ∧ g.extract_word.isSome = true

/-- The `cols × cols` matrix over the field of `gf` made of the rows
`sel 0, ..., sel (cols-1)` of the row-major array `dist`. -/
def rowSubmatrix (w : Nat) (gf : gf_t) (cols : Nat) (dist : Buf) (sel : Nat → Nat) :
    Matrix (Fin cols) (Fin cols) (GFElt w gf) :=
  Matrix.of fun i j => toF w gf (dist (sel i.val * cols + j.val))

/-- The rows `sel 0, ..., sel (cols-1)` of `dist` form an invertible matrix
over the field GF(2^w) implemented by `gf`: its determinant is not zero. -/
def RowsInvertible (w : Nat) (gf : gf_t) (hgf : IsGF w gf) (cols : Nat) (dist : Buf)
    (sel : Nat → Nat) : Prop :=
  haveI : Fact (IsGF w gf) := ⟨hgf⟩
  (rowSubmatrix w gf cols dist sel).det ≠ 0

/-- The rows `sel 0, ..., sel (cols-1)` of `dist` are linearly independent in
the arithmetic of the program: a combination of them with coefficients
`c i < 2^w`, formed with the products of `galois_single_multiply` (`gmul gf`)
and with `^` as sum, that is zero in every column has all coefficients zero. -/
def RowsIndependent (w : Nat) (gf : gf_t) (cols : Nat) (dist : Buf) (sel : Nat → Nat) : Prop :=
  ∀ c : Nat → Nat, (∀ i, i < cols → c i < 2 ^ w) →
    (∀ j, j < cols → xor_range cols (fun i => gmul gf (c i) (dist (sel i * cols + j))) = 0) →
    ∀ i, i < cols → c i = 0

/-- The backend state `galois_region_xor` relies on for `size` bytes: for 16
bytes or more the registry serves width 32 with `gf32`, which has a region
function. -/
def XorReady (L : gf_complete) (gf32 : gf_t) (size : Nat) (W : World) : Prop :=
  16 ≤ size → Ready L 32 gf32 W ∧ gf32.multiply_region.isSome = true

/-! # Proofs -/

theorem yields_pure {α : Type} (I : World → Prop) (a : α) (q : α → Prop) (h : q a) :
    Yields I (pure a : GM α) q := fun W hW => ⟨a, W, rfl, hW, h⟩

theorem yields_bind {α β : Type} {I : World → Prop} {m : GM α} {f : α → GM β}
    {p : α → Prop} {q : β → Prop} (h1 : Yields I m p)
    (h2 : ∀ a, p a → Yields I (f a) q) : Yields I (m >>= f) q := by
  intro W hW
  obtain ⟨a, W1, e1, hI1, hq1⟩ := h1 W hW
  obtain ⟨b, W2, e2, hI2, hq2⟩ := h2 a hq1 W1 hI1
  refine ⟨b, W2, ?_, hI2, hq2⟩
  show GM.bind m f W = _
  simp [GM.bind, e1, e2]

theorem yields_mono {α : Type} {I : World → Prop} {m : GM α} {q1 q2 : α → Prop}
    (h1 : Yields I m q1) (h : ∀ a, q1 a → q2 a) : Yields I m q2 := by
  intro W hW
  obtain ⟨a, W1, e1, hI1, hq1⟩ := h1 W hW
  exact ⟨a, W1, e1, hI1, h a hq1⟩

theorem yields_iterM {σ : Type} {I : World → Prop} (Inv : Nat → σ → Prop) (n : Nat)
    (body : Nat → σ → GM σ) (s : σ) (h0 : Inv 0 s)
    (hstep : ∀ t s, t < n → Inv t s → Yields I (body t s) (Inv (t + 1))) :
    Yields I (iterM n body s) (Inv n) := by
  induction n with
  | zero => exact yields_pure I s _ h0
  | succ n ih =>
    refine yields_bind (ih fun t s ht => hstep t s (Nat.lt_succ_of_lt ht)) ?_
    intro a ha
    exact hstep n a (Nat.lt_succ_self n) ha

theorem iter_inv {σ : Type} (Inv : Nat → σ → Prop) (n : Nat) (body : Nat → σ → σ) (s : σ)
    (h0 : Inv 0 s) (hstep : ∀ t s, t < n → Inv t s → Inv (t + 1) (body t s)) :
    Inv n (iter n body s) := by
  induction n with
  | zero => exact h0
  | succ n ih =>
    exact hstep n _ (Nat.lt_succ_self n) (ih fun t s ht => hstep t s (Nat.lt_succ_of_lt ht))

theorem galois_init_ready {L : gf_complete} {w : Nat} {gf : gf_t} {W : World}
    (h : Ready L w gf W) (hn : W.gfp_array w = none) :
    galois_init L w W = Outcome.ret ((), W.setField w (some gf)) := by
  obtain ⟨h1, h2, h3⟩ := h
  rcases h3 with h3 | ⟨_, h3⟩
  · rw [hn] at h3; cases h3
  · unfold default_field at h3
    unfold galois_init
    have hw : ¬ (w ≤ 0 ∨ w > 32) := by omega
    rw [if_neg hw]
    by_cases h8 : w = 8 ∨ w = 16 ∨ w = 32
    · rw [if_pos h8] at h3 ⊢
      simp only [galois_init_default_field_noalloc, if_pos h8, h3]
      simp [ENOMEM, EINVAL]
    · rw [if_neg h8] at h3 ⊢
      by_cases hm : L.malloc_gf = false
      · rw [if_pos hm] at h3; cases h3
      · rw [if_neg hm] at h3
        simp only [galois_init_default_field, hn, if_neg hm, h3]
        simp [ENOMEM, EINVAL]

theorem ready_setField {L : gf_complete} {w : Nat} {gf : gf_t} {W : World}
    (h : Ready L w gf W) : Ready L w gf (W.setField w (some gf)) := by
  refine ⟨h.1, h.2.1, Or.inl ?_⟩
  simp [World.setField]

theorem yields_mul {L : gf_complete} {w : Nat} {gf : gf_t} (hops : HasOps gf) :
    MulOK (Ready L w gf) L w gf := by
  intro x y W hW
  unfold galois_single_multiply gmul
  by_cases hz : x = 0 ∨ y = 0
  · exact ⟨0, W, by simp [hz], hW, by simp [hz]⟩
  · simp only [if_neg hz]
    obtain ⟨f, hf⟩ := Option.isSome_iff_exists.mp hops.1
    have hw32 : w ≤ 32 := hW.2.1
    cases hreg : W.gfp_array w with
    | none =>
      have hW1 := ready_setField hW
      refine ⟨gf.mul x y, W.setField w (some gf), ?_, hW1, rfl⟩
      simp [galois_init_ready hW hreg, hw32, World.setField, hf, gf_t.mul]
    | some g =>
      have hg : g = gf := by
        rcases hW.2.2 with h | ⟨h, _⟩
        · rw [hreg] at h; exact Option.some.inj h
        · rw [hreg] at h; cases h
      subst hg
      refine ⟨g.mul x y, W, ?_, hW, rfl⟩
      simp [hw32, hreg, hf, gf_t.mul]

theorem yields_div {L : gf_complete} {w : Nat} {gf : gf_t} (hops : HasOps gf) :
    DivOK (Ready L w gf) L w gf := by
  intro x y W hW
  unfold galois_single_divide gdiv
  by_cases hx : x = 0
  · exact ⟨0, W, by simp [hx], hW, by simp [hx]⟩
  by_cases hy : y = 0
  · exact ⟨neg1, W, by simp [hx, hy], hW, by simp [hx, hy]⟩
  simp only [if_neg hx, if_neg hy]
  obtain ⟨f, hf⟩ := Option.isSome_iff_exists.mp hops.2
  have hw32 : w ≤ 32 := hW.2.1
  cases hreg : W.gfp_array w with
  | none =>
    have hW1 := ready_setField hW
    refine ⟨gf.div x y, W.setField w (some gf), ?_, hW1, rfl⟩
    simp [galois_init_ready hW hreg, hw32, World.setField, hf, gf_t.div]
  | some g =>
    have hg : g = gf := by
      rcases hW.2.2 with h | ⟨h, _⟩
      · rw [hreg] at h; exact Option.some.inj h
      · rw [hreg] at h; cases h
    subst hg
    refine ⟨g.div x y, W, ?_, hW, rfl⟩
    simp [hw32, hreg, hf, gf_t.div]

theorem idx_inj {C r c r' c' : Nat} (hc : c < C) (hc' : c' < C) :
    r * C + c = r' * C + c' ↔ r = r' ∧ c = c' := by
  constructor
  · intro h
    have h1 : (r * C + c) % C = (r' * C + c') % C := by rw [h]
    have h2 : (r * C + c) / C = (r' * C + c') / C := by rw [h]
    have hC : 0 < C := by omega
    rw [Nat.mul_comm r, Nat.mul_comm r', Nat.mul_add_mod, Nat.mul_add_mod,
      Nat.mod_eq_of_lt hc, Nat.mod_eq_of_lt hc'] at h1
    rw [Nat.mul_comm r, Nat.mul_comm r', Nat.mul_add_div hC, Nat.mul_add_div hC,
      Nat.div_eq_of_lt hc, Nat.div_eq_of_lt hc'] at h2
    omega
  · rintro ⟨rfl, rfl⟩; rfl

theorem idx_lt {R C r c : Nat} (hr : r < R) (hc : c < C) : r * C + c < R * C := by
  have : (r + 1) * C ≤ R * C := Nat.mul_le_mul_right C hr
  have h2 : (r + 1) * C = r * C + C := by ring
  omega

/-- Effect of the interior-row loop of the extended Vandermonde construction. -/
theorem vdm_row_yields {I : World → Prop} {L : gf_complete} {w : Nat} {gf : gf_t}
    (hmul : MulOK I L w gf) (cols i : Nat) (v : Buf) :
    Yields I
      (iterM cols (fun j (st : Buf × Nat) =>
            galois_single_multiply L st.2 i w >>= fun k =>
            pure (Function.update st.1 (i * cols + j) st.2, k)) (v, 1) >>= fun st =>
          (pure st.1 : GM Buf))
      (fun v' => ∀ x, v' x = if x / cols = i ∧ x < (i + 1) * cols then gpow gf i (x % cols) else v x) := by
  refine yields_bind
    (yields_iterM (fun t (st : Buf × Nat) => st.2 = gpow gf i t ∧
      ∀ x, st.1 x = if i * cols ≤ x ∧ x < i * cols + t then gpow gf i (x - i * cols) else v x)
      cols _ _ ?_ ?_) ?_
  · refine ⟨rfl, fun x => ?_⟩
    rw [if_neg (by omega)]
  · intro t st ht ⟨hk, hv⟩
    refine yields_bind (hmul st.2 i) ?_
    intro k hk'
    refine yields_pure _ _ _ ⟨?_, fun x => ?_⟩
    · simp only [hk', hk, gpow]
    · simp only [Function.update_apply]
      by_cases hx : x = i * cols + t
      · subst hx
        rw [if_pos rfl, if_pos (by omega), hk]
        congr 1; omega
      · rw [if_neg hx, hv x]
        by_cases h1 : i * cols ≤ x ∧ x < i * cols + t
        · rw [if_pos h1, if_pos (by omega)]
        · rw [if_neg h1, if_neg (by omega)]
  · intro st ⟨_, hv⟩
    refine yields_pure _ _ _ fun x => ?_
    rw [hv x]
    by_cases hc : cols = 0
    · subst hc; simp
    have hcpos : 0 < cols := Nat.pos_of_ne_zero hc
    have key : (i * cols ≤ x ∧ x < i * cols + cols) ↔ (x / cols = i ∧ x < (i + 1) * cols) := by
      have e : (i + 1) * cols = i * cols + cols := by ring
      rw [e]
      constructor
      · rintro ⟨h1, h2⟩
        refine ⟨?_, h2⟩
        apply Nat.div_eq_of_lt_le
        · exact h1
        · rw [e]; exact h2
      · rintro ⟨h1, h2⟩
        refine ⟨?_, h2⟩
        rw [← h1]
        exact Nat.div_mul_le_self x cols
    by_cases h1 : i * cols ≤ x ∧ x < i * cols + cols
    · rw [if_pos h1, if_pos (key.mp h1)]
      congr 1
      have := Nat.div_add_mod x cols
      rw [(key.mp h1).1] at this
      rw [Nat.mul_comm] at this
      omega
    · rw [if_neg h1, if_neg (fun h => h1 (key.mpr h))]

theorem idx_le_iff {C a r c : Nat} (hc : c < C) : a * C ≤ r * C + c ↔ a ≤ r := by
  constructor
  · intro h
    by_contra hlt
    have h1 : r + 1 ≤ a := by omega
    have h2 : (r + 1) * C ≤ a * C := Nat.mul_le_mul_right C h1
    have h3 : (r + 1) * C = r * C + C := by ring
    omega
  · intro h
    have := Nat.mul_le_mul_right C h
    omega

theorem idx_lt_iff {C b r c : Nat} (hc : c < C) : r * C + c < b * C ↔ r < b := by
  constructor
  · intro h
    by_contra hlt
    have h1 : b ≤ r := by omega
    have h2 := Nat.mul_le_mul_right C h1
    omega
  · intro h
    exact idx_lt h hc

theorem iter_fill (n base : Nat) (val : Nat → Nat) (d : Buf) :
    iter n (fun t v => Function.update v (base + t) (val t)) d
      = fun x => if base ≤ x ∧ x < base + n then val (x - base) else d x := by
  induction n with
  | zero =>
    funext x
    simp only [iter]
    rw [if_neg (by omega)]
  | succ n ih =>
    funext x
    simp only [iter, ih, Function.update_apply]
    by_cases hx : x = base + n
    · subst hx
      rw [if_pos rfl, if_pos (by omega)]
      congr 1; omega
    · rw [if_neg hx]
      by_cases h1 : base ≤ x ∧ x < base + n
      · rw [if_pos h1, if_pos (by omega)]
      · rw [if_neg h1, if_neg (by omega)]

/-- Effect of the loop over the interior rows. -/
theorem vdm_rows_yields {I : World → Prop} {L : gf_complete} {w : Nat} {gf : gf_t}
    (hmul : MulOK I L w gf) (n cols : Nat) (v0 : Buf) :
    Yields I
      (iterM n (fun t v =>
          iterM cols (fun j (st : Buf × Nat) =>
            galois_single_multiply L st.2 (1 + t) w >>= fun k =>
            pure (Function.update st.1 ((1 + t) * cols + j) st.2, k)) (v, 1) >>= fun st =>
          (pure st.1 : GM Buf)) v0)
      (fun v' => ∀ x, v' x =
        if cols ≤ x ∧ x < (1 + n) * cols then gpow gf (x / cols) (x % cols) else v0 x) := by
  refine yields_iterM (fun t (v' : Buf) => ∀ x, v' x =
        if cols ≤ x ∧ x < (1 + t) * cols then gpow gf (x / cols) (x % cols) else v0 x)
      n _ _ ?_ ?_
  · intro x
    rw [if_neg (by rw [Nat.add_zero, Nat.one_mul]; omega)]
  · intro t v _ hv
    refine yields_mono (vdm_row_yields hmul cols (1 + t) v) ?_
    intro v' hv' x
    rw [hv' x, hv x]
    have e1 : (1 + t + 1) * cols = (1 + t) * cols + cols := by ring
    have e2 : (1 + (t + 1)) * cols = (1 + t) * cols + cols := by ring
    by_cases h : x / cols = 1 + t ∧ x < (1 + t + 1) * cols
    · rw [if_pos h, h.1]
      have hc : 0 < cols := by
        rcases Nat.eq_zero_or_pos cols with h0 | h0
        · subst h0; simp at h
        · exact h0
      have h3 : (1 + t) * cols ≤ x := by rw [← h.1]; exact Nat.div_mul_le_self x cols
      have h4 : cols ≤ (1 + t) * cols := by
        calc cols = 1 * cols := (Nat.one_mul _).symm
          _ ≤ (1 + t) * cols := Nat.mul_le_mul_right _ (by omega)
      rw [if_pos ⟨by omega, by omega⟩]
    · rw [if_neg h]
      by_cases h5 : cols ≤ x ∧ x < (1 + t) * cols
      · rw [if_pos h5, if_pos ⟨h5.1, by omega⟩]
      · rw [if_neg h5, if_neg]
        rintro ⟨h6, h7⟩
        apply h
        refine ⟨?_, by omega⟩
        apply Nat.div_eq_of_lt_le
        · omega
        · omega

theorem extV_setup_yields {I : World → Prop} {L : gf_complete} {w : Nat} {gf : gf_t}
    (rows cols : Nat) (hmul : 3 ≤ rows → MulOK I L w gf)
    (vdm : Buf) (hr : 1 ≤ rows) (hc : 1 ≤ cols)
    (h1 : ¬ (w < 30 ∧ 1 <<< w < rows)) (h2 : ¬ (w < 30 ∧ 1 <<< w < cols)) :
    Yields I (reed_sol_extended_vandermonde_matrix_setup L rows cols w vdm)
      (fun o => ∃ v, o = some v ∧ Rel rows cols v (extV gf rows cols) ∧
        ∀ x, rows * cols ≤ x → v x = vdm x) := by
  unfold reed_sol_extended_vandermonde_matrix_setup
  rw [if_neg h1, if_neg h2]
  simp only [forP, forM, Nat.zero_add, Nat.sub_zero]
  have f2 := iter_fill (cols - 1) 1 (fun _ => 0) (Function.update vdm 0 1)
  simp only [] at f2
  rw [f2]
  by_cases hr1 : rows = 1
  · rw [if_pos hr1]
    refine yields_pure _ _ _ ⟨_, rfl, ?_, ?_⟩
    · intro r hr' c hc'
      have : r = 0 := by omega
      subst this
      simp only [Nat.zero_mul, Nat.zero_add, extV, if_true, Function.update_apply]
      by_cases hc0 : c = 0
      · subst hc0; simp
      · rw [if_pos (by omega), if_neg hc0]
    · intro x hx
      subst hr1
      rw [Nat.one_mul] at hx
      simp only [Function.update_apply]
      rw [if_neg (by omega), if_neg (by omega)]
  rw [if_neg hr1]
  have f3 := iter_fill (cols - 1) ((rows - 1) * cols) (fun _ => 0)
    (fun x => if 1 ≤ x ∧ x < 1 + (cols - 1) then 0 else Function.update vdm 0 1 x)
  simp only [] at f3
  rw [f3]
  -- the content before the interior rows are filled
  have hv4 : ∀ r, r < rows → ∀ c, c < cols →
      (r = 0 ∨ r = rows - 1) →
      Function.update
        (fun x => if (rows - 1) * cols ≤ x ∧ x < (rows - 1) * cols + (cols - 1) then 0
          else if 1 ≤ x ∧ x < 1 + (cols - 1) then 0 else Function.update vdm 0 1 x)
        ((rows - 1) * cols + (cols - 1)) 1 (r * cols + c) = extV gf rows cols r c := by
    intro r hr' c hc' hcase
    have hlast : (rows - 1) * cols ≥ cols := by
      calc cols = 1 * cols := (Nat.one_mul _).symm
        _ ≤ (rows - 1) * cols := Nat.mul_le_mul_right _ (by omega)
    simp only [Function.update_apply, extV]
    rcases hcase with h0 | hl
    · subst h0
      simp only [Nat.zero_mul, Nat.zero_add, if_true]
      rw [if_neg (by omega), if_neg (by omega)]
      by_cases hc0 : c = 0
      · subst hc0; simp
      · rw [if_pos (by omega), if_neg hc0]
    · have hr0 : ¬ r = 0 := by omega
      rw [if_neg hr0, if_pos hl]
      subst hl
      by_cases hcl : c = cols - 1
      · subst hcl
        rw [if_pos rfl, if_pos rfl]
      · rw [if_neg (by omega), if_pos (by omega), if_neg hcl]
  have hframe4 : ∀ x, rows * cols ≤ x →
      Function.update
        (fun x => if (rows - 1) * cols ≤ x ∧ x < (rows - 1) * cols + (cols - 1) then 0
          else if 1 ≤ x ∧ x < 1 + (cols - 1) then 0 else Function.update vdm 0 1 x)
        ((rows - 1) * cols + (cols - 1)) 1 x = vdm x := by
    intro x hx
    have e : rows * cols = (rows - 1) * cols + cols := by
      conv_lhs => rw [show rows = (rows - 1) + 1 by omega]
      ring
    have hrc : cols ≤ rows * cols := by
      calc cols = 1 * cols := (Nat.one_mul _).symm
        _ ≤ rows * cols := Nat.mul_le_mul_right _ hr
    simp only [Function.update_apply]
    rw [if_neg (by omega), if_neg (by omega), if_neg (by omega), if_neg (by omega)]
  by_cases hr2 : rows = 2
  · rw [if_pos hr2]
    refine yields_pure _ _ _ ⟨_, rfl, ?_, hframe4⟩
    intro r hr' c hc'
    exact hv4 r hr' c hc' (by omega)
  rw [if_neg hr2]
  refine yields_bind (vdm_rows_yields (hmul (by omega)) (rows - 1 - 1) cols _) ?_
  intro v5 hv5
  refine yields_pure _ _ _ ⟨_, rfl, ?_, ?_⟩
  · intro r hr' c hc'
    rw [hv5]
    have e : 1 + (rows - 1 - 1) = rows - 1 := by omega
    rw [e]
    by_cases hint : 1 ≤ r ∧ r < rows - 1
    · have h3 : cols ≤ r * cols + c := by
        have := (idx_le_iff (a := 1) hc').mpr hint.1
        omega
      have h4 : r * cols + c < (rows - 1) * cols := (idx_lt_iff hc').mpr hint.2
      rw [if_pos ⟨h3, h4⟩]
      have hd : (r * cols + c) / cols = r := by
        rw [Nat.mul_comm, Nat.mul_add_div (by omega), Nat.div_eq_of_lt hc']; rfl
      have hm : (r * cols + c) % cols = c := by
        rw [Nat.mul_comm, Nat.mul_add_mod, Nat.mod_eq_of_lt hc']
      rw [hd, hm]
      simp only [extV]
      rw [if_neg (by omega), if_neg (by omega)]
    · have hcase : r = 0 ∨ r = rows - 1 := by omega
      rw [if_neg, hv4 r hr' c hc' hcase]
      rintro ⟨h3, h4⟩
      rcases hcase with h0 | hl
      · subst h0; omega
      · subst hl; omega
  · intro x hx
    rw [hv5, if_neg, hframe4 x hx]
    rintro ⟨_, h4⟩
    have e : 1 + (rows - 1 - 1) = rows - 1 := by omega
    rw [e] at h4
    have : (rows - 1) * cols ≤ rows * cols := Nat.mul_le_mul_right _ (by omega)
    omega

/-- Effect of `reed_sol_r6_coding_matrix_setup`. -/
theorem r6_setup_yields {I : World → Prop} {L : gf_complete} {w : Nat} {gf : gf_t}
    (k : Nat) (hmul : 2 ≤ k → MulOK I L w gf) (matrix : Buf) :
    Yields I (reed_sol_r6_coding_matrix_setup L k w matrix)
      (fun m => (∀ j, j < k → m j = 1 ∧ m (k + j) = gpow gf 2 j) ∧
        ∀ x, 2 * k ≤ x → k ≠ 0 → m x = matrix x) := by
  unfold reed_sol_r6_coding_matrix_setup
  simp only [forP, forM, Nat.zero_add, Nat.sub_zero]
  have f1 := iter_fill k 0 (fun _ => 1) matrix
  simp only [Nat.zero_add] at f1
  rw [f1]
  refine yields_bind
    (yields_iterM (fun t (st : Buf × Nat) => st.2 = gpow gf 2 t ∧ ∀ x, st.1 x =
      if k + 1 ≤ x ∧ x < k + 1 + t then gpow gf 2 (x - k)
      else Function.update (fun x => if 0 ≤ x ∧ x < k then 1 else matrix x) k 1 x)
      (k - 1) _ _ ?_ ?_) ?_
  · refine ⟨rfl, fun x => ?_⟩
    rw [if_neg (by omega)]
  · intro t st ht ⟨hk, hv⟩
    refine yields_bind (hmul (by omega) st.2 2) ?_
    intro tmp htmp
    refine yields_pure _ _ _ ⟨?_, fun x => ?_⟩
    · simp only [htmp, hk, gpow]
    · simp only []
      rw [Function.update_apply]
      by_cases hx : x = k + (1 + t)
      · subst hx
        rw [if_pos rfl, if_pos (by omega), htmp, hk]
        have : k + (1 + t) - k = t + 1 := by omega
        rw [this]; rfl
      · rw [if_neg hx, hv x]
        by_cases h1 : k + 1 ≤ x ∧ x < k + 1 + t
        · rw [if_pos h1, if_pos (by omega)]
        · rw [if_neg h1, if_neg (by omega)]
  · intro st hst'
    have hst := hst'.2
    refine yields_pure _ _ _ ⟨fun j hj => ⟨?_, ?_⟩, fun x hx hk0 => ?_⟩
    · rw [hst, if_neg (by omega), Function.update_apply, if_neg (by omega), if_pos (by omega)]
    · rw [hst]
      by_cases hj0 : j = 0
      · subst hj0
        rw [if_neg (by omega), Function.update_apply, if_pos (Nat.add_zero k)]; rfl
      · rw [if_pos (by omega)]
        congr 1; omega
    · rw [hst, if_neg (by omega), Function.update_apply, if_neg (by omega), if_neg (by omega)]

theorem ready_init_2 : Ready ref_lib 2 (ref_gf 2) World.init :=
  ⟨by decide, by decide, Or.inr ⟨rfl, rfl⟩⟩

theorem ready_init_8 : Ready ref_lib 8 (ref_gf 8) World.init :=
  ⟨by decide, by decide, Or.inr ⟨rfl, rfl⟩⟩

theorem hasOps_ref (w : Nat) : HasOps (ref_gf w) := ⟨rfl, rfl⟩

theorem isGF_ref_2 : IsGF 2 (ref_gf 2) where
  w_pos := by decide
  ops := hasOps_ref 2
  mul_lt := by decide
  mul_comm := by decide
  mul_assoc := by decide
  mul_xor := by decide
  one_mul := by decide
  div_spec := by decide

theorem GFElt.add_val {w : Nat} {gf : gf_t} [Fact (IsGF w gf)] (a b : GFElt w gf) :
    (a + b).val = a.val ^^^ b.val := rfl

theorem GFElt.mul_val {w : Nat} {gf : gf_t} [Fact (IsGF w gf)] (a b : GFElt w gf) :
    (a * b).val = gf.mul a.val b.val := rfl

theorem GFElt.zero_val {w : Nat} {gf : gf_t} [Fact (IsGF w gf)] :
    (0 : GFElt w gf).val = 0 := rfl

theorem GFElt.one_val {w : Nat} {gf : gf_t} [Fact (IsGF w gf)] :
    (1 : GFElt w gf).val = 1 := rfl

theorem toF_val {w : Nat} {gf : gf_t} {n : Nat} (h : n < 2 ^ w) : (toF w gf n).val = n :=
  Nat.mod_eq_of_lt h

theorem toF_zero {w : Nat} {gf : gf_t} [Fact (IsGF w gf)] : toF w gf 0 = 0 :=
  GFElt.ext (by rw [toF_val (Nat.two_pow_pos w)]; rfl)

theorem one_lt_of_isGF {w : Nat} {gf : gf_t} (h : IsGF w gf) : 1 < 2 ^ w :=
  Nat.one_lt_two_pow (by have := h.w_pos; omega)

theorem toF_one {w : Nat} {gf : gf_t} [h : Fact (IsGF w gf)] : toF w gf 1 = 1 :=
  GFElt.ext (by rw [toF_val (one_lt_of_isGF h.out)]; rfl)

theorem toF_xor {w : Nat} {gf : gf_t} [Fact (IsGF w gf)] {a b : Nat}
    (ha : a < 2 ^ w) (hb : b < 2 ^ w) : toF w gf (a ^^^ b) = toF w gf a + toF w gf b :=
  GFElt.ext (by
    rw [GFElt.add_val, toF_val ha, toF_val hb, toF_val (Nat.xor_lt_two_pow ha hb)])

theorem toF_inj {w : Nat} {gf : gf_t} {a b : Nat} (ha : a < 2 ^ w) (hb : b < 2 ^ w)
    (h : toF w gf a = toF w gf b) : a = b := by
  have := congrArg GFElt.val h
  rwa [toF_val ha, toF_val hb] at this

theorem gf_mul_zero {w : Nat} {gf : gf_t} (h : IsGF w gf) {x : Nat} (hx : x < 2 ^ w) :
    gf.mul x 0 = 0 := by
  have h0 : (0 : Nat) < 2 ^ w := Nat.two_pow_pos w
  have := h.mul_xor x hx 0 h0 0 h0
  rw [Nat.xor_self] at this
  rw [this, Nat.xor_self]

theorem gf_zero_mul {w : Nat} {gf : gf_t} (h : IsGF w gf) {x : Nat} (hx : x < 2 ^ w) :
    gf.mul 0 x = 0 := by
  rw [h.mul_comm 0 (Nat.two_pow_pos w) x hx]; exact gf_mul_zero h hx

theorem gmul_eq {w : Nat} {gf : gf_t} (h : IsGF w gf) {x y : Nat} (hx : x < 2 ^ w)
    (hy : y < 2 ^ w) : gmul gf x y = gf.mul x y := by
  unfold gmul
  by_cases hz : x = 0 ∨ y = 0
  · rw [if_pos hz]
    rcases hz with rfl | rfl
    · exact (gf_zero_mul h hy).symm
    · exact (gf_mul_zero h hx).symm
  · rw [if_neg hz]

theorem gmul_lt {w : Nat} {gf : gf_t} (h : IsGF w gf) {x y : Nat} (hx : x < 2 ^ w)
    (hy : y < 2 ^ w) : gmul gf x y < 2 ^ w := by
  rw [gmul_eq h hx hy]; exact h.mul_lt x hx y hy

theorem toF_gmul {w : Nat} {gf : gf_t} [h : Fact (IsGF w gf)] {a b : Nat}
    (ha : a < 2 ^ w) (hb : b < 2 ^ w) : toF w gf (gmul gf a b) = toF w gf a * toF w gf b :=
  GFElt.ext (by
    rw [GFElt.mul_val, toF_val ha, toF_val hb, toF_val (gmul_lt h.out ha hb),
      gmul_eq h.out ha hb])

theorem gmul_one {w : Nat} {gf : gf_t} (h : IsGF w gf) {x : Nat} (hx : x < 2 ^ w) :
    gmul gf x 1 = x := by
  rw [gmul_eq h hx (one_lt_of_isGF h), h.mul_comm x hx 1 (one_lt_of_isGF h), h.one_mul x hx]

theorem gdiv_one_spec {w : Nat} {gf : gf_t} (h : IsGF w gf) {y : Nat} (hy : y < 2 ^ w)
    (hy0 : y ≠ 0) : gdiv gf 1 y < 2 ^ w ∧ gdiv gf 1 y ≠ 0 ∧ gmul gf (gdiv gf 1 y) y = 1 := by
  have h1 := one_lt_of_isGF h
  have hd := h.div_spec 1 h1 y hy hy0
  have e : gdiv gf 1 y = gf.div 1 y := by
    unfold gdiv; rw [if_neg (by omega), if_neg hy0]
  rw [e]
  refine ⟨hd.1, ?_, ?_⟩
  · intro h0
    rw [h0, gf_zero_mul h hy] at hd
    omega
  · rw [gmul_eq h hd.1 hy]; exact hd.2

theorem GFElt.isDomain (w : Nat) (gf : gf_t) [h : Fact (IsGF w gf)] :
    IsDomain (GFElt w gf) := by
  haveI : Nontrivial (GFElt w gf) := ⟨⟨0, 1, fun e => by
    have := congrArg GFElt.val e
    rw [GFElt.zero_val, GFElt.one_val] at this
    omega⟩⟩
  haveI : NoZeroDivisors (GFElt w gf) := ⟨fun {a b} hab => by
    by_cases hb : b = 0
    · exact Or.inr hb
    · left
      have hb0 : b.val ≠ 0 := fun e => hb (GFElt.ext (by rw [e]; rfl))
      obtain ⟨hq1, _, hq3⟩ := gdiv_one_spec h.out b.isLt hb0
      have hq : (toF w gf (gdiv gf 1 b.val)) * b = 1 := by
        apply GFElt.ext
        rw [GFElt.mul_val, toF_val hq1, ← gmul_eq h.out hq1 b.isLt, hq3]; rfl
      calc a = a * (toF w gf (gdiv gf 1 b.val) * b) := by rw [hq, mul_one]
        _ = (a * b) * toF w gf (gdiv gf 1 b.val) := by ring
        _ = 0 := by rw [hab, zero_mul]⟩
  exact NoZeroDivisors.to_isDomain _

theorem toF_gpow {w : Nat} {gf : gf_t} [h : Fact (IsGF w gf)] {r : Nat} (hr : r < 2 ^ w)
    (c : Nat) : gpow gf r c < 2 ^ w ∧ toF w gf (gpow gf r c) = toF w gf r ^ c := by
  induction c with
  | zero => exact ⟨one_lt_of_isGF h.out, by rw [pow_zero]; exact toF_one⟩
  | succ c ih =>
    refine ⟨gmul_lt h.out ih.1 hr, ?_⟩
    show toF w gf (gmul gf (gpow gf r c) r) = _
    rw [toF_gmul ih.1 hr, ih.2, pow_succ]

theorem toF_ne_zero {w : Nat} {gf : gf_t} [Fact (IsGF w gf)] {a : Nat} (ha : a < 2 ^ w)
    (h0 : a ≠ 0) : toF w gf a ≠ 0 := by
  intro e
  rw [← toF_zero] at e
  exact h0 (toF_inj ha (Nat.two_pow_pos w) e)

theorem gmul_ne_zero {w : Nat} {gf : gf_t} (h : IsGF w gf) {a b : Nat} (ha : a < 2 ^ w)
    (hb : b < 2 ^ w) (ha0 : a ≠ 0) (hb0 : b ≠ 0) : gmul gf a b ≠ 0 := by
  haveI : Fact (IsGF w gf) := ⟨h⟩
  haveI := GFElt.isDomain w gf
  intro e
  have h1 := @toF_gmul w gf _ a b ha hb
  rw [e, toF_zero] at h1
  rcases mul_eq_zero.mp h1.symm with h2 | h2
  · exact toF_ne_zero ha ha0 h2
  · exact toF_ne_zero hb hb0 h2

theorem gmul_comm {w : Nat} {gf : gf_t} (h : IsGF w gf) {a b : Nat} (ha : a < 2 ^ w)
    (hb : b < 2 ^ w) : gmul gf a b = gmul gf b a := by
  rw [gmul_eq h ha hb, gmul_eq h hb ha, h.mul_comm a ha b hb]

theorem gmul_zero_right (gf : gf_t) (a : Nat) : gmul gf a 0 = 0 := by
  unfold gmul; rw [if_pos (Or.inr rfl)]

theorem gmul_zero_left (gf : gf_t) (a : Nat) : gmul gf 0 a = 0 := by
  unfold gmul; rw [if_pos (Or.inl rfl)]

theorem MDS_swapRows {w : Nat} {gf : gf_t} [Fact (IsGF w gf)] {rows cols : Nat}
    {M : Nat → Nat → Nat} {a b : Nat} (ha : a < rows) (hb : b < rows)
    (hM : MDS w gf rows cols M) : MDS w gf rows cols (swapRows M a b) := by
  intro S hS hcard x hx
  have key : ∀ r c, swapRows M a b r c = M (Equiv.swap a b r) c := by
    intro r c
    simp only [swapRows, Equiv.swap_apply_def]
    by_cases h1 : r = a
    · simp [h1]
    · by_cases h2 : r = b
      · subst h2
        rw [if_neg h1, if_neg h1, if_pos rfl, if_pos rfl]
      · simp [h1, h2]
  refine hM (S.map (Equiv.swap a b).toEmbedding) ?_ ?_ x ?_
  · intro r hr
    rw [Finset.mem_map] at hr
    obtain ⟨r0, hr0, rfl⟩ := hr
    simp only [Equiv.coe_toEmbedding, Equiv.swap_apply_def]
    split_ifs
    · exact hb
    · exact ha
    · exact hS r0 hr0
  · rw [Finset.card_map]; exact hcard
  · intro r hr
    rw [Finset.mem_map] at hr
    obtain ⟨r0, hr0, rfl⟩ := hr
    have := hx r0 hr0
    simp only [key] at this
    exact this

theorem MDS_scaleCol {w : Nat} {gf : gf_t} [Fact (IsGF w gf)] {rows cols : Nat}
    {M : Nat → Nat → Nat} {i t : Nat} (hin : InRange w rows cols M) (ht : t < 2 ^ w)
    (ht0 : t ≠ 0) (hM : MDS w gf rows cols M) :
    MDS w gf rows cols (scaleColFrom gf M i t 0) := by
  haveI := GFElt.isDomain w gf
  intro S hS hcard x hx
  have h0 := hM S hS hcard (fun c => if c = i then toF w gf t * x c else x c) ?_
  · intro c hc
    have := h0 c hc
    by_cases hci : c = i
    · simp only [hci, if_true] at this
      rcases mul_eq_zero.mp this with h1 | h1
      · exact absurd h1 (toF_ne_zero ht ht0)
      · rw [hci]; exact h1
    · simpa [hci] using this
  · intro r hr
    rw [← hx r hr]
    refine Finset.sum_congr rfl fun c hc => ?_
    have hc' : c < cols := Finset.mem_range.mp hc
    simp only [scaleColFrom, Nat.zero_le, and_true]
    by_cases hci : c = i
    · rw [if_pos hci, if_pos hci, toF_gmul ht (hin r (hS r hr) c hc')]
      ring
    · rw [if_neg hci, if_neg hci]

theorem MDS_addCol {w : Nat} {gf : gf_t} [Fact (IsGF w gf)] {rows cols : Nat}
    {M : Nat → Nat → Nat} {i j e : Nat} (hin : InRange w rows cols M) (he : e < 2 ^ w)
    (hi : i < cols) (hj : j < cols) (hij : j ≠ i) (hM : MDS w gf rows cols M) :
    MDS w gf rows cols (addCol gf M j i e) := by
  intro S hS hcard x hx
  have h0 := hM S hS hcard (fun c => if c = i then x i + toF w gf e * x j else x c) ?_
  · have hxj : x j = 0 := by simpa [hij] using h0 j hj
    intro c hc
    have := h0 c hc
    by_cases hci : c = i
    · subst hci
      simpa [hxj] using this
    · simpa [hci] using this
  · intro r hr
    have hr' := hS r hr
    rw [← hx r hr]
    have e1 : ∀ c ∈ Finset.range cols,
        toF w gf (M r c) * (if c = i then x i + toF w gf e * x j else x c)
          = toF w gf (M r c) * x c
            + (if c = i then toF w gf e * toF w gf (M r i) * x j else 0) := by
      intro c _
      by_cases hci : c = i
      · subst hci; simp only [if_true]; ring
      · simp only [if_neg hci, add_zero]
    have e2 : ∀ c ∈ Finset.range cols,
        toF w gf (addCol gf M j i e r c) * x c
          = toF w gf (M r c) * x c
            + (if c = j then toF w gf e * toF w gf (M r i) * x j else 0) := by
      intro c _
      simp only [addCol]
      by_cases hcj : c = j
      · subst hcj
        simp only [if_true]
        rw [toF_xor (hin r hr' c hj) (gmul_lt (Fact.out) he (hin r hr' i hi)),
          toF_gmul he (hin r hr' i hi)]
        ring
      · simp only [if_neg hcj, add_zero]
    rw [Finset.sum_congr rfl e1, Finset.sum_congr rfl e2, Finset.sum_add_distrib,
      Finset.sum_add_distrib, Finset.sum_ite_eq', Finset.sum_ite_eq',
      if_pos (Finset.mem_range.mpr hi), if_pos (Finset.mem_range.mpr hj)]

theorem MDS_scaleRow {w : Nat} {gf : gf_t} [Fact (IsGF w gf)] {rows cols : Nat}
    {M : Nat → Nat → Nat} {i t : Nat} (hin : InRange w rows cols M) (ht : t < 2 ^ w)
    (ht0 : t ≠ 0) (hM : MDS w gf rows cols M) :
    MDS w gf rows cols (scaleRow gf M i t) := by
  haveI := GFElt.isDomain w gf
  intro S hS hcard x hx
  refine hM S hS hcard x ?_
  intro r hr
  have h1 := hx r hr
  by_cases hri : r = i
  · have e1 : ∀ c ∈ Finset.range cols,
        toF w gf (scaleRow gf M i t r c) * x c = toF w gf t * (toF w gf (M r c) * x c) := by
      intro c hc
      simp only [scaleRow, if_pos hri]
      rw [toF_gmul (hin r (hS r hr) c (Finset.mem_range.mp hc)) ht]
      ring
    rw [Finset.sum_congr rfl e1, ← Finset.mul_sum] at h1
    rcases mul_eq_zero.mp h1 with h2 | h2
    · exact absurd h2 (toF_ne_zero ht ht0)
    · exact h2
  · have e1 : ∀ c ∈ Finset.range cols,
        toF w gf (scaleRow gf M i t r c) * x c = toF w gf (M r c) * x c := by
      intro c _
      simp only [scaleRow, if_neg hri]
    rw [Finset.sum_congr rfl e1] at h1
    exact h1

theorem vdm_poly_coeff {R : Type} [CommRing R] (cols : Nat) (x : Nat → R) (m : Nat) :
    ((Finset.range cols).sum (fun c => Polynomial.C (x c) * Polynomial.X ^ c)).coeff m
      = if m < cols then x m else 0 := by
  rw [Polynomial.finset_sum_coeff]
  simp only [Polynomial.coeff_C_mul_X_pow]
  rw [Finset.sum_ite_eq]
  simp only [Finset.mem_range]

theorem vdm_poly_eval {R : Type} [CommRing R] (cols : Nat) (x : Nat → R) (a : R) :
    ((Finset.range cols).sum (fun c => Polynomial.C (x c) * Polynomial.X ^ c)).eval a
      = (Finset.range cols).sum (fun c => a ^ c * x c) := by
  rw [Polynomial.eval_finset_sum]
  refine Finset.sum_congr rfl fun c _ => ?_
  simp only [Polynomial.eval_mul, Polynomial.eval_C, Polynomial.eval_pow, Polynomial.eval_X]
  ring

theorem toF_extV {w : Nat} {gf : gf_t} [h : Fact (IsGF w gf)] {rows cols r c : Nat}
    (hr : r + 1 < rows) (hr2 : r < 2 ^ w) :
    extV gf rows cols r c < 2 ^ w ∧ toF w gf (extV gf rows cols r c) = toF w gf r ^ c := by
  unfold extV
  by_cases h0 : r = 0
  · subst h0
    rw [if_pos rfl, toF_zero]
    by_cases hc : c = 0
    · subst hc
      rw [if_pos rfl, pow_zero]
      exact ⟨one_lt_of_isGF h.out, toF_one⟩
    · rw [if_neg hc, zero_pow hc]
      exact ⟨Nat.two_pow_pos w, toF_zero⟩
  · rw [if_neg h0, if_neg (by omega)]
    exact toF_gpow hr2 c

theorem extV_inRange {w : Nat} {gf : gf_t} (h : IsGF w gf) {rows cols : Nat}
    (hrows : rows ≤ 2 ^ w) : InRange w rows cols (extV gf rows cols) := by
  haveI : Fact (IsGF w gf) := ⟨h⟩
  intro r hr c _
  by_cases hl : r + 1 < rows
  · exact (@toF_extV w gf _ rows cols r c hl (by omega)).1
  · unfold extV
    have hr1 : r = rows - 1 := by omega
    by_cases h0 : r = 0
    · rw [if_pos h0]
      split_ifs
      · exact one_lt_of_isGF h
      · exact Nat.two_pow_pos w
    · rw [if_neg h0, if_pos hr1]
      split_ifs
      · exact one_lt_of_isGF h
      · exact Nat.two_pow_pos w

/-- Any `cols` rows of the extended Vandermonde matrix are linearly
independent. -/
theorem extV_MDS {w : Nat} {gf : gf_t} [h : Fact (IsGF w gf)] {rows cols : Nat}
    (hc : 1 ≤ cols) (hrc : cols < rows) (hrows : rows ≤ 2 ^ w) :
    MDS w gf rows cols (extV gf rows cols) := by
  haveI := GFElt.isDomain w gf
  intro S hS hcard x hx
  classical
  -- the polynomial with coefficients `x`
  set p : Polynomial (GFElt w gf) :=
    (Finset.range cols).sum (fun c => Polynomial.C (x c) * Polynomial.X ^ c) with hp
  have hcoeff : ∀ m, p.coeff m = if m < cols then x m else 0 := vdm_poly_coeff cols x
  -- every row but the last is an evaluation of `p`
  have heval : ∀ r ∈ S, r ≠ rows - 1 → p.eval (toF w gf r) = 0 := by
    intro r hr hne
    have hr' := hS r hr
    rw [hp, vdm_poly_eval, ← hx r hr]
    refine Finset.sum_congr rfl fun c _ => ?_
    rw [(@toF_extV w gf _ rows cols r c (by omega) (by omega)).2]
  -- the roots
  set Z : Finset (GFElt w gf) := (S.erase (rows - 1)).image (toF w gf) with hZ
  have hZcard : Z.card = (S.erase (rows - 1)).card := by
    apply Finset.card_image_of_injOn
    intro a ha b hb hab
    have ha' := hS a (Finset.mem_of_mem_erase ha)
    have hb' := hS b (Finset.mem_of_mem_erase hb)
    exact toF_inj (by omega) (by omega) hab
  have hZroot : ∀ z ∈ Z, p.eval z = 0 := by
    intro z hz
    rw [hZ, Finset.mem_image] at hz
    obtain ⟨r, hr, rfl⟩ := hz
    exact heval r (Finset.mem_of_mem_erase hr) (Finset.ne_of_mem_erase hr)
  have hp0 : p = 0 := by
    apply Polynomial.eq_zero_of_degree_lt_of_eval_finset_eq_zero Z _ hZroot
    rw [Polynomial.degree_lt_iff_coeff_zero]
    intro m hm
    rw [hcoeff]
    by_cases hlast : rows - 1 ∈ S
    · -- the last row forces the top coefficient to vanish
      have hxl : x (cols - 1) = 0 := by
        have := hx (rows - 1) hlast
        have e1 : ∀ c ∈ Finset.range cols,
            toF w gf (extV gf rows cols (rows - 1) c) * x c
              = if c = cols - 1 then x c else 0 := by
          intro c _
          unfold extV
          rw [if_neg (by omega), if_pos rfl]
          by_cases hcl : c = cols - 1
          · rw [if_pos hcl, if_pos hcl, toF_one, one_mul]
          · rw [if_neg hcl, if_neg hcl, toF_zero, zero_mul]
        rw [Finset.sum_congr rfl e1, Finset.sum_ite_eq',
          if_pos (Finset.mem_range.mpr (by omega))] at this
        exact this
      rw [hZcard, Finset.card_erase_of_mem hlast, hcard] at hm
      by_cases hmc : m < cols
      · have : m = cols - 1 := by omega
        rw [if_pos hmc, this, hxl]
      · rw [if_neg hmc]
    · rw [hZcard, Finset.erase_eq_of_not_mem hlast, hcard] at hm
      rw [if_neg (by omega)]
  intro c hc'
  have := hcoeff c
  rw [hp0, Polynomial.coeff_zero, if_pos hc'] at this
  exact this.symm

/-- A column that vanishes on every row contradicts `MDS`. -/
theorem MDS_column_ne_zero {w : Nat} {gf : gf_t} [h : Fact (IsGF w gf)] {rows cols : Nat}
    {M : Nat → Nat → Nat} (hrc : cols ≤ rows) (hM : MDS w gf rows cols M) {i : Nat}
    (hi : i < cols) : ∃ r, r < rows ∧ M r i ≠ 0 := by
  haveI := GFElt.isDomain w gf
  by_contra hall
  have hz : ∀ r, r < rows → M r i = 0 := by
    intro r hr
    by_contra hne
    exact hall ⟨r, hr, hne⟩
  have := hM (Finset.range cols) (fun r hr => by have := Finset.mem_range.mp hr; omega)
    (Finset.card_range cols) (fun c => if c = i then 1 else 0) ?_ i hi
  · simp at this
  · intro r hr
    have hr' : r < rows := by have := Finset.mem_range.mp hr; omega
    simp only [mul_ite, mul_one, mul_zero]
    rw [Finset.sum_ite_eq', if_pos (Finset.mem_range.mpr hi), hz r hr', toF_zero]

/-- Below an identity block, `MDS` makes every entry nonzero. -/
theorem MDS_below_ne_zero {w : Nat} {gf : gf_t} [h : Fact (IsGF w gf)] {rows cols : Nat}
    {M : Nat → Nat → Nat} (hM : MDS w gf rows cols M)
    (htop : Top cols cols M) {r j : Nat} (hr1 : cols ≤ r) (hr2 : r < rows) (hj : j < cols) :
    M r j ≠ 0 := by
  haveI := GFElt.isDomain w gf
  intro hz
  have hnot : r ∉ (Finset.range cols).erase j := by
    intro hmem
    have := Finset.mem_range.mp (Finset.mem_of_mem_erase hmem)
    omega
  have := hM (insert r ((Finset.range cols).erase j)) ?_ ?_ (fun c => if c = j then 1 else 0) ?_
    j hj
  · simp at this
  · intro r' hr'
    rcases Finset.mem_insert.mp hr' with h1 | h1
    · rw [h1]; exact hr2
    · have := Finset.mem_range.mp (Finset.mem_of_mem_erase h1)
      omega
  · rw [Finset.card_insert_of_not_mem hnot,
      Finset.card_erase_of_mem (Finset.mem_range.mpr hj), Finset.card_range]
    omega
  · intro r' hr'
    simp only [mul_ite, mul_one, mul_zero]
    rw [Finset.sum_ite_eq', if_pos (Finset.mem_range.mpr hj)]
    rcases Finset.mem_insert.mp hr' with h1 | h1
    · rw [h1, hz, toF_zero]
    · have h2 := Finset.mem_range.mp (Finset.mem_of_mem_erase h1)
      have h3 := Finset.ne_of_mem_erase h1
      rw [htop r' h2 j hj, if_neg h3, toF_zero]

theorem find_row_spec (M : Nat → Nat → Nat) (rows i : Nat) :
    ∀ fuel j0, fuel = rows - j0 → j0 ≤ rows →
      j0 ≤ find_row M rows i fuel j0 ∧ find_row M rows i fuel j0 ≤ rows ∧
      (∀ j', j0 ≤ j' → j' < find_row M rows i fuel j0 → M j' i = 0) ∧
      (find_row M rows i fuel j0 < rows → M (find_row M rows i fuel j0) i ≠ 0) := by
  intro fuel
  induction fuel with
  | zero =>
    intro j0 hf hj
    simp only [find_row]
    exact ⟨le_refl _, hj, fun j' h1 h2 => by omega, fun h => by omega⟩
  | succ fuel ih =>
    intro j0 hf hj
    simp only [find_row]
    by_cases hcond : j0 < rows ∧ M j0 i = 0
    · rw [if_pos hcond]
      obtain ⟨h1, h2, h3, h4⟩ := ih (j0 + 1) (by omega) (by omega)
      refine ⟨by omega, h2, ?_, h4⟩
      intro j' hj1 hj2
      by_cases hj0 : j' = j0
      · rw [hj0]; exact hcond.2
      · exact h3 j' (by omega) hj2
    · rw [if_neg hcond]
      refine ⟨le_refl _, hj, fun j' h1 h2 => by omega, fun h => ?_⟩
      intro hz
      exact hcond ⟨h, hz⟩

theorem InRange_swapRows {w rows cols : Nat} {M : Nat → Nat → Nat} {a b : Nat}
    (ha : a < rows) (hb : b < rows) (hin : InRange w rows cols M) :
    InRange w rows cols (swapRows M a b) := by
  intro r hr c hc
  simp only [swapRows]
  split_ifs
  · exact hin b hb c hc
  · exact hin a ha c hc
  · exact hin r hr c hc

theorem Top_swapRows {cols i : Nat} {M : Nat → Nat → Nat} {a b : Nat}
    (ha : i ≤ a) (hb : i ≤ b) (htop : Top cols i M) : Top cols i (swapRows M a b) := by
  intro r hr c hc
  simp only [swapRows]
  rw [if_neg (by omega), if_neg (by omega)]
  exact htop r hr c hc

theorem InRange_scaleColFrom {w : Nat} {gf : gf_t} (h : IsGF w gf) {rows cols : Nat}
    {M : Nat → Nat → Nat} {i t r0 : Nat} (ht : t < 2 ^ w) (hin : InRange w rows cols M) :
    InRange w rows cols (scaleColFrom gf M i t r0) := by
  intro r hr c hc
  simp only [scaleColFrom]
  split_ifs
  · exact gmul_lt h ht (hin r hr c hc)
  · exact hin r hr c hc

theorem InRange_addCol {w : Nat} {gf : gf_t} (h : IsGF w gf) {rows cols : Nat}
    {M : Nat → Nat → Nat} {j i e : Nat} (he : e < 2 ^ w) (hi : i < cols) (hj : j < cols)
    (hin : InRange w rows cols M) : InRange w rows cols (addCol gf M j i e) := by
  intro r hr c hc
  simp only [addCol]
  split_ifs
  · exact Nat.xor_lt_two_pow (hin r hr j hj) (gmul_lt h he (hin r hr i hi))
  · exact hin r hr c hc

theorem InRange_scaleRow {w : Nat} {gf : gf_t} (h : IsGF w gf) {rows cols : Nat}
    {M : Nat → Nat → Nat} {i t : Nat} (ht : t < 2 ^ w) (hin : InRange w rows cols M) :
    InRange w rows cols (scaleRow gf M i t) := by
  intro r hr c hc
  simp only [scaleRow]
  split_ifs
  · exact gmul_lt h (hin r hr c hc) ht
  · exact hin r hr c hc

/-- Clearing row `i`, whose pivot is 1, makes it the unit vector and keeps the
invariants. -/
theorem clearRow_inv {w : Nat} {gf : gf_t} [h : Fact (IsGF w gf)] {rows cols i : Nat}
    {M : Nat → Nat → Nat} (hi : i < cols) (hir : i < rows) (hin : InRange w rows cols M)
    (htop : Top cols i M) (hM : MDS w gf rows cols M) (hii : M i i = 1) :
    InRange w rows cols (clearRow gf M i cols) ∧ Top cols (i + 1) (clearRow gf M i cols) ∧
      MDS w gf rows cols (clearRow gf M i cols) := by
  have hstep : ∀ j (N : Nat → Nat → Nat), j < cols →
      (InRange w rows cols N ∧ Top cols i N ∧ MDS w gf rows cols N ∧ N i i = 1 ∧
        ∀ c, c < j → c ≠ i → N i c = 0) →
      (InRange w rows cols (if j ≠ i ∧ N i j ≠ 0 then addCol gf N j i (N i j) else N) ∧
        Top cols i (if j ≠ i ∧ N i j ≠ 0 then addCol gf N j i (N i j) else N) ∧
        MDS w gf rows cols (if j ≠ i ∧ N i j ≠ 0 then addCol gf N j i (N i j) else N) ∧
        (if j ≠ i ∧ N i j ≠ 0 then addCol gf N j i (N i j) else N) i i = 1 ∧
        ∀ c, c < j + 1 → c ≠ i →
          (if j ≠ i ∧ N i j ≠ 0 then addCol gf N j i (N i j) else N) i c = 0) := by
    intro j N hj ⟨k1, k2, k3, k4, k5⟩
    by_cases hcond : j ≠ i ∧ N i j ≠ 0
    · simp only [if_pos hcond]
      have he : N i j < 2 ^ w := k1 i hir j hj
      refine ⟨InRange_addCol h.out he hi hj k1, ?_, MDS_addCol k1 he hi hj hcond.1 k3, ?_, ?_⟩
      · intro r hr c hc
        simp only [addCol]
        by_cases hcj : c = j
        · rw [if_pos hcj, k2 r hr i hi, if_neg (by omega), gmul_zero_right, Nat.xor_zero,
            ← hcj]
          exact k2 r hr c hc
        · rw [if_neg hcj]; exact k2 r hr c hc
      · simp only [addCol]
        rw [if_neg (fun e => hcond.1 e.symm)]; exact k4
      · intro c hc hci
        simp only [addCol]
        by_cases hcj : c = j
        · rw [if_pos hcj, k4, gmul_one h.out he, Nat.xor_self]
        · rw [if_neg hcj]; exact k5 c (by omega) hci
    · simp only [if_neg hcond]
      refine ⟨k1, k2, k3, k4, ?_⟩
      intro c hc hci
      by_cases hcj : c = j
      · subst hcj
        by_contra hne
        exact hcond ⟨hci, hne⟩
      · exact k5 c (by omega) hci
  obtain ⟨k1, k2, k3, k4, k5⟩ := iter_inv (fun j (N : Nat → Nat → Nat) =>
      InRange w rows cols N ∧ Top cols i N ∧ MDS w gf rows cols N ∧ N i i = 1 ∧
        ∀ c, c < j → c ≠ i → N i c = 0) cols
      (fun j N => if j ≠ i ∧ N i j ≠ 0 then addCol gf N j i (N i j) else N) M
      ⟨hin, htop, hM, hii, fun c hc => absurd hc (Nat.not_lt_zero c)⟩ hstep
  refine ⟨k1, ?_, k3⟩
  intro r hr c hc
  by_cases hri : r = i
  · subst hri
    by_cases hrc : r = c
    · subst hrc; rw [if_pos rfl]; exact k4
    · rw [if_neg hrc]; exact k5 c hc (fun e => hrc e.symm)
  · exact k2 r (Nat.lt_of_le_of_ne (Nat.lt_succ_iff.mp hr) hri) c hc

/-- One elimination step finds its pivot and keeps the invariants. -/
theorem stepM_inv {w : Nat} {gf : gf_t} [h : Fact (IsGF w gf)] {rows cols i : Nat}
    {M : Nat → Nat → Nat} (hi : i < cols) (hrc : cols < rows)
    (hin : InRange w rows cols M) (htop : Top cols i M) (hM : MDS w gf rows cols M) :
    (i ≤ find_row M rows i (rows - i) i ∧ find_row M rows i (rows - i) i < rows ∧
      M (find_row M rows i (rows - i) i) i ≠ 0) ∧
    InRange w rows cols (stepM gf rows cols i M) ∧ Top cols (i + 1) (stepM gf rows cols i M) ∧
      MDS w gf rows cols (stepM gf rows cols i M) := by
  obtain ⟨f1, f2, f3, f4⟩ := find_row_spec M rows i (rows - i) i rfl (by omega)
  have hfound : find_row M rows i (rows - i) i < rows := by
    obtain ⟨r, hr, hne⟩ := MDS_column_ne_zero (Nat.le_of_lt hrc) hM hi
    by_contra hnot
    have hr' : i ≤ r := by
      by_contra hlt
      have := htop r (by omega) i hi
      rw [if_neg (by omega)] at this
      exact hne this
    exact hne (f3 r hr' (by omega))
  have hpiv := f4 hfound
  refine ⟨⟨f1, hfound, hpiv⟩, ?_⟩
  simp only [stepM]
  set j := find_row M rows i (rows - i) i with hj
  have hir : i < rows := by omega
  -- after the swap
  have s1 : InRange w rows cols (if j ≠ i then swapRows M j i else M) := by
    split_ifs
    · exact InRange_swapRows hfound hir hin
    · exact hin
  have s2 : Top cols i (if j ≠ i then swapRows M j i else M) := by
    split_ifs
    · exact Top_swapRows f1 (le_refl _) htop
    · exact htop
  have s3 : MDS w gf rows cols (if j ≠ i then swapRows M j i else M) := by
    split_ifs
    · exact MDS_swapRows hfound hir hM
    · exact hM
  have s4 : (if j ≠ i then swapRows M j i else M) i i ≠ 0 := by
    split_ifs with hji
    · show (if i = j then M i i else if i = i then M j i else M i i) ≠ 0
      by_cases hij : i = j
      · rw [if_pos hij]; rw [← hij] at hpiv; exact hpiv
      · rw [if_neg hij, if_pos rfl]; exact hpiv
    · have : j = i := by omega
      rw [this] at hpiv; exact hpiv
  generalize (if j ≠ i then swapRows M j i else M) = M1 at s1 s2 s3 s4 ⊢
  -- after the scaling
  have hp : M1 i i < 2 ^ w := s1 i hir i hi
  obtain ⟨d1, d2, d3⟩ := gdiv_one_spec h.out hp s4
  have t1 : InRange w rows cols
      (if M1 i i ≠ 1 then scaleColFrom gf M1 i (gdiv gf 1 (M1 i i)) 0 else M1) := by
    split_ifs
    · exact InRange_scaleColFrom h.out d1 s1
    · exact s1
  have t2 : Top cols i
      (if M1 i i ≠ 1 then scaleColFrom gf M1 i (gdiv gf 1 (M1 i i)) 0 else M1) := by
    split_ifs
    · intro r hr c hc
      simp only [scaleColFrom, Nat.zero_le, and_true]
      by_cases hci : c = i
      · rw [if_pos hci, s2 r hr c hc, if_neg (by omega), gmul_zero_right]
      · rw [if_neg hci]; exact s2 r hr c hc
    · exact s2
  have t3 : MDS w gf rows cols
      (if M1 i i ≠ 1 then scaleColFrom gf M1 i (gdiv gf 1 (M1 i i)) 0 else M1) := by
    split_ifs
    · exact MDS_scaleCol s1 d1 d2 s3
    · exact s3
  have t4 : (if M1 i i ≠ 1 then scaleColFrom gf M1 i (gdiv gf 1 (M1 i i)) 0 else M1) i i = 1 := by
    split_ifs with hne
    · simp only [scaleColFrom, Nat.zero_le, and_true, if_true]
      exact d3
    · by_contra hx; exact hne hx
  generalize (if M1 i i ≠ 1 then scaleColFrom gf M1 i (gdiv gf 1 (M1 i i)) 0 else M1) = M2
    at t1 t2 t3 t4 ⊢
  exact clearRow_inv hi hir t1 t2 t3 t4

theorem extV_top {gf : gf_t} {rows cols : Nat} : Top cols 1 (extV gf rows cols) := by
  intro r hr c _
  have : r = 0 := by omega
  subst this
  simp only [extV, if_true]
  by_cases hc : c = 0
  · rw [if_pos hc, if_pos hc.symm]
  · rw [if_neg hc, if_neg (fun e => hc e.symm)]

/-- The invariants hold after any number of elimination steps. -/
theorem elimM_inv {w : Nat} {gf : gf_t} [h : Fact (IsGF w gf)] {rows cols : Nat}
    {M : Nat → Nat → Nat} (hrc : cols < rows) (hin : InRange w rows cols M)
    (htop : Top cols 1 M) (hM : MDS w gf rows cols M) (n : Nat) (hn : n + 1 ≤ cols) :
    InRange w rows cols (elimM gf rows cols n M) ∧ Top cols (n + 1) (elimM gf rows cols n M) ∧
      MDS w gf rows cols (elimM gf rows cols n M) := by
  induction n with
  | zero => exact ⟨hin, htop, hM⟩
  | succ n ih =>
    obtain ⟨k1, k2, k3⟩ := ih (by omega)
    have := (stepM_inv (i := 1 + n) (by omega) hrc k1 (by rw [Nat.add_comm]; exact k2) k3).2
    have e : 1 + n + 1 = n + 1 + 1 := by omega
    rw [e] at this
    exact this

/-- Every elimination step finds its pivot. -/
theorem elimM_pivot {w : Nat} {gf : gf_t} [h : Fact (IsGF w gf)] {rows cols : Nat}
    {M : Nat → Nat → Nat} (hrc : cols < rows) (hin : InRange w rows cols M)
    (htop : Top cols 1 M) (hM : MDS w gf rows cols M) (n : Nat) (hn : n + 1 < cols) :
    1 + n ≤ find_row (elimM gf rows cols n M) rows (1 + n) (rows - (1 + n)) (1 + n) ∧
    find_row (elimM gf rows cols n M) rows (1 + n) (rows - (1 + n)) (1 + n) < rows ∧
    elimM gf rows cols n M
      (find_row (elimM gf rows cols n M) rows (1 + n) (rows - (1 + n)) (1 + n)) (1 + n) ≠ 0 := by
  obtain ⟨k1, k2, k3⟩ := elimM_inv hrc hin htop hM n (by omega)
  exact (stepM_inv (i := 1 + n) (by omega) hrc k1 (by rw [Nat.add_comm]; exact k2) k3).1

theorem MDS_scaleColBelow {w : Nat} {gf : gf_t} [h : Fact (IsGF w gf)] {rows cols : Nat}
    {M : Nat → Nat → Nat} {j t : Nat} (hin : InRange w rows cols M) (ht : t < 2 ^ w)
    (ht0 : t ≠ 0) (htop : Top cols cols M) (hM : MDS w gf rows cols M) :
    MDS w gf rows cols (scaleColFrom gf M j t cols) := by
  intro S hS hcard x hx
  refine MDS_scaleCol (i := j) hin ht ht0 hM S hS hcard x ?_
  intro r hr
  have hx' := hx r hr
  by_cases hrc : cols ≤ r
  · rw [← hx']
    refine Finset.sum_congr rfl fun c _ => ?_
    simp only [scaleColFrom, Nat.zero_le, and_true, hrc]
  · have hr' : r < cols := by omega
    have e1 : ∀ c ∈ Finset.range cols,
        toF w gf (scaleColFrom gf M j t cols r c) * x c = if c = r then x c else 0 := by
      intro c hc
      simp only [scaleColFrom]
      rw [if_neg (by omega), htop r hr' c (Finset.mem_range.mp hc)]
      by_cases hcr : c = r
      · rw [if_pos hcr.symm, if_pos hcr, toF_one, one_mul]
      · rw [if_neg (fun e => hcr e.symm), if_neg hcr, toF_zero, zero_mul]
    rw [Finset.sum_congr rfl e1, Finset.sum_ite_eq', if_pos (Finset.mem_range.mpr hr')] at hx'
    have e2 : ∀ c ∈ Finset.range cols,
        toF w gf (scaleColFrom gf M j t 0 r c) * x c
          = if c = r then toF w gf (if r = j then t else 1) * x c else 0 := by
      intro c hc
      simp only [scaleColFrom, Nat.zero_le, and_true]
      rw [htop r hr' c (Finset.mem_range.mp hc)]
      by_cases hcj : c = j
      · rw [if_pos hcj]
        by_cases hrc' : r = c
        · rw [if_pos hrc', if_pos hrc'.symm, if_pos (hrc'.trans hcj), gmul_one h.out ht]
        · rw [if_neg hrc', if_neg (Ne.symm hrc'), gmul_zero_right, toF_zero, zero_mul]
      · rw [if_neg hcj]
        by_cases hrc' : r = c
        · rw [if_pos hrc', if_pos hrc'.symm, if_neg (fun e => hcj (hrc'.symm.trans e))]
        · rw [if_neg hrc', if_neg (Ne.symm hrc'), toF_zero, zero_mul]
    rw [Finset.sum_congr rfl e2, Finset.sum_ite_eq', if_pos (Finset.mem_range.mpr hr'), hx',
      mul_zero]

theorem pass1M_succ (gf : gf_t) (cols n : Nat) (M : Nat → Nat → Nat) :
    pass1M gf cols (n + 1) M
      = if pass1M gf cols n M cols n ≠ 1 then
          scaleColFrom gf (pass1M gf cols n M) n (gdiv gf 1 (pass1M gf cols n M cols n)) cols
        else pass1M gf cols n M := rfl

theorem pass2M_succ (gf : gf_t) (cols n : Nat) (M : Nat → Nat → Nat) :
    pass2M gf cols (n + 1) M
      = if pass2M gf cols n M (cols + 1 + n) 0 ≠ 1 then
          scaleRow gf (pass2M gf cols n M) (cols + 1 + n)
            (gdiv gf 1 (pass2M gf cols n M (cols + 1 + n) 0))
        else pass2M gf cols n M := rfl

theorem elimM_succ (gf : gf_t) (rows cols n : Nat) (M : Nat → Nat → Nat) :
    elimM gf rows cols (n + 1) M = stepM gf rows cols (1 + n) (elimM gf rows cols n M) := rfl

/-- The first normalization pass makes row `cols` all ones and keeps the
invariants. -/
theorem pass1M_inv {w : Nat} {gf : gf_t} [h : Fact (IsGF w gf)] {rows cols : Nat}
    {M : Nat → Nat → Nat} (hrc : cols < rows) (hin : InRange w rows cols M)
    (htop : Top cols cols M) (hnz : NZBelow rows cols M) (hM : MDS w gf rows cols M)
    (n : Nat) (hn : n ≤ cols) :
    InRange w rows cols (pass1M gf cols n M) ∧ Top cols cols (pass1M gf cols n M) ∧
      NZBelow rows cols (pass1M gf cols n M) ∧ MDS w gf rows cols (pass1M gf cols n M) ∧
      ∀ c, c < n → pass1M gf cols n M cols c = 1 := by
  induction n with
  | zero => exact ⟨hin, htop, hnz, hM, fun c hc => absurd hc (Nat.not_lt_zero c)⟩
  | succ n ih =>
    obtain ⟨k1, k2, k3, k4, k5⟩ := ih (by omega)
    rw [pass1M_succ]
    generalize pass1M gf cols n M = N at k1 k2 k3 k4 k5 ⊢
    have hn' : n < cols := by omega
    by_cases hne : N cols n ≠ 1
    · simp only [if_pos hne]
      have hp : N cols n < 2 ^ w := k1 cols hrc n hn'
      obtain ⟨d1, d2, d3⟩ := gdiv_one_spec h.out hp (k3 cols (le_refl _) hrc n hn')
      refine ⟨InRange_scaleColFrom h.out d1 k1, ?_, ?_, MDS_scaleColBelow k1 d1 d2 k2 k4, ?_⟩
      · intro r hr c hc
        simp only [scaleColFrom]
        rw [if_neg (by omega)]
        exact k2 r hr c hc
      · intro r hr1 hr2 c hc
        simp only [scaleColFrom]
        split_ifs
        · exact gmul_ne_zero h.out d1 (k1 r hr2 c hc) d2 (k3 r hr1 hr2 c hc)
        · exact k3 r hr1 hr2 c hc
      · intro c hc
        simp only [scaleColFrom]
        by_cases hcn : c = n
        · subst hcn
          rw [if_pos ⟨rfl, le_refl _⟩]; exact d3
        · rw [if_neg (fun e => hcn e.1)]
          exact k5 c (by omega)
    · simp only [if_neg hne]
      refine ⟨k1, k2, k3, k4, ?_⟩
      intro c hc
      by_cases hcn : c = n
      · subst hcn
        by_contra hx; exact hne hx
      · exact k5 c (by omega)

/-- The second normalization pass makes column 0 one in the rows it treats and
keeps the invariants. -/
theorem pass2M_inv {w : Nat} {gf : gf_t} [h : Fact (IsGF w gf)] {rows cols : Nat}
    {M : Nat → Nat → Nat} (hc : 1 ≤ cols) (hin : InRange w rows cols M)
    (htop : Top cols cols M) (hnz : NZBelow rows cols M) (hM : MDS w gf rows cols M)
    (hrow : ∀ c, c < cols → M cols c = 1) (n : Nat) (hn : cols + 1 + n ≤ rows) :
    InRange w rows cols (pass2M gf cols n M) ∧ Top cols cols (pass2M gf cols n M) ∧
      NZBelow rows cols (pass2M gf cols n M) ∧ MDS w gf rows cols (pass2M gf cols n M) ∧
      (∀ c, c < cols → pass2M gf cols n M cols c = 1) ∧
      ∀ r, cols + 1 ≤ r → r < cols + 1 + n → pass2M gf cols n M r 0 = 1 := by
  induction n with
  | zero => exact ⟨hin, htop, hnz, hM, hrow, fun r h1 h2 => by omega⟩
  | succ n ih =>
    obtain ⟨k1, k2, k3, k4, k5, k6⟩ := ih (by omega)
    rw [pass2M_succ]
    generalize pass2M gf cols n M = N at k1 k2 k3 k4 k5 k6 ⊢
    have hi : cols + 1 + n < rows := by omega
    by_cases hne : N (cols + 1 + n) 0 ≠ 1
    · simp only [if_pos hne]
      have hp : N (cols + 1 + n) 0 < 2 ^ w := k1 _ hi 0 (by omega)
      obtain ⟨d1, d2, d3⟩ := gdiv_one_spec h.out hp (k3 _ (by omega) hi 0 (by omega))
      refine ⟨InRange_scaleRow h.out d1 k1, ?_, ?_, MDS_scaleRow k1 d1 d2 k4, ?_, ?_⟩
      · intro r hr c hc'
        simp only [scaleRow]
        rw [if_neg (by omega)]
        exact k2 r hr c hc'
      · intro r hr1 hr2 c hc'
        simp only [scaleRow]
        split_ifs
        · exact gmul_ne_zero h.out (k1 r hr2 c hc') d1 (k3 r hr1 hr2 c hc') d2
        · exact k3 r hr1 hr2 c hc'
      · intro c hc'
        simp only [scaleRow]
        rw [if_neg (by omega)]
        exact k5 c hc'
      · intro r hr1 hr2
        simp only [scaleRow]
        by_cases hri : r = cols + 1 + n
        · rw [if_pos hri, hri, gmul_comm h.out hp d1]; exact d3
        · rw [if_neg hri]; exact k6 r hr1 (by omega)
    · simp only [if_neg hne]
      refine ⟨k1, k2, k3, k4, k5, ?_⟩
      intro r hr1 hr2
      by_cases hri : r = cols + 1 + n
      · rw [hri]
        by_contra hx; exact hne hx
      · exact k6 r hr1 (by omega)

/-- The distribution matrix: identity on top, ones in row `cols` and in column 0
below it, entries in range, any `cols` rows independent. -/
theorem distM_spec {w : Nat} {gf : gf_t} [h : Fact (IsGF w gf)] {rows cols : Nat}
    (hc : 1 ≤ cols) (hrc : cols < rows) (hrows : rows ≤ 2 ^ w) :
    InRange w rows cols (distM gf rows cols) ∧ Top cols cols (distM gf rows cols) ∧
      NZBelow rows cols (distM gf rows cols) ∧ MDS w gf rows cols (distM gf rows cols) ∧
      (∀ c, c < cols → distM gf rows cols cols c = 1) ∧
      ∀ r, cols + 1 ≤ r → r < rows → distM gf rows cols r 0 = 1 := by
  obtain ⟨e1, e2, e3⟩ := elimM_inv hrc (extV_inRange h.out hrows) extV_top
    (extV_MDS hc hrc hrows) (cols - 1) (by omega)
  rw [show cols - 1 + 1 = cols by omega] at e2
  have enz : NZBelow rows cols (elimM gf rows cols (cols - 1) (extV gf rows cols)) :=
    fun r hr1 hr2 c hc' => MDS_below_ne_zero e3 e2 hr1 hr2 hc'
  obtain ⟨p1, p2, p3, p4, p5⟩ := pass1M_inv hrc e1 e2 enz e3 cols (le_refl _)
  obtain ⟨q1, q2, q3, q4, q5, q6⟩ :=
    pass2M_inv hc p1 p2 p3 p4 p5 (rows - (cols + 1)) (by omega)
  refine ⟨q1, q2, q3, q4, q5, ?_⟩
  intro r hr1 hr2
  exact q6 r hr1 (by omega)

theorem Rel_congr {rows cols : Nat} {d : Buf} {M N : Nat → Nat → Nat}
    (h : Rel rows cols d M) (hMN : ∀ r, r < rows → ∀ c, c < cols → M r c = N r c) :
    Rel rows cols d N := fun r hr c hc => (h r hr c hc).trans (hMN r hr c hc)

theorem pivot_search_rel {rows cols : Nat} {d : Buf} {M : Nat → Nat → Nat}
    (hrel : Rel rows cols d M) {i : Nat} (hi : i < cols) :
    ∀ fuel j, pivot_search rows cols d fuel j (j * cols + i)
      = (find_row M rows i fuel j, find_row M rows i fuel j * cols + i) := by
  intro fuel
  induction fuel with
  | zero => intro j; rfl
  | succ fuel ih =>
    intro j
    simp only [pivot_search, find_row]
    by_cases hj : j < rows
    · rw [hrel j hj i hi]
      by_cases hz : M j i = 0
      · rw [if_pos ⟨hj, hz⟩, if_pos ⟨hj, hz⟩]
        have e : j * cols + i + cols = (j + 1) * cols + i := by ring
        rw [e]; exact ih (j + 1)
      · rw [if_neg (fun h => hz h.2), if_neg (fun h => hz h.2)]
    · rw [if_neg (fun h => hj h.1), if_neg (fun h => hj h.1)]

theorem swap_rel {rows cols : Nat} {d : Buf} {M : Nat → Nat → Nat}
    (hrel : Rel rows cols d M) {a b : Nat} (ha : a < rows) (hb : b < rows) (hab : a ≠ b) :
    Rel rows cols (swap_loop cols (a * cols) (b * cols) d) (swapRows M a b) := by
  unfold swap_loop
  have key := iter_inv (fun k (e : Buf) => ∀ r, r < rows → ∀ c, c < cols →
      e (r * cols + c) = if c < k then swapRows M a b r c else M r c) cols
    (fun k e =>
      Function.update (Function.update e (a * cols + k) (e (b * cols + k))) (b * cols + k)
        (e (a * cols + k))) d
    (fun r hr c hc => by rw [if_neg (Nat.not_lt_zero c)]; exact hrel r hr c hc) ?_
  · intro r hr c hc
    have := key r hr c hc
    rw [if_pos hc] at this
    exact this
  · intro k e hk hinv r hr c hc
    simp only [Function.update_apply]
    simp only [idx_inj hc hk]
    by_cases h1 : r = b ∧ c = k
    · obtain ⟨rfl, rfl⟩ := h1
      rw [if_pos ⟨rfl, rfl⟩, hinv a ha c hc, if_neg (Nat.lt_irrefl c), if_pos (Nat.lt_succ_self c)]
      simp only [swapRows, if_true]
      rw [if_neg (fun e => hab e.symm)]
    · rw [if_neg h1]
      by_cases h2 : r = a ∧ c = k
      · obtain ⟨rfl, rfl⟩ := h2
        rw [if_pos ⟨rfl, rfl⟩, hinv b hb c hc, if_neg (Nat.lt_irrefl c),
          if_pos (Nat.lt_succ_self c)]
        simp only [swapRows, if_true]
      · rw [if_neg h2, hinv r hr c hc]
        by_cases hck : c < k
        · rw [if_pos hck, if_pos (by omega)]
        · rw [if_neg hck]
          by_cases hck' : c = k
          · have hra : r ≠ a := fun e => h2 ⟨e, hck'⟩
            have hrb : r ≠ b := fun e => h1 ⟨e, hck'⟩
            rw [if_pos (by omega)]
            simp only [swapRows]
            rw [if_neg hra, if_neg hrb]
          · rw [if_neg (by omega)]

theorem scale_col_rel {I : World → Prop} {L : gf_complete} {w : Nat} {gf : gf_t}
    (hmul : MulOK I L w gf) {rows cols : Nat} {d : Buf} {M : Nat → Nat → Nat}
    (hrel : Rel rows cols d M) {i t z n : Nat} (hi : i < cols) (hn : z + n = rows) :
    Yields I (scale_col_loop L n cols w t (z * cols + i) d)
      (fun d' => Rel rows cols d' (scaleColFrom gf M i t z)) := by
  unfold scale_col_loop
  refine yields_bind
    (yields_iterM (fun k (st : Buf × Nat) => st.2 = (z + k) * cols + i ∧
      Rel rows cols st.1 (fun r c =>
        if c = i ∧ z ≤ r ∧ r < z + k then gmul gf t (M r c) else M r c)) n _ _ ?_ ?_) ?_
  · refine ⟨by simp, fun r hr c hc => ?_⟩
    simp only []
    rw [if_neg (by omega)]
    exact hrel r hr c hc
  · intro k st hk ⟨h1, h2⟩
    refine yields_bind (hmul t (st.1 st.2)) ?_
    intro v hv
    refine yields_pure _ _ _ ⟨?_, ?_⟩
    · simp only [h1]; ring
    · intro r hr c hc
      simp only [Function.update_apply]
      rw [h1]
      simp only [idx_inj hc hi]
      have hcur : st.1 ((z + k) * cols + i) = M (z + k) i := by
        rw [h2 (z + k) (by omega) i hi]
        simp only []
        rw [if_neg (by omega)]
      by_cases hx : r = z + k ∧ c = i
      · obtain ⟨rfl, rfl⟩ := hx
        rw [if_pos ⟨rfl, rfl⟩, if_pos ⟨rfl, by omega, by omega⟩, hv, h1, hcur]
      · rw [if_neg hx, h2 r hr c hc]
        simp only []
        by_cases hy : c = i ∧ z ≤ r ∧ r < z + k
        · rw [if_pos hy, if_pos ⟨hy.1, hy.2.1, by omega⟩]
        · rw [if_neg hy, if_neg]
          rintro ⟨y1, y2, y3⟩
          by_cases hrk : r = z + k
          · exact hx ⟨hrk, y1⟩
          · exact hy ⟨y1, y2, by omega⟩
  · intro st ⟨_, h2⟩
    refine yields_pure _ _ _ (Rel_congr h2 ?_)
    intro r hr c _
    simp only [scaleColFrom]
    by_cases hy : c = i ∧ z ≤ r
    · rw [if_pos hy, if_pos ⟨hy.1, hy.2, by omega⟩]
    · rw [if_neg hy, if_neg (fun h => hy ⟨h.1, h.2.1⟩)]

theorem add_col_rel {I : World → Prop} {L : gf_complete} {w : Nat} {gf : gf_t}
    (hmul : MulOK I L w gf) {rows cols : Nat} {d : Buf} {M : Nat → Nat → Nat}
    (hrel : Rel rows cols d M) {i j e : Nat} (hi : i < cols) (hj : j < cols) (hji : j ≠ i) :
    Yields I (add_col_loop L rows cols w e j i d)
      (fun d' => Rel rows cols d' (addCol gf M j i e)) := by
  unfold add_col_loop
  refine yields_bind
    (yields_iterM (fun k (st : Buf × Nat × Nat) =>
      st.2.1 = k * cols + j ∧ st.2.2 = k * cols + i ∧
      Rel rows cols st.1 (fun r c =>
        if c = j ∧ r < k then M r j ^^^ gmul gf e (M r i) else M r c)) rows _ _ ?_ ?_) ?_
  · refine ⟨by simp, by simp, fun r hr c hc => ?_⟩
    simp only []
    rw [if_neg (by omega)]
    exact hrel r hr c hc
  · intro k st hk ⟨h1, h2, h3⟩
    refine yields_bind (hmul e (st.1 st.2.2)) ?_
    intro v hv
    refine yields_pure _ _ _ ⟨?_, ?_, ?_⟩
    · simp only [h1]; ring
    · simp only [h2]; ring
    · intro r hr c hc
      simp only [Function.update_apply]
      rw [h1]
      simp only [idx_inj hc hj]
      have hcj : st.1 (k * cols + j) = M k j := by
        rw [h3 k hk j hj]
        simp only []
        rw [if_neg (by omega)]
      have hci : st.1 (k * cols + i) = M k i := by
        rw [h3 k hk i hi]
        simp only []
        rw [if_neg (fun h => hji h.1.symm)]
      by_cases hx : r = k ∧ c = j
      · obtain ⟨rfl, rfl⟩ := hx
        rw [if_pos ⟨rfl, rfl⟩, if_pos ⟨rfl, Nat.lt_succ_self r⟩, hv, h2, hcj, hci]
      · rw [if_neg hx, h3 r hr c hc]
        simp only []
        by_cases hy : c = j ∧ r < k
        · rw [if_pos hy, if_pos ⟨hy.1, by omega⟩]
        · rw [if_neg hy, if_neg]
          rintro ⟨y1, y2⟩
          by_cases hrk : r = k
          · exact hx ⟨hrk, y1⟩
          · exact hy ⟨y1, by omega⟩
  · intro st ⟨_, _, h3⟩
    refine yields_pure _ _ _ (Rel_congr h3 ?_)
    intro r hr c _
    simp only [addCol]
    by_cases hy : c = j
    · rw [if_pos ⟨hy, hr⟩, if_pos hy]
    · rw [if_neg (fun h => hy h.1), if_neg hy]

theorem clear_row_rel {I : World → Prop} {L : gf_complete} {w : Nat} {gf : gf_t}
    (hmul : MulOK I L w gf) {rows cols : Nat} {d : Buf} {M : Nat → Nat → Nat}
    (hrel : Rel rows cols d M) {i : Nat} (hi : i < cols) (hir : i < rows) :
    Yields I (clear_row_loop L rows cols w i (i * cols) d)
      (fun d' => Rel rows cols d' (clearRow gf M i cols)) := by
  unfold clear_row_loop clearRow
  refine yields_iterM (fun k (e : Buf) => Rel rows cols e
    (iter k (fun j N => if j ≠ i ∧ N i j ≠ 0 then addCol gf N j i (N i j) else N) M))
    cols _ _ hrel ?_
  intro k e hk hinv
  have hcur := hinv i hir k hk
  simp only [iter]
  rw [hcur]
  generalize iter k (fun j N => if j ≠ i ∧ N i j ≠ 0 then addCol gf N j i (N i j) else N) M = N
    at hinv hcur ⊢
  by_cases hcond : k ≠ i ∧ N i k ≠ 0
  · rw [if_pos hcond, if_pos hcond]
    exact add_col_rel hmul hinv hi hk hcond.1
  · rw [if_neg hcond, if_neg hcond]
    exact yields_pure _ _ _ hinv

theorem scale_row_rel {I : World → Prop} {L : gf_complete} {w : Nat} {gf : gf_t}
    (hmul : MulOK I L w gf) {rows cols : Nat} {d : Buf} {M : Nat → Nat → Nat}
    (hrel : Rel rows cols d M) {i t : Nat} (hi : i < rows) :
    Yields I (iterM cols (fun j (e : Buf) =>
        galois_single_multiply L (e (i * cols + j)) t w >>= fun v =>
        pure (Function.update e (i * cols + j) v)) d)
      (fun d' => Rel rows cols d' (scaleRow gf M i t)) := by
  refine yields_mono
    (yields_iterM (fun k (e : Buf) => Rel rows cols e (fun r c =>
        if r = i ∧ c < k then gmul gf (M r c) t else M r c)) cols _ _ ?_ ?_) ?_
  · intro r hr c hc
    simp only []
    rw [if_neg (by omega)]
    exact hrel r hr c hc
  · intro k e hk hinv
    refine yields_bind (hmul (e (i * cols + k)) t) ?_
    intro v hv
    refine yields_pure _ _ _ ?_
    intro r hr c hc
    simp only [Function.update_apply]
    simp only [idx_inj hc hk]
    have hcur : e (i * cols + k) = M i k := by
      rw [hinv i hi k hk]
      simp only []
      rw [if_neg (by omega)]
    by_cases hx : r = i ∧ c = k
    · obtain ⟨rfl, rfl⟩ := hx
      rw [if_pos ⟨rfl, rfl⟩, if_pos ⟨rfl, Nat.lt_succ_self c⟩, hv, hcur]
    · rw [if_neg hx, hinv r hr c hc]
      simp only []
      by_cases hy : r = i ∧ c < k
      · rw [if_pos hy, if_pos ⟨hy.1, by omega⟩]
      · rw [if_neg hy, if_neg]
        rintro ⟨y1, y2⟩
        by_cases hck : c = k
        · exact hx ⟨y1, hck⟩
        · exact hy ⟨y1, by omega⟩
  · intro d' h
    refine Rel_congr h ?_
    intro r _ c hc
    simp only [scaleRow]
    by_cases hy : r = i
    · rw [if_pos ⟨hy, hc⟩, if_pos hy]
    · rw [if_neg (fun h => hy h.1), if_neg hy]

/-- One iteration of the main loop acts on the buffer as `stepM` acts on the
matrix, provided the pivot search succeeds. -/
theorem elim_step_rel {I : World → Prop} {L : gf_complete} {w : Nat} {gf : gf_t}
    (hmul : MulOK I L w gf) (hdiv : DivOK I L w gf) {rows cols : Nat} {d : Buf}
    {M : Nat → Nat → Nat} (hrel : Rel rows cols d M) {i s : Nat} (hi : i < cols)
    (hir : i < rows) (hs : s + cols = i * cols)
    (hf2 : find_row M rows i (rows - i) i < rows) :
    Yields I (elim_step L rows cols w i (d, s))
      (fun st => st.2 = i * cols ∧ Rel rows cols st.1 (stepM gf rows cols i M)) := by
  simp only [elim_step, stepM, hs, pivot_search_rel hrel hi]
  set j := find_row M rows i (rows - i) i with hj
  rw [if_neg (by omega), Nat.add_sub_cancel]
  -- the swap
  have hrel1 : Rel rows cols (if j ≠ i then swap_loop cols (j * cols) (i * cols) d else d)
      (if j ≠ i then swapRows M j i else M) := by
    by_cases hji : j ≠ i
    · rw [if_pos hji, if_pos hji]
      exact swap_rel hrel hf2 hir hji
    · rw [if_neg hji, if_neg hji]
      exact hrel
  generalize (if j ≠ i then swap_loop cols (j * cols) (i * cols) d else d) = d1 at hrel1 ⊢
  generalize (if j ≠ i then swapRows M j i else M) = M1 at hrel1 ⊢
  rw [hrel1 i hir i hi]
  refine yields_bind (p := fun d2 => Rel rows cols d2
      (if M1 i i ≠ 1 then scaleColFrom gf M1 i (gdiv gf 1 (M1 i i)) 0 else M1)) ?_ ?_
  · by_cases hne : M1 i i ≠ 1
    · rw [if_pos hne, if_pos hne]
      refine yields_bind (hdiv 1 (M1 i i)) ?_
      intro tmp htmp
      rw [htmp]
      have := scale_col_rel hmul hrel1 (i := i) (t := gdiv gf 1 (M1 i i)) (z := 0) (n := rows)
        hi (by omega)
      rw [Nat.zero_mul, Nat.zero_add] at this
      exact this
    · rw [if_neg hne, if_neg hne]
      exact yields_pure _ _ _ hrel1
  · intro d2 hrel2
    refine yields_bind (clear_row_rel hmul hrel2 hi hir) ?_
    intro d3 hrel3
    exact yields_pure _ _ _ ⟨rfl, hrel3⟩

/-- The main loop acts on the buffer as `elimM` acts on the matrix, provided
every pivot search succeeds. -/
theorem elimination_rel {I : World → Prop} {L : gf_complete} {w : Nat} {gf : gf_t}
    (hmul : MulOK I L w gf) (hdiv : DivOK I L w gf) {rows cols : Nat} {d : Buf}
    {M : Nat → Nat → Nat} (hrel : Rel rows cols d M) (hrc : cols < rows)
    (hpiv : ∀ t, t + 1 < cols →
      find_row (elimM gf rows cols t M) rows (1 + t) (rows - (1 + t)) (1 + t) < rows)
    (n : Nat) (hn : n + 1 ≤ cols) :
    Yields I (iterM n (fun t => elim_step L rows cols w (1 + t)) (d, 0))
      (fun st => st.2 = n * cols ∧ Rel rows cols st.1 (elimM gf rows cols n M)) := by
  refine yields_iterM (fun t (st : Buf × Nat) =>
    st.2 = t * cols ∧ Rel rows cols st.1 (elimM gf rows cols t M)) n _ _ ⟨by simp, hrel⟩ ?_
  intro t st ht ⟨h1, h2⟩
  have e : st = (st.1, st.2) := rfl
  rw [e]
  have := elim_step_rel hmul hdiv h2 (i := 1 + t) (s := st.2) (by omega) (by omega)
    (by rw [h1]; ring) (hpiv t (by omega))
  refine yields_mono this ?_
  intro st' ⟨h3, h4⟩
  exact ⟨by rw [h3]; ring, h4⟩

theorem normalize_row_steps_rel {I : World → Prop} {L : gf_complete} {w : Nat} {gf : gf_t}
    (hmul : MulOK I L w gf) (hdiv : DivOK I L w gf) {rows cols : Nat} {d : Buf}
    {M : Nat → Nat → Nat} (hrel : Rel rows cols d M) (hrc : cols < rows)
    (n : Nat) (hn : n ≤ cols) :
    Yields I (iterM n (fun _ => normalize_row_step L rows cols w) (d, cols * cols))
      (fun st => st.2 = cols * cols + n ∧ Rel rows cols st.1 (pass1M gf cols n M)) := by
  refine yields_iterM (fun j (st : Buf × Nat) =>
    st.2 = cols * cols + j ∧ Rel rows cols st.1 (pass1M gf cols j M)) n _ _ ⟨rfl, hrel⟩ ?_
  intro j st hj ⟨h1, h2⟩
  have hj' : j < cols := by omega
  simp only [normalize_row_step]
  rw [pass1M_succ, h1, h2 cols hrc j hj']
  generalize pass1M gf cols j M = N at h2 ⊢
  refine yields_bind (p := fun d2 => Rel rows cols d2
    (if N cols j ≠ 1 then scaleColFrom gf N j (gdiv gf 1 (N cols j)) cols else N)) ?_ ?_
  · by_cases hne : N cols j ≠ 1
    · rw [if_pos hne, if_pos hne]
      refine yields_bind (hdiv 1 (N cols j)) ?_
      intro tmp htmp
      rw [htmp]
      exact scale_col_rel hmul h2 hj' (by omega)
    · rw [if_neg hne, if_neg hne]
      exact yields_pure _ _ _ h2
  · intro d2 hd2
    exact yields_pure _ _ _ ⟨by ring, hd2⟩

theorem normalize_row_pass_rel {I : World → Prop} {L : gf_complete} {w : Nat} {gf : gf_t}
    (hmul : MulOK I L w gf) (hdiv : DivOK I L w gf) {rows cols : Nat} {d : Buf}
    {M : Nat → Nat → Nat} (hrel : Rel rows cols d M) (hrc : cols < rows) :
    Yields I (normalize_row_pass L rows cols w d)
      (fun d' => Rel rows cols d' (pass1M gf cols cols M)) := by
  unfold normalize_row_pass
  refine yields_bind (normalize_row_steps_rel hmul hdiv hrel hrc cols (le_refl _)) ?_
  intro st ⟨_, h2⟩
  exact yields_pure _ _ _ h2

theorem normalize_col_steps_rel {I : World → Prop} {L : gf_complete} {w : Nat} {gf : gf_t}
    (hmul : MulOK I L w gf) (hdiv : DivOK I L w gf) {rows cols : Nat} {d : Buf}
    {M : Nat → Nat → Nat} (hrel : Rel rows cols d M) (hc : 1 ≤ cols)
    (n : Nat) (hn : cols + 1 + n ≤ rows) :
    Yields I (iterM n (fun _ => normalize_col_step L cols w) (d, cols * (cols + 1)))
      (fun st => st.2 = (cols + 1 + n) * cols ∧ Rel rows cols st.1 (pass2M gf cols n M)) := by
  refine yields_iterM (fun t (st : Buf × Nat) =>
    st.2 = (cols + 1 + t) * cols ∧ Rel rows cols st.1 (pass2M gf cols t M))
    n _ _ ⟨by simp only []; ring, hrel⟩ ?_
  intro t st ht ⟨h1, h2⟩
  have hir : cols + 1 + t < rows := by omega
  have hcur : st.1 st.2 = pass2M gf cols t M (cols + 1 + t) 0 := by
    rw [h1, ← h2 (cols + 1 + t) hir 0 (by omega)]
    rfl
  simp only [normalize_col_step]
  rw [pass2M_succ, hcur, h1]
  generalize pass2M gf cols t M = N at h2 ⊢
  refine yields_bind (p := fun d2 => Rel rows cols d2
    (if N (cols + 1 + t) 0 ≠ 1 then
      scaleRow gf N (cols + 1 + t) (gdiv gf 1 (N (cols + 1 + t) 0)) else N)) ?_ ?_
  · by_cases hne : N (cols + 1 + t) 0 ≠ 1
    · rw [if_pos hne, if_pos hne]
      refine yields_bind (hdiv 1 (N (cols + 1 + t) 0)) ?_
      intro tmp htmp
      rw [htmp]
      exact scale_row_rel hmul h2 hir
    · rw [if_neg hne, if_neg hne]
      exact yields_pure _ _ _ h2
  · intro d2 hd2
    exact yields_pure _ _ _ ⟨by ring, hd2⟩

theorem normalize_col_pass_rel {I : World → Prop} {L : gf_complete} {w : Nat} {gf : gf_t}
    (hmul : MulOK I L w gf) (hdiv : DivOK I L w gf) {rows cols : Nat} {d : Buf}
    {M : Nat → Nat → Nat} (hrel : Rel rows cols d M) (hc : 1 ≤ cols) (hrc : cols < rows) :
    Yields I (normalize_col_pass L rows cols w d)
      (fun d' => Rel rows cols d' (pass2M gf cols (rows - (cols + 1)) M)) := by
  unfold normalize_col_pass forM
  refine yields_bind
    (normalize_col_steps_rel hmul hdiv hrel hc (rows - (cols + 1)) (by omega)) ?_
  intro st ⟨_, h2⟩
  exact yields_pure _ _ _ h2

/-- On a buffer holding the extended Vandermonde matrix, the setup routine
returns a buffer holding `distM`. -/
theorem dist_setup_yields {I : World → Prop} {L : gf_complete} {w : Nat} {gf : gf_t}
    (hgf : IsGF w gf) (hmul : MulOK I L w gf) (hdiv : DivOK I L w gf) {rows cols : Nat}
    {d : Buf} (hc : 1 ≤ cols) (hrc : cols < rows) (hrows : rows ≤ 2 ^ w)
    (hrel : Rel rows cols d (extV gf rows cols)) :
    Yields I (reed_sol_big_vandermonde_distribution_matrix_setup L rows cols w (some d))
      (fun o => ∃ d', o = some d' ∧ Rel rows cols d' (distM gf rows cols)) := by
  haveI : Fact (IsGF w gf) := ⟨hgf⟩
  unfold reed_sol_big_vandermonde_distribution_matrix_setup
  rw [if_neg (by omega)]
  simp only [elimination, forM]
  have hpiv : ∀ t, t + 1 < cols →
      find_row (elimM gf rows cols t (extV gf rows cols)) rows (1 + t) (rows - (1 + t)) (1 + t)
        < rows :=
    fun t ht => (elimM_pivot hrc (extV_inRange hgf hrows) extV_top
      (extV_MDS hc hrc hrows) t ht).2.1
  refine yields_bind (elimination_rel hmul hdiv hrel hrc hpiv (cols - 1) (by omega)) ?_
  intro st ⟨_, h2⟩
  refine yields_bind (normalize_row_pass_rel hmul hdiv h2 hrc) ?_
  intro d1 hd1
  refine yields_bind (normalize_col_pass_rel hmul hdiv hd1 hc hrc) ?_
  intro d2 hd2
  exact yields_pure _ _ _ ⟨d2, rfl, hd2⟩

theorem mulOK_of_field {L : gf_complete} {w : Nat} {gf : gf_t} {W : World} {P : Prop}
    (h : ¬ P ∨ (Ready L w gf W ∧ HasOps gf)) :
    ∃ I : World → Prop, I W ∧ (P → MulOK I L w gf) := by
  rcases h with h | ⟨h1, h2⟩
  · exact ⟨fun _ => True, trivial, fun hp => absurd hp h⟩
  · exact ⟨Ready L w gf, h1, fun _ => yields_mul h2⟩

/-- C5: for `rows ≥ 1`, `cols ≥ 1` and a width passing the size check, with the
field for `w` available whenever an interior row exists,
`reed_sol_extended_vandermonde_matrix(rows, cols, w)` returns a matrix whose
row 0 is `[1,0,...,0]`, whose last row (if `rows ≥ 2`) is `[0,...,0,1]`, and
whose interior entry `(i, j)` is the `j`-fold product of `i` under
`galois_single_multiply` starting from 1. -/
theorem C5_extended_vandermonde_entries (L : gf_complete) (rows cols w : Nat) (gf : gf_t)
    (vdm0 : Buf) (W : World) (hr : 1 ≤ rows) (hc : 1 ≤ cols)
    (hsize1 : ¬ (w < 30 ∧ 1 <<< w < rows)) (hsize2 : ¬ (w < 30 ∧ 1 <<< w < cols))
    (hfield : ¬ 3 ≤ rows ∨ (Ready L w gf W ∧ HasOps gf))
    (hmalloc : L.malloc_int (rows * cols) = some vdm0) :
    ∃ vdm W', reed_sol_extended_vandermonde_matrix L rows cols w W = Outcome.ret (some vdm, W') ∧
      (∀ j, j < cols → vdm j = if j = 0 then 1 else 0) ∧
      (2 ≤ rows → ∀ j, j < cols → vdm ((rows - 1) * cols + j) = if j = cols - 1 then 1 else 0) ∧
      (∀ i, 1 ≤ i → i + 2 ≤ rows → ∀ j, j < cols → vdm (i * cols + j) = gpow gf i j) := by
  obtain ⟨I, hI, hmul⟩ := mulOK_of_field hfield
  obtain ⟨o, W', e, _, v, rfl, hrel, _⟩ :=
    extV_setup_yields rows cols hmul vdm0 hr hc hsize1 hsize2 W hI
  refine ⟨v, W', ?_, ?_, ?_, ?_⟩
  · simp only [reed_sol_extended_vandermonde_matrix, hmalloc]
    exact e
  · intro j hj
    have := hrel 0 (by omega) j hj
    simpa [extV] using this
  · intro h2 j hj
    have := hrel (rows - 1) (by omega) j hj
    rw [this]
    simp only [extV]
    rw [if_neg (by omega)]
    simp
  · intro i hi1 hi2 j hj
    have := hrel i (by omega) j hj
    rw [this]
    simp only [extV]
    rw [if_neg (by omega), if_neg (by omega)]

theorem C5_extended_vandermonde_entries_witness :
    ∃ vdm W', reed_sol_extended_vandermonde_matrix ref_lib 4 3 8 World.init
        = Outcome.ret (some vdm, W') ∧
      (∀ j, j < 3 → vdm j = if j = 0 then 1 else 0) ∧
      (2 ≤ 4 → ∀ j, j < 3 → vdm ((4 - 1) * 3 + j) = if j = 3 - 1 then 1 else 0) ∧
      (∀ i, 1 ≤ i → i + 2 ≤ 4 → ∀ j, j < 3 → vdm (i * 3 + j) = gpow (ref_gf 8) i j) :=
  C5_extended_vandermonde_entries ref_lib 4 3 8 (ref_gf 8) (fun _ => 0) World.init
    (by decide) (by decide) (by decide) (by decide)
    (Or.inr ⟨ready_init_8, hasOps_ref 8⟩) rfl

/-- C6: for `rows ≥ 1`, `cols ≥ 1` and `w` in `[1,32]` (the field for `w`
available whenever an interior row exists),
`reed_sol_extended_vandermonde_matrix_noalloc` returns, and its result is null
exactly when `w < 30` and (`2^w < rows` or `2^w < cols`); for `w ≥ 30` a matrix
is returned. -/
theorem C6_extended_vandermonde_null_iff (L : gf_complete) (rows cols w : Nat) (gf : gf_t)
    (vdm : Buf) (W : World) (hr : 1 ≤ rows) (hc : 1 ≤ cols) (hw1 : 1 ≤ w) (hw2 : w ≤ 32)
    (hfield : ¬ 3 ≤ rows ∨ (Ready L w gf W ∧ HasOps gf)) :
    ∃ o W', reed_sol_extended_vandermonde_matrix_noalloc L rows cols w vdm W
        = Outcome.ret (o, W') ∧
      (o = none ↔ (w < 30 ∧ (2 ^ w < rows ∨ 2 ^ w < cols))) ∧
      (30 ≤ w → o ≠ none) := by
  by_cases h1 : w < 30 ∧ 1 <<< w < rows
  · refine ⟨none, W, ?_, ?_, ?_⟩
    · simp only [reed_sol_extended_vandermonde_matrix_noalloc,
        reed_sol_extended_vandermonde_matrix_setup, if_pos h1]; rfl
    · rw [Nat.one_shiftLeft] at h1
      simp [h1.1, h1.2]
    · intro h; omega
  by_cases h2 : w < 30 ∧ 1 <<< w < cols
  · refine ⟨none, W, ?_, ?_, ?_⟩
    · simp only [reed_sol_extended_vandermonde_matrix_noalloc,
        reed_sol_extended_vandermonde_matrix_setup, if_neg h1, if_pos h2]; rfl
    · rw [Nat.one_shiftLeft] at h2
      simp [h2.1, h2.2]
    · intro h; omega
  obtain ⟨I, hI, hmul⟩ := mulOK_of_field hfield
  obtain ⟨o, W', e, _, v, rfl, _, _⟩ :=
    extV_setup_yields rows cols hmul vdm hr hc h1 h2 W hI
  refine ⟨some v, W', e, ?_, ?_⟩
  · rw [Nat.one_shiftLeft] at h1 h2
    constructor
    · intro h; cases h
    · rintro ⟨h3, h4 | h4⟩
      · exact absurd ⟨h3, h4⟩ h1
      · exact absurd ⟨h3, h4⟩ h2
  · intro _ h; cases h

theorem C6_extended_vandermonde_null_iff_witness :
    ∃ o W', reed_sol_extended_vandermonde_matrix_noalloc ref_lib 4 3 8 (fun _ => 0) World.init
        = Outcome.ret (o, W') ∧
      (o = none ↔ (8 < 30 ∧ (2 ^ 8 < 4 ∨ 2 ^ 8 < 3))) ∧
      (30 ≤ 8 → o ≠ none) :=
  C6_extended_vandermonde_null_iff ref_lib 4 3 8 (ref_gf 8) (fun _ => 0) World.init
    (by decide) (by decide) (by decide) (by decide)
    (Or.inr ⟨ready_init_8, hasOps_ref 8⟩)

/-- C7: for every `k` (in particular `k ≥ 1`), every backend and every state,
`reed_sol_r6_coding_matrix(k, w)` and its `_noalloc` variant return null when
`w` is not 8, 16 or 32 (for `w = 24`, `w = 0` or `w = 40` alike); when `w` is
8, 16 or 32, with the field for `w` available whenever `k ≥ 2` (and the
allocation succeeding, for the allocating variant), they return a matrix whose
row 0 is all ones and whose row 1 holds in column `j` the result of applying
`galois_single_multiply(_, 2, w)` `j` times to 1. -/
theorem C7_r6_coding_matrix (L : gf_complete) (k w : Nat) (buf : Buf) (W : World) :
    ((w ≠ 8 ∧ w ≠ 16 ∧ w ≠ 32) →
      reed_sol_r6_coding_matrix L k w W = Outcome.ret (none, W) ∧
      reed_sol_r6_coding_matrix_noalloc L k w buf W = Outcome.ret (none, W)) ∧
    ((w = 8 ∨ w = 16 ∨ w = 32) → ∀ gf : gf_t, (¬ 2 ≤ k ∨ (Ready L w gf W ∧ HasOps gf)) →
      (∀ m0 : Buf, L.malloc_int (2 * k) = some m0 →
        ∃ m W', reed_sol_r6_coding_matrix L k w W = Outcome.ret (some m, W') ∧
          ∀ j, j < k → m j = 1 ∧ m (k + j) = gpow gf 2 j) ∧
      (∃ m W', reed_sol_r6_coding_matrix_noalloc L k w buf W = Outcome.ret (some m, W') ∧
        ∀ j, j < k → m j = 1 ∧ m (k + j) = gpow gf 2 j)) := by
  constructor
  · intro hw
    simp only [reed_sol_r6_coding_matrix, reed_sol_r6_coding_matrix_noalloc, if_pos hw]
    exact ⟨rfl, rfl⟩
  · intro hw gf hfield
    have hw' : ¬ (w ≠ 8 ∧ w ≠ 16 ∧ w ≠ 32) := by omega
    obtain ⟨I, hI, hmul⟩ := mulOK_of_field hfield
    constructor
    · intro m0 hmalloc
      simp only [reed_sol_r6_coding_matrix, if_neg hw', hmalloc]
      obtain ⟨o, W', e, _, m, rfl, hm⟩ :=
        yields_bind (r6_setup_yields k hmul m0)
          (fun m hm => yields_pure I (some m) (fun o => ∃ m, o = some m ∧
            ∀ j, j < k → m j = 1 ∧ m (k + j) = gpow gf 2 j) ⟨m, rfl, hm.1⟩) W hI
      exact ⟨m, W', e, hm⟩
    · simp only [reed_sol_r6_coding_matrix_noalloc, if_neg hw']
      obtain ⟨o, W', e, _, m, rfl, hm⟩ :=
        yields_bind (r6_setup_yields k hmul buf)
          (fun m hm => yields_pure I (some m) (fun o => ∃ m, o = some m ∧
            ∀ j, j < k → m j = 1 ∧ m (k + j) = gpow gf 2 j) ⟨m, rfl, hm.1⟩) W hI
      exact ⟨m, W', e, hm⟩

theorem C7_r6_coding_matrix_witness :
    (reed_sol_r6_coding_matrix ref_lib 4 24 World.init = Outcome.ret (none, World.init) ∧
      reed_sol_r6_coding_matrix_noalloc ref_lib 4 24 (fun _ => 0) World.init
        = Outcome.ret (none, World.init)) ∧
    (reed_sol_r6_coding_matrix ref_lib 4 40 World.init = Outcome.ret (none, World.init) ∧
      reed_sol_r6_coding_matrix_noalloc ref_lib 4 40 (fun _ => 0) World.init
        = Outcome.ret (none, World.init)) ∧
    (∃ m W', reed_sol_r6_coding_matrix ref_lib 4 8 World.init = Outcome.ret (some m, W') ∧
      ∀ j, j < 4 → m j = 1 ∧ m (4 + j) = gpow (ref_gf 8) 2 j) ∧
    ∃ m W', reed_sol_r6_coding_matrix_noalloc ref_lib 4 8 (fun _ => 0) World.init
        = Outcome.ret (some m, W') ∧
      ∀ j, j < 4 → m j = 1 ∧ m (4 + j) = gpow (ref_gf 8) 2 j :=
  ⟨(C7_r6_coding_matrix ref_lib 4 24 (fun _ => 0) World.init).1 (by decide),
    (C7_r6_coding_matrix ref_lib 4 40 (fun _ => 0) World.init).1 (by decide),
    ((C7_r6_coding_matrix ref_lib 4 8 (fun _ => 0) World.init).2 (Or.inl rfl) (ref_gf 8)
      (Or.inr ⟨ready_init_8, hasOps_ref 8⟩)).1 (fun _ => 0) rfl,
    ((C7_r6_coding_matrix ref_lib 4 8 (fun _ => 0) World.init).2 (Or.inl rfl) (ref_gf 8)
      (Or.inr ⟨ready_init_8, hasOps_ref 8⟩)).2⟩

theorem run_bind {α β : Type} {m : GM α} {f : α → GM β} {W W' : World} {a : α}
    (h : m W = Outcome.ret (a, W')) : (m >>= f) W = f a W' := by
  show GM.bind m f W = _
  simp only [GM.bind, h]

theorem size_check_ok {w n : Nat} (h : n ≤ 2 ^ w) : ¬ (w < 30 ∧ 1 <<< w < n) := by
  rw [Nat.one_shiftLeft]
  omega

/-- The allocating extended Vandermonde construction returns a buffer holding
`extV`. -/
theorem extV_alloc_yields {I : World → Prop} {L : gf_complete} {w : Nat} {gf : gf_t}
    (hmul : MulOK I L w gf) {rows cols : Nat} {vdm0 : Buf} (hc : 1 ≤ cols) (hrc : cols < rows)
    (hrows : rows ≤ 2 ^ w) (hmalloc : L.malloc_int (rows * cols) = some vdm0) :
    Yields I (reed_sol_extended_vandermonde_matrix L rows cols w)
      (fun o => ∃ v, o = some v ∧ Rel rows cols v (extV gf rows cols)) := by
  simp only [reed_sol_extended_vandermonde_matrix, hmalloc]
  refine yields_mono (extV_setup_yields rows cols (fun _ => hmul) vdm0 (by omega) hc
    (size_check_ok hrows) (size_check_ok (by omega))) ?_
  rintro o ⟨v, rfl, hv, _⟩
  exact ⟨v, rfl, hv⟩

/-- The allocating distribution-matrix construction returns a buffer holding
`distM`. -/
theorem dist_alloc_yields {I : World → Prop} {L : gf_complete} {w : Nat} {gf : gf_t}
    (hgf : IsGF w gf) (hmul : MulOK I L w gf) (hdiv : DivOK I L w gf) {rows cols : Nat}
    {vdm0 : Buf} (hc : 1 ≤ cols) (hrc : cols < rows) (hrows : rows ≤ 2 ^ w)
    (hmalloc : L.malloc_int (rows * cols) = some vdm0) :
    Yields I (reed_sol_big_vandermonde_distribution_matrix L rows cols w)
      (fun o => ∃ d, o = some d ∧ Rel rows cols d (distM gf rows cols)) := by
  unfold reed_sol_big_vandermonde_distribution_matrix
  refine yields_bind (extV_alloc_yields hmul hc hrc hrows hmalloc) ?_
  rintro o ⟨v, rfl, hv⟩
  exact dist_setup_yields hgf hmul hdiv hc hrc hrows hv

/-- The buffer-supplied distribution-matrix construction returns a buffer
holding `distM`, whatever the buffer held before. -/
theorem dist_noalloc_yields {I : World → Prop} {L : gf_complete} {w : Nat} {gf : gf_t}
    (hgf : IsGF w gf) (hmul : MulOK I L w gf) (hdiv : DivOK I L w gf) {rows cols : Nat}
    (dist : Buf) (hc : 1 ≤ cols) (hrc : cols < rows) (hrows : rows ≤ 2 ^ w) :
    Yields I (reed_sol_big_vandermonde_distribution_matrix_noalloc L rows cols w dist)
      (fun o => ∃ d, o = some d ∧ Rel rows cols d (distM gf rows cols)) := by
  unfold reed_sol_big_vandermonde_distribution_matrix_noalloc
    reed_sol_extended_vandermonde_matrix_noalloc
  refine yields_bind (extV_setup_yields rows cols (fun _ => hmul) dist (by omega) hc
    (size_check_ok hrows) (size_check_ok (by omega))) ?_
  rintro o ⟨v, rfl, hv, _⟩
  exact dist_setup_yields hgf hmul hdiv hc hrc hrows hv

/-- C1: for `rows > cols ≥ 1` with `2^w ≥ rows` and a backend implementing
GF(2^w), `reed_sol_big_vandermonde_distribution_matrix(rows, cols, w)` returns
a matrix whose top `cols × cols` block is the identity: entry `(i, j)` is 1 if
`i = j` and 0 otherwise. -/
theorem C1_distribution_identity_block (L : gf_complete) (rows cols w : Nat) (gf : gf_t)
    (vdm0 : Buf) (W : World) (hc : 1 ≤ cols) (hrc : cols < rows) (hrows : rows ≤ 2 ^ w)
    (hready : Ready L w gf W) (hgf : IsGF w gf)
    (hmalloc : L.malloc_int (rows * cols) = some vdm0) :
    ∃ dist W', reed_sol_big_vandermonde_distribution_matrix L rows cols w W
        = Outcome.ret (some dist, W') ∧
      ∀ i, i < cols → ∀ j, j < cols → dist (i * cols + j) = if i = j then 1 else 0 := by
  haveI : Fact (IsGF w gf) := ⟨hgf⟩
  obtain ⟨o, W', e, _, d, rfl, hd⟩ :=
    dist_alloc_yields hgf (yields_mul hgf.ops) (yields_div hgf.ops) hc hrc hrows hmalloc W hready
  refine ⟨d, W', e, ?_⟩
  intro i hi j hj
  rw [hd i (by omega) j hj]
  exact (distM_spec hc hrc hrows).2.1 i hi j hj

theorem C1_distribution_identity_block_witness :
    ∃ dist W', reed_sol_big_vandermonde_distribution_matrix ref_lib 4 2 2 World.init
        = Outcome.ret (some dist, W') ∧
      ∀ i, i < 2 → ∀ j, j < 2 → dist (i * 2 + j) = if i = j then 1 else 0 :=
  C1_distribution_identity_block ref_lib 4 2 2 (ref_gf 2) (fun _ => 0) World.init
    (by decide) (by decide) (by decide) ready_init_2 isGF_ref_2 rfl

/-- The run of the allocating distribution-matrix construction, phase by
phase: the extended Vandermonde matrix `d0`, the state `e` after the main
loop, the buffer `p` after the first normalization pass and the result `q`,
each holding the corresponding matrix. -/
theorem dist_phases {L : gf_complete} {w : Nat} {gf : gf_t} (hgf : IsGF w gf)
    {rows cols : Nat} {vdm0 : Buf} {W : World} (hc : 1 ≤ cols) (hrc : cols < rows)
    (hrows : rows ≤ 2 ^ w) (hready : Ready L w gf W)
    (hmalloc : L.malloc_int (rows * cols) = some vdm0) :
    ∃ d0 W0 e W1 p W2 q W3,
      reed_sol_extended_vandermonde_matrix L rows cols w W = Outcome.ret (some d0, W0) ∧
      elimination L rows cols w d0 W0 = Outcome.ret (e, W1) ∧
      normalize_row_pass L rows cols w e.1 W1 = Outcome.ret (p, W2) ∧
      normalize_col_pass L rows cols w p W2 = Outcome.ret (q, W3) ∧
      reed_sol_big_vandermonde_distribution_matrix L rows cols w W
        = Outcome.ret (some q, W3) ∧
      Ready L w gf W0 ∧ Ready L w gf W1 ∧ Ready L w gf W2 ∧
      Rel rows cols d0 (extV gf rows cols) ∧
      Rel rows cols e.1 (elimM gf rows cols (cols - 1) (extV gf rows cols)) ∧
      Rel rows cols p (pass1M gf cols cols (elimM gf rows cols (cols - 1) (extV gf rows cols))) ∧
      Rel rows cols q (distM gf rows cols) := by
  haveI : Fact (IsGF w gf) := ⟨hgf⟩
  have hmul : MulOK (Ready L w gf) L w gf := yields_mul hgf.ops
  have hdiv : DivOK (Ready L w gf) L w gf := yields_div hgf.ops
  obtain ⟨o, W0, e0, r0, d0, rfl, hd0⟩ := extV_alloc_yields hmul hc hrc hrows hmalloc W hready
  have hpiv : ∀ t, t + 1 < cols →
      find_row (elimM gf rows cols t (extV gf rows cols)) rows (1 + t) (rows - (1 + t)) (1 + t)
        < rows :=
    fun t ht => (elimM_pivot hrc (extV_inRange hgf hrows) extV_top
      (extV_MDS hc hrc hrows) t ht).2.1
  obtain ⟨e, W1, e1, r1, _, he⟩ :=
    elimination_rel hmul hdiv hd0 hrc hpiv (cols - 1) (by omega) W0 r0
  obtain ⟨p, W2, e2, r2, hp⟩ := normalize_row_pass_rel hmul hdiv he hrc W1 r1
  obtain ⟨q, W3, e3, _, hq⟩ := normalize_col_pass_rel hmul hdiv hp hc hrc W2 r2
  have e1' : elimination L rows cols w d0 W0 = Outcome.ret (e, W1) := by
    simp only [elimination, forM]; exact e1
  refine ⟨d0, W0, e, W1, p, W2, q, W3, e0, e1', e2, e3, ?_, r0, r1, r2, hd0, he, hp, hq⟩
  unfold reed_sol_big_vandermonde_distribution_matrix
  rw [run_bind e0]
  simp only [reed_sol_big_vandermonde_distribution_matrix_setup]
  rw [if_neg (by omega), run_bind e1', run_bind e2, run_bind e3]
  rfl

/-- C2: for `rows > cols ≥ 1` with `2^w ≥ rows` and a backend implementing
GF(2^w), the run of `reed_sol_big_vandermonde_distribution_matrix(rows, cols,
w)` passes through its phases and returns a matrix `q` in which every element
of row `cols` is 1 and every row `cols+1 .. rows-1` has 1 in column 0; the
entry `dist[sindex]` that an iteration of either normalization pass inverts is
nonzero, so `galois_single_divide` does not take its divide-by-zero branch. -/
theorem C2_normalization_passes (L : gf_complete) (rows cols w : Nat) (gf : gf_t)
    (vdm0 : Buf) (W : World) (hc : 1 ≤ cols) (hrc : cols < rows) (hrows : rows ≤ 2 ^ w)
    (hready : Ready L w gf W) (hgf : IsGF w gf)
    (hmalloc : L.malloc_int (rows * cols) = some vdm0) :
    ∃ d0 W0 e W1 p W2 q W3,
      reed_sol_extended_vandermonde_matrix L rows cols w W = Outcome.ret (some d0, W0) ∧
      elimination L rows cols w d0 W0 = Outcome.ret (e, W1) ∧
      normalize_row_pass L rows cols w e.1 W1 = Outcome.ret (p, W2) ∧
      normalize_col_pass L rows cols w p W2 = Outcome.ret (q, W3) ∧
      reed_sol_big_vandermonde_distribution_matrix L rows cols w W
        = Outcome.ret (some q, W3) ∧
      (∀ j, j < cols → ∃ st W',
        iterM j (fun _ => normalize_row_step L rows cols w) (e.1, cols * cols) W1
          = Outcome.ret (st, W') ∧ st.2 = cols * cols + j ∧ st.1 st.2 ≠ 0) ∧
      (∀ t, cols + 1 + t < rows → ∃ st W',
        iterM t (fun _ => normalize_col_step L cols w) (p, cols * (cols + 1)) W2
          = Outcome.ret (st, W') ∧ st.2 = (cols + 1 + t) * cols ∧ st.1 st.2 ≠ 0) ∧
      (∀ j, j < cols → q (cols * cols + j) = 1) ∧
      (∀ i, cols + 1 ≤ i → i < rows → q (i * cols) = 1) := by
  haveI : Fact (IsGF w gf) := ⟨hgf⟩
  have hmul : MulOK (Ready L w gf) L w gf := yields_mul hgf.ops
  have hdiv : DivOK (Ready L w gf) L w gf := yields_div hgf.ops
  obtain ⟨d0, W0, e, W1, p, W2, q, W3, e0, e1, e2, e3, e4, _, r1, r2, _, he, hp, hq⟩ :=
    dist_phases hgf hc hrc hrows hready hmalloc
  -- the matrix-level facts
  obtain ⟨a1, a2, a3⟩ := elimM_inv hrc (extV_inRange hgf hrows) extV_top
    (extV_MDS hc hrc hrows) (cols - 1) (by omega)
  rw [show cols - 1 + 1 = cols by omega] at a2
  have anz : NZBelow rows cols (elimM gf rows cols (cols - 1) (extV gf rows cols)) :=
    fun r hr1 hr2 c hc' => MDS_below_ne_zero a3 a2 hr1 hr2 hc'
  obtain ⟨b1, b2, b3, b4, b5⟩ := pass1M_inv hrc a1 a2 anz a3 cols (le_refl _)
  obtain ⟨_, _, _, _, s5, s6⟩ := @distM_spec w gf _ rows cols hc hrc hrows
  refine ⟨d0, W0, e, W1, p, W2, q, W3, e0, e1, e2, e3, e4, ?_, ?_, ?_, ?_⟩
  · intro j hj
    obtain ⟨st, W', x1, _, x2, x3⟩ :=
      normalize_row_steps_rel hmul hdiv he hrc j (Nat.le_of_lt hj) W1 r1
    refine ⟨st, W', x1, x2, ?_⟩
    rw [x2, x3 cols hrc j hj]
    exact (pass1M_inv hrc a1 a2 anz a3 j (Nat.le_of_lt hj)).2.2.1 cols (le_refl _) hrc j hj
  · intro t ht
    obtain ⟨st, W', x1, _, x2, x3⟩ :=
      normalize_col_steps_rel hmul hdiv hp hc t (by omega) W2 r2
    refine ⟨st, W', x1, x2, ?_⟩
    have := x3 (cols + 1 + t) ht 0 (by omega)
    rw [Nat.add_zero] at this
    rw [x2, this]
    exact (pass2M_inv hc b1 b2 b3 b4 b5 t (by omega)).2.2.1 (cols + 1 + t) (by omega) ht 0
      (by omega)
  · intro j hj
    rw [hq cols hrc j hj]
    exact s5 j hj
  · intro i hi1 hi2
    have := hq i hi2 0 (by omega)
    rw [Nat.add_zero] at this
    rw [this]
    exact s6 i hi1 hi2

theorem C2_normalization_passes_witness :
    ∃ d0 W0 e W1 p W2 q W3,
      reed_sol_extended_vandermonde_matrix ref_lib 4 2 2 World.init
        = Outcome.ret (some d0, W0) ∧
      elimination ref_lib 4 2 2 d0 W0 = Outcome.ret (e, W1) ∧
      normalize_row_pass ref_lib 4 2 2 e.1 W1 = Outcome.ret (p, W2) ∧
      normalize_col_pass ref_lib 4 2 2 p W2 = Outcome.ret (q, W3) ∧
      reed_sol_big_vandermonde_distribution_matrix ref_lib 4 2 2 World.init
        = Outcome.ret (some q, W3) ∧
      (∀ j, j < 2 → ∃ st W',
        iterM j (fun _ => normalize_row_step ref_lib 4 2 2) (e.1, 2 * 2) W1
          = Outcome.ret (st, W') ∧ st.2 = 2 * 2 + j ∧ st.1 st.2 ≠ 0) ∧
      (∀ t, 2 + 1 + t < 4 → ∃ st W',
        iterM t (fun _ => normalize_col_step ref_lib 2 2) (p, 2 * (2 + 1)) W2
          = Outcome.ret (st, W') ∧ st.2 = (2 + 1 + t) * 2 ∧ st.1 st.2 ≠ 0) ∧
      (∀ j, j < 2 → q (2 * 2 + j) = 1) ∧
      (∀ i, 2 + 1 ≤ i → i < 4 → q (i * 2) = 1) :=
  C2_normalization_passes ref_lib 4 2 2 (ref_gf 2) (fun _ => 0) World.init
    (by decide) (by decide) (by decide) ready_init_2 isGF_ref_2 rfl

/-- C3: for `rows > cols ≥ 1` with `2^w ≥ rows` and a backend implementing
GF(2^w), the pivot search of the main loop always succeeds: when the loop
reaches pivot column `i = 1 + t`, some row `j` with `i ≤ j < rows` has a
nonzero entry in column `i`, the search stops below `rows`, and the loop and
the whole construction return without reaching the assertion. -/
theorem C3_pivot_search_succeeds (L : gf_complete) (rows cols w : Nat) (gf : gf_t)
    (vdm0 : Buf) (W : World) (hc : 1 ≤ cols) (hrc : cols < rows) (hrows : rows ≤ 2 ^ w)
    (hready : Ready L w gf W) (hgf : IsGF w gf)
    (hmalloc : L.malloc_int (rows * cols) = some vdm0) :
    ∃ d0 W0,
      reed_sol_extended_vandermonde_matrix L rows cols w W = Outcome.ret (some d0, W0) ∧
      (∀ t, t + 1 < cols → ∃ st W',
        iterM t (fun t => elim_step L rows cols w (1 + t)) (d0, 0) W0 = Outcome.ret (st, W') ∧
        (∃ j, 1 + t ≤ j ∧ j < rows ∧ st.1 (j * cols + (1 + t)) ≠ 0) ∧
        (pivot_search rows cols st.1 (rows - (1 + t)) (1 + t) (st.2 + cols + (1 + t))).1
          < rows) ∧
      (∃ e W1, elimination L rows cols w d0 W0 = Outcome.ret (e, W1)) ∧
      ∃ dist W2, reed_sol_big_vandermonde_distribution_matrix L rows cols w W
        = Outcome.ret (some dist, W2) := by
  haveI : Fact (IsGF w gf) := ⟨hgf⟩
  have hmul : MulOK (Ready L w gf) L w gf := yields_mul hgf.ops
  have hdiv : DivOK (Ready L w gf) L w gf := yields_div hgf.ops
  obtain ⟨d0, W0, e, W1, p, W2, q, W3, e0, e1, _, _, e4, r0, _, _, hd0, _, _, _⟩ :=
    dist_phases hgf hc hrc hrows hready hmalloc
  have hpiv := fun t ht => elimM_pivot hrc (extV_inRange hgf hrows) (@extV_top gf rows cols)
    (extV_MDS hc hrc hrows) t ht
  refine ⟨d0, W0, e0, ?_, ⟨e, W1, e1⟩, q, W3, e4⟩
  intro t ht
  obtain ⟨st, W', x1, _, x2, x3⟩ :=
    elimination_rel hmul hdiv hd0 hrc (fun t ht => (hpiv t ht).2.1) t (by omega) W0 r0
  obtain ⟨p1, p2, p3⟩ := hpiv t ht
  refine ⟨st, W', x1, ⟨_, p1, p2, ?_⟩, ?_⟩
  · rw [x3 _ p2 (1 + t) (by omega)]
    exact p3
  · have e5 : st.2 + cols + (1 + t) = (1 + t) * cols + (1 + t) := by rw [x2]; ring
    rw [e5, pivot_search_rel x3 (by omega)]
    exact p2

theorem C3_pivot_search_succeeds_witness :
    ∃ d0 W0,
      reed_sol_extended_vandermonde_matrix ref_lib 4 2 2 World.init
        = Outcome.ret (some d0, W0) ∧
      (∀ t, t + 1 < 2 → ∃ st W',
        iterM t (fun t => elim_step ref_lib 4 2 2 (1 + t)) (d0, 0) W0 = Outcome.ret (st, W') ∧
        (∃ j, 1 + t ≤ j ∧ j < 4 ∧ st.1 (j * 2 + (1 + t)) ≠ 0) ∧
        (pivot_search 4 2 st.1 (4 - (1 + t)) (1 + t) (st.2 + 2 + (1 + t))).1 < 4) ∧
      (∃ e W1, elimination ref_lib 4 2 2 d0 W0 = Outcome.ret (e, W1)) ∧
      ∃ dist W2, reed_sol_big_vandermonde_distribution_matrix ref_lib 4 2 2 World.init
        = Outcome.ret (some dist, W2) :=
  C3_pivot_search_succeeds ref_lib 4 2 2 (ref_gf 2) (fun _ => 0) World.init
    (by decide) (by decide) (by decide) ready_init_2 isGF_ref_2 rfl

theorem coding_setup_eq (k m : Nat) (dist vdm : Buf) :
    reed_sol_vandermonde_coding_matrix_setup k m dist vdm
      = fun j => if j < m * k then vdm (k * k + j) else dist j := by
  unfold reed_sol_vandermonde_coding_matrix_setup
  have key := iter_inv (fun n (st : Buf × Nat) => st.2 = k * k + n ∧
      ∀ j, st.1 j = if j < n then vdm (k * k + j) else dist j) (m * k)
    (fun j (st : Buf × Nat) => (Function.update st.1 j (vdm st.2), st.2 + 1)) (dist, k * k)
    ⟨rfl, fun j => by rw [if_neg (Nat.not_lt_zero j)]⟩ ?_
  · funext j
    exact key.2 j
  · intro n st _ ⟨h1, h2⟩
    refine ⟨by simp only [h1]; ring, fun j => ?_⟩
    simp only [Function.update_apply]
    by_cases hj : j = n
    · rw [if_pos hj, if_pos (by omega), h1, hj]
    · rw [if_neg hj, h2 j]
      by_cases hlt : j < n
      · rw [if_pos hlt, if_pos (by omega)]
      · rw [if_neg hlt, if_neg (by omega)]

/-- C4: for `k ≥ 1`, `m ≥ 1` and `2^w ≥ k+m`, with a backend implementing
GF(2^w), `reed_sol_vandermonde_coding_matrix(k, m, w)` returns the `m × k`
matrix whose entry `(r, c)` is entry `(k + r, c)` of the matrix returned by
`reed_sol_big_vandermonde_distribution_matrix(k+m, k, w)`, and the
buffer-supplied variant returns a matrix with the same `m*k` values, whatever
the buffers held before. -/
theorem C4_coding_matrix_rows (L : gf_complete) (k m w : Nat) (gf : gf_t)
    (vdm0 dist0 : Buf) (W : World) (hk : 1 ≤ k) (hm : 1 ≤ m) (hkm : k + m ≤ 2 ^ w)
    (hready : Ready L w gf W) (hgf : IsGF w gf)
    (hmalloc1 : L.malloc_int ((k + m) * k) = some vdm0)
    (hmalloc2 : L.malloc_int (m * k) = some dist0) :
    ∃ big W1 cm W2,
      reed_sol_big_vandermonde_distribution_matrix L (k + m) k w W
        = Outcome.ret (some big, W1) ∧
      reed_sol_vandermonde_coding_matrix L k m w W = Outcome.ret (some cm, W2) ∧
      (∀ r, r < m → ∀ c, c < k → cm (r * k + c) = big ((k + r) * k + c)) ∧
      ∀ matrix vdm1 : Buf, ∃ cm' W3,
        reed_sol_vandermonde_coding_matrix_noalloc L k m w matrix vdm1 W
          = Outcome.ret (some cm', W3) ∧
        ∀ r, r < m → ∀ c, c < k → cm' (r * k + c) = cm (r * k + c) := by
  have hmul : MulOK (Ready L w gf) L w gf := yields_mul hgf.ops
  have hdiv : DivOK (Ready L w gf) L w gf := yields_div hgf.ops
  obtain ⟨o, W1, e1, _, big, rfl, hbig⟩ :=
    dist_alloc_yields hgf hmul hdiv hk (by omega) hkm hmalloc1 W hready
  have hval : ∀ (dist v : Buf) r, r < m → ∀ c, c < k →
      reed_sol_vandermonde_coding_matrix_setup k m dist v (r * k + c) = v ((k + r) * k + c) := by
    intro dist v r hr c hc
    rw [coding_setup_eq]
    simp only []
    rw [if_pos (idx_lt hr hc)]
    congr 1; ring
  refine ⟨big, W1, reed_sol_vandermonde_coding_matrix_setup k m dist0 big, W1, e1, ?_, ?_, ?_⟩
  · unfold reed_sol_vandermonde_coding_matrix
    rw [run_bind e1]
    simp only [hmalloc2]
    rfl
  · intro r hr c hc
    exact hval dist0 big r hr c hc
  · intro matrix vdm1
    obtain ⟨o, W3, e3, _, big', rfl, hbig'⟩ :=
      dist_noalloc_yields hgf hmul hdiv vdm1 hk (by omega) hkm W hready
    refine ⟨reed_sol_vandermonde_coding_matrix_setup k m matrix big', W3, ?_, ?_⟩
    · unfold reed_sol_vandermonde_coding_matrix_noalloc
      rw [run_bind e3]
      rfl
    · intro r hr c hc
      rw [hval matrix big' r hr c hc, hval dist0 big r hr c hc,
        hbig' (k + r) (by omega) c hc, hbig (k + r) (by omega) c hc]

theorem C4_coding_matrix_rows_witness :
    ∃ big W1 cm W2,
      reed_sol_big_vandermonde_distribution_matrix ref_lib (2 + 2) 2 2 World.init
        = Outcome.ret (some big, W1) ∧
      reed_sol_vandermonde_coding_matrix ref_lib 2 2 2 World.init = Outcome.ret (some cm, W2) ∧
      (∀ r, r < 2 → ∀ c, c < 2 → cm (r * 2 + c) = big ((2 + r) * 2 + c)) ∧
      ∀ matrix vdm1 : Buf, ∃ cm' W3,
        reed_sol_vandermonde_coding_matrix_noalloc ref_lib 2 2 2 matrix vdm1 World.init
          = Outcome.ret (some cm', W3) ∧
        ∀ r, r < 2 → ∀ c, c < 2 → cm' (r * 2 + c) = cm (r * 2 + c) :=
  C4_coding_matrix_rows ref_lib 2 2 2 (ref_gf 2) (fun _ => 0) (fun _ => 0) World.init
    (by decide) (by decide) (by decide) ready_init_2 isGF_ref_2 rfl rfl

theorem runs_bind {α β : Type} {I : World → Prop} {m : GM α} {f : α → GM β} {a : α} {b : β}
    {F G : Heap → Heap} (h1 : Runs I m a F) (h2 : Runs I (f a) b G) :
    Runs I (m >>= f) b (fun h => G (F h)) := by
  intro W hW
  obtain ⟨W1, e1, i1, x1⟩ := h1 W hW
  obtain ⟨W2, e2, i2, x2⟩ := h2 W1 i1
  refine ⟨W2, ?_, i2, ?_⟩
  · rw [run_bind e1]; exact e2
  · rw [x2, x1]

theorem runs_bind_eq {α β : Type} {I : World → Prop} {m : GM α} {f : α → GM β} {a : α} {b : β}
    {F G H : Heap → Heap} (h1 : Runs I m a F) (h2 : Runs I (f a) b G)
    (e : ∀ h, H h = G (F h)) : Runs I (m >>= f) b H := by
  intro W hW
  obtain ⟨W1, e1, i1, x1⟩ := h1 W hW
  obtain ⟨W2, e2, i2, x2⟩ := h2 W1 i1
  refine ⟨W2, ?_, i2, ?_⟩
  · rw [run_bind e1]; exact e2
  · rw [x2, x1, e]

theorem runs_pure {α : Type} (I : World → Prop) (a : α) : Runs I (pure a : GM α) a id :=
  fun W hW => ⟨W, rfl, hW, rfl⟩

theorem runs_congr {α : Type} {I : World → Prop} {m : GM α} {a : α} {F G : Heap → Heap}
    (h : Runs I m a F) (e : ∀ x, F x = G x) : Runs I m a G := by
  intro W hW
  obtain ⟨W1, e1, i1, x1⟩ := h W hW
  exact ⟨W1, e1, i1, by rw [x1, e]⟩

theorem runs_iterM {σ : Type} {I : World → Prop} (n : Nat) (body : Nat → σ → GM σ) (s : σ)
    (F : Nat → Heap → Heap) (hstep : ∀ t, t < n → Runs I (body t s) s (F t)) :
    Runs I (iterM n body s) s (fun h => iter n F h) := by
  induction n with
  | zero => exact runs_pure I s
  | succ n ih =>
    have h1 := ih fun t ht => hstep t (Nat.lt_succ_of_lt ht)
    have h2 := hstep n (Nat.lt_succ_self n)
    intro W hW
    obtain ⟨W1, e1, i1, x1⟩ := h1 W hW
    obtain ⟨W2, e2, i2, x2⟩ := h2 W1 i1
    refine ⟨W2, ?_, i2, ?_⟩
    · show (iterM n body s >>= body n) W = _
      rw [run_bind e1]; exact e2
    · rw [x2, x1]; rfl

theorem slotOK_08 : SlotOK slot08 :=
  fun _ _ _ => ⟨rfl, rfl, rfl, rfl, fun _ _ => ⟨rfl, rfl, fun _ _ => ⟨rfl, rfl⟩⟩⟩

theorem slotOK_16 : SlotOK slot16 :=
  fun _ _ _ => ⟨rfl, rfl, rfl, rfl, fun _ _ => ⟨rfl, rfl, fun _ _ => ⟨rfl, rfl⟩⟩⟩

theorem slotOK_32 : SlotOK slot32 :=
  fun _ _ _ => ⟨rfl, rfl, rfl, rfl, fun _ _ => ⟨rfl, rfl, fun _ _ => ⟨rfl, rfl⟩⟩⟩

theorem slotOK_slotOf (w : Nat) : SlotOK (slotOf w) := by
  unfold slotOf
  split_ifs
  · exact slotOK_08
  · exact slotOK_16
  · exact slotOK_32

theorem ready_of_gfp_eq {L : gf_complete} {w : Nat} {gf : gf_t} {W W' : World}
    (e : W'.gfp_array = W.gfp_array) (h : Ready L w gf W) : Ready L w gf W' := by
  unfold Ready at h ⊢
  rw [e]; exact h

theorem ready_unique {L : gf_complete} {w : Nat} {gf gf' : gf_t} {W : World}
    (h : Ready L w gf W) (h' : Ready L w gf' W) : gf = gf' := by
  rcases h.2.2 with a | ⟨a1, a2⟩ <;> rcases h'.2.2 with b | ⟨b1, b2⟩
  · rw [a] at b; exact Option.some.inj b
  · rw [a] at b1; cases b1
  · rw [b] at a1; cases a1
  · rw [a2] at b2; exact Option.some.inj b2

theorem ready_setField_other {L : gf_complete} {w w' : Nat} {gf gf' : gf_t} {W : World}
    (h : Ready L w gf W) (h' : Ready L w' gf' W) :
    Ready L w gf (W.setField w' (some gf')) := by
  by_cases e : w = w'
  · subst e
    rw [← ready_unique h h']
    exact ready_setField h
  · refine ⟨h.1, h.2.1, ?_⟩
    have : (W.setField w' (some gf')).gfp_array w = W.gfp_array w := by
      simp only [World.setField]
      exact Function.update_noteq e _ _
    rw [this]; exact h.2.2

theorem mul_run {L : gf_complete} {w : Nat} {gf : gf_t} {W : World} (hW : Ready L w gf W)
    (hops : HasOps gf) (x y : Nat) :
    ∃ W1, galois_single_multiply L x y w W = Outcome.ret (gmul gf x y, W1) ∧
      (W1 = W ∨ W1 = W.setField w (some gf)) := by
  unfold galois_single_multiply gmul
  by_cases hz : x = 0 ∨ y = 0
  · exact ⟨W, by simp [hz], Or.inl rfl⟩
  · simp only [if_neg hz]
    obtain ⟨f, hf⟩ := Option.isSome_iff_exists.mp hops.1
    have hw32 : w ≤ 32 := hW.2.1
    cases hreg : W.gfp_array w with
    | none =>
      refine ⟨W.setField w (some gf), ?_, Or.inr rfl⟩
      simp [galois_init_ready hW hreg, hw32, World.setField, hf, gf_t.mul]
    | some g =>
      have hg : g = gf := by
        rcases hW.2.2 with h | ⟨h, _⟩
        · rw [hreg] at h; exact Option.some.inj h
        · rw [hreg] at h; cases h
      subst hg
      refine ⟨W, ?_, Or.inl rfl⟩
      simp [hw32, hreg, hf, gf_t.mul]

theorem doubleReady_heap {L : gf_complete} {w : Nat} {gf g : gf_t} {sl : Slot}
    (hsl : SlotOK sl) {W : World} (h : Heap) (hd : DoubleReady L w gf sl g W) :
    DoubleReady L w gf sl g { W with heap := h } := by
  obtain ⟨_, _, _, _, k⟩ := hsl W 0 gf
  obtain ⟨k1, k2, _⟩ := k W h
  unfold DoubleReady at hd ⊢
  rw [k1, k2]; exact hd

theorem doubleReady_setField {L : gf_complete} {w : Nat} {gf g : gf_t} {sl : Slot}
    (hsl : SlotOK sl) {W : World} (w' : Nat) (p : Option gf_t)
    (hd : DoubleReady L w gf sl g W) : DoubleReady L w gf sl g (W.setField w' p) := by
  obtain ⟨_, _, _, _, k⟩ := hsl W 0 gf
  obtain ⟨_, _, k3⟩ := k W W.heap
  obtain ⟨k1, k2⟩ := k3 w' p
  unfold DoubleReady at hd ⊢
  rw [k1, k2]; exact hd

theorem encReady_heap {L : gf_complete} {w : Nat} {gf gf32 g : gf_t} {size : Nat} {W : World}
    (h : Heap) (hW : EncReady L w gf gf32 g size W) :
    EncReady L w gf gf32 g size { W with heap := h } := by
  obtain ⟨a, b, c, d, e⟩ := hW
  exact ⟨ready_of_gfp_eq rfl a, b, doubleReady_heap (slotOK_slotOf w) h c, d,
    fun hs => ⟨ready_of_gfp_eq rfl (e hs).1, (e hs).2⟩⟩

theorem encReady_setField {L : gf_complete} {w w' : Nat} {gf gf32 g gf' : gf_t} {size : Nat}
    {W : World} (hW : EncReady L w gf gf32 g size W) (h' : Ready L w' gf' W) :
    EncReady L w gf gf32 g size (W.setField w' (some gf')) := by
  obtain ⟨a, b, c, d, e⟩ := hW
  exact ⟨ready_setField_other a h', b, doubleReady_setField (slotOK_slotOf w) w' _ c, d,
    fun hs => ⟨ready_setField_other (e hs).1 h', (e hs).2⟩⟩

theorem memcpy_runs {L : gf_complete} {w : Nat} {gf gf32 g : gf_t} {size : Nat}
    (dest src n : Nat) :
    Runs (EncReady L w gf gf32 g size) (memcpy dest src n) () (fun h => heapCopy h dest src n) :=
  fun W hW => ⟨{ W with heap := heapCopy W.heap dest src n }, rfl, encReady_heap _ hW, rfl⟩

theorem region_xor_runs {L : gf_complete} {w : Nat} {gf gf32 g : gf_t} {size : Nat}
    (src dest : Nat) :
    Runs (EncReady L w gf gf32 g size) (galois_region_xor L src dest size) ()
      (fun h => xorStep gf32 size h src dest) := by
  intro W hW
  unfold galois_region_xor xorStep
  by_cases hs : size ≥ 16
  · rw [if_pos hs]
    simp only [if_pos hs]
    obtain ⟨hr, hreg⟩ := hW.2.2.2.2 hs
    obtain ⟨f, hf⟩ := Option.isSome_iff_exists.mp hreg
    unfold galois_w32_region_xor regionApply
    cases h32 : W.gfp_array 32 with
    | none =>
      refine ⟨{ W.setField 32 (some gf32) with
          heap := f (some gf32.scratch) W.heap src dest 1 size 1 }, ?_,
        encReady_heap _ (encReady_setField hW hr), ?_⟩
      · simp only [galois_init_ready hr h32]
        simp only [World.setField, Function.update_same, hf]
      · simp only [hf]
    | some g' =>
      have hg : g' = gf32 := by
        rcases hr.2.2 with h | ⟨h, _⟩
        · rw [h32] at h; exact Option.some.inj h
        · rw [h32] at h; cases h
      subst hg
      refine ⟨{ W with heap := f (some g'.scratch) W.heap src dest 1 size 1 }, ?_,
        encReady_heap _ hW, ?_⟩
      · simp only [h32, hf]
      · simp only [hf]
  · rw [if_neg hs]
    simp only [if_neg hs]
    exact ⟨{ W with heap := xor_byte_loop size W.heap dest src }, rfl, encReady_heap _ hW, rfl⟩

theorem multby_2_runs {L : gf_complete} {w : Nat} {gf gf32 g : gf_t} {size : Nat}
    (region : Nat) :
    Runs (EncReady L w gf gf32 g size) (region_multby_2 L w (slotOf w) region size) ()
      (fun h => regionApply g h region region 2 size 0) := by
  intro W hW
  obtain ⟨a, b, c, d, e⟩ := hW
  obtain ⟨f, hf⟩ := Option.isSome_iff_exists.mp d
  have hsl := slotOK_slotOf w
  unfold region_multby_2 regionApply
  rcases c with ⟨c1, c2⟩ | ⟨c1, c2⟩
  · simp only [if_neg c1, c2, hf]
    exact ⟨{ W with heap := f (some g.scratch) W.heap region region 2 size 0 }, rfl,
      encReady_heap _ ⟨a, b, Or.inl ⟨c1, c2⟩, d, e⟩, rfl⟩
  · obtain ⟨W1, e1, hW1⟩ := mul_run a b (1 <<< (w - 1)) 2
    have hE : EncReady L w gf gf32 g size W1 := by
      rcases hW1 with rfl | rfl
      · exact ⟨a, b, Or.inr ⟨c1, c2⟩, d, e⟩
      · exact encReady_setField ⟨a, b, Or.inr ⟨c1, c2⟩, d, e⟩ a
    have hheap : W1.heap = W.heap := by
      rcases hW1 with rfl | rfl
      · rfl
      · rfl
    obtain ⟨s1, s2, s3, s4, _⟩ := hsl W1 (gmul gf (1 <<< (w - 1)) 2) g
    simp only [if_pos c1, e1, c2, s2, hf]
    refine ⟨{ (slotOf w).set W1 (gmul gf (1 <<< (w - 1)) 2) g with
        heap := f (some g.scratch) ((slotOf w).set W1 (gmul gf (1 <<< (w - 1)) 2) g).heap
          region region 2 size 0 }, rfl,
      encReady_heap _ ⟨ready_of_gfp_eq s4 hE.1, b, ?_, d, fun hs =>
      ⟨ready_of_gfp_eq s4 (hE.2.2.2.2 hs).1, (hE.2.2.2.2 hs).2⟩⟩, ?_⟩
    · by_cases hp : gmul gf (1 <<< (w - 1)) 2 = neg1
      · exact Or.inr ⟨by rw [s1]; exact hp, c2⟩
      · exact Or.inl ⟨by rw [s1]; exact hp, s2⟩
    · simp only [s3, hheap]

theorem post_pure {α : Type} (a : α) (Q : α → Prop) (h : Q a) : Post (pure a : GM α) Q := by
  intro W b W' e
  have : (b, W') = (a, W) := by
    have e' : Outcome.ret (a, W) = Outcome.ret (b, W') := e
    injection e' with e''
    exact e''.symm
  rw [(Prod.mk.inj this).1]; exact h

theorem post_bind {α β : Type} {m : GM α} {f : α → GM β} {P : α → Prop} {Q : β → Prop}
    (h1 : Post m P) (h2 : ∀ a, P a → Post (f a) Q) : Post (m >>= f) Q := by
  intro W b W' e
  have e' : GM.bind m f W = Outcome.ret (b, W') := e
  unfold GM.bind at e'
  cases hm : m W with
  | fatal => rw [hm] at e'; cases e'
  | ret p =>
    obtain ⟨a, W1⟩ := p
    rw [hm] at e'
    exact h2 a (h1 W a W1 hm) W1 b W' e'

theorem post_true {α : Type} (m : GM α) : Post m (fun _ => True) := fun _ _ _ _ => trivial

theorem post_iterM {σ : Type} (Q : σ → Prop) (n : Nat) (body : Nat → σ → GM σ) (s : σ)
    (h0 : Q s) (hstep : ∀ t s, Q s → Post (body t s) Q) : Post (iterM n body s) Q := by
  induction n with
  | zero => exact post_pure s Q h0
  | succ n ih => exact post_bind ih (fun a ha => hstep n a ha)

theorem r6_switch_post (L : gf_complete) {w : Nat} (hw : w = 8 ∨ w = 16 ∨ w = 32)
    (region size : Nat) : Post (r6_switch L w region size) (fun o => o = none) := by
  unfold r6_switch
  rcases hw with rfl | rfl | rfl
  · exact post_bind (post_true _) (fun _ _ => post_pure _ _ rfl)
  · exact post_bind (post_true _) (fun _ _ => post_pure _ _ rfl)
  · exact post_bind (post_true _) (fun _ _ => post_pure _ _ rfl)

/-- For a supported width, whenever the encoder returns it returns 1. -/
theorem r6_encode_post (L : gf_complete) {w : Nat} (hw : w = 8 ∨ w = 16 ∨ w = 32)
    (k : Nat) (data_ptrs coding_ptrs : Nat → Nat) (size : Nat) :
    Post (reed_sol_r6_encode L k w data_ptrs coding_ptrs size) (fun r => r = 1) := by
  unfold reed_sol_r6_encode
  refine post_bind (post_true _) fun _ _ => ?_
  refine post_bind (post_true _) fun _ _ => ?_
  refine post_bind (post_true _) fun _ _ => ?_
  refine post_bind (P := fun o => o = none) ?_ ?_
  · unfold r6_loop
    refine post_iterM _ _ _ _ rfl ?_
    intro t s hs
    subst hs
    unfold r6_step
    refine post_bind (r6_switch_post L hw _ _) ?_
    intro o ho
    subst ho
    exact post_bind (post_true _) (fun _ _ => post_pure _ _ rfl)
  · intro o ho
    subst ho
    exact post_pure _ _ rfl

theorem r6_switch_runs {L : gf_complete} {w : Nat} {gf gf32 g : gf_t} {size : Nat}
    (hw : w = 8 ∨ w = 16 ∨ w = 32) (region : Nat) :
    Runs (EncReady L w gf gf32 g size) (r6_switch L w region size) none
      (fun h => regionApply g h region region 2 size 0) := by
  have key : Runs (EncReady L w gf gf32 g size) (region_multby_2 L w (slotOf w) region size) ()
      (fun h => regionApply g h region region 2 size 0) := multby_2_runs region
  unfold r6_switch
  rcases hw with rfl | rfl | rfl
  · rw [if_pos rfl]
    exact runs_bind_eq key (runs_pure _ none) (fun _ => rfl)
  · rw [if_neg (by decide), if_pos rfl]
    exact runs_bind_eq key (runs_pure _ none) (fun _ => rfl)
  · rw [if_neg (by decide), if_neg (by decide), if_pos rfl]
    exact runs_bind_eq key (runs_pure _ none) (fun _ => rfl)

theorem r6_step_runs {L : gf_complete} {w : Nat} {gf gf32 g : gf_t} {size : Nat}
    (hw : w = 8 ∨ w = 16 ∨ w = 32) (data_ptrs coding_ptrs : Nat → Nat) (i : Nat) :
    Runs (EncReady L w gf gf32 g size) (r6_step L w data_ptrs coding_ptrs size i) none
      (fun h => xorStep gf32 size
        (regionApply g h (coding_ptrs 1) (coding_ptrs 1) 2 size 0)
        (data_ptrs i) (coding_ptrs 1)) := by
  have h2 : Runs (EncReady L w gf gf32 g size)
      (galois_region_xor L (data_ptrs i) (coding_ptrs 1) size >>= fun _ =>
        (pure none : GM (Option Nat))) none
      (fun h => xorStep gf32 size h (data_ptrs i) (coding_ptrs 1)) :=
    runs_bind_eq (region_xor_runs (data_ptrs i) (coding_ptrs 1)) (runs_pure _ none)
      (fun _ => rfl)
  unfold r6_step
  exact runs_bind_eq (r6_switch_runs hw (coding_ptrs 1)) h2 (fun _ => rfl)

/-- Under `EncReady`, the encoder for a supported width returns 1 and acts on
memory as `encHeap`. -/
theorem r6_encode_runs {L : gf_complete} {w : Nat} {gf gf32 g : gf_t} {size : Nat}
    (hw : w = 8 ∨ w = 16 ∨ w = 32) (k : Nat) (data_ptrs coding_ptrs : Nat → Nat) :
    Runs (EncReady L w gf gf32 g size)
      (reed_sol_r6_encode L k w data_ptrs coding_ptrs size) 1
      (encHeap gf32 g k data_ptrs coding_ptrs size) := by
  have p1 : Runs (EncReady L w gf gf32 g size)
      (forM 1 k (fun i _ => galois_region_xor L (data_ptrs i) (coding_ptrs 0) size) ()) ()
      (fun h => iter (k - 1)
        (fun t h => xorStep gf32 size h (data_ptrs (1 + t)) (coding_ptrs 0)) h) :=
    runs_iterM (k - 1) _ () _ (fun t _ => region_xor_runs (data_ptrs (1 + t)) (coding_ptrs 0))
  have p2 : Runs (EncReady L w gf gf32 g size)
      (r6_loop L k w data_ptrs coding_ptrs size (k - 1)) none
      (fun h => iter (k - 1) (fun t h =>
        xorStep gf32 size (regionApply g h (coding_ptrs 1) (coding_ptrs 1) 2 size 0)
          (data_ptrs (k - 2 - t)) (coding_ptrs 1)) h) :=
    runs_iterM (k - 1) _ none _
      (fun t _ => r6_step_runs hw data_ptrs coding_ptrs (k - 2 - t))
  have h4 := runs_bind
    (f := fun (ret : Option Nat) =>
      match ret with
      | some r => (pure r : GM Nat)
      | none => pure 1)
    p2 (runs_pure (EncReady L w gf gf32 g size) (1 : Nat))
  have h3 := runs_bind
    (f := fun (_ : Unit) =>
      r6_loop L k w data_ptrs coding_ptrs size (k - 1) >>= fun (ret : Option Nat) =>
      match ret with
      | some r => (pure r : GM Nat)
      | none => pure 1)
    (memcpy_runs (coding_ptrs 1) (data_ptrs (k - 1)) size) h4
  have h2 := runs_bind
    (f := fun (_ : Unit) =>
      memcpy (coding_ptrs 1) (data_ptrs (k - 1)) size >>= fun (_ : Unit) =>
      r6_loop L k w data_ptrs coding_ptrs size (k - 1) >>= fun (ret : Option Nat) =>
      match ret with
      | some r => (pure r : GM Nat)
      | none => pure 1)
    p1 h3
  have h1 := runs_bind
    (f := fun (_ : Unit) =>
      forM 1 k (fun i _ => galois_region_xor L (data_ptrs i) (coding_ptrs 0) size) ()
        >>= fun (_ : Unit) =>
      memcpy (coding_ptrs 1) (data_ptrs (k - 1)) size >>= fun (_ : Unit) =>
      r6_loop L k w data_ptrs coding_ptrs size (k - 1) >>= fun (ret : Option Nat) =>
      match ret with
      | some r => (pure r : GM Nat)
      | none => pure 1)
    (memcpy_runs (coding_ptrs 0) (data_ptrs 0) size) h2
  exact runs_congr h1 (fun _ => rfl)

theorem xor_byte_loop_eq {n src dest : Nat} (h : Heap) (hd : Disj src dest n) :
    xor_byte_loop n h dest src = xorInto h src dest n := by
  unfold xor_byte_loop
  have key := iter_inv (fun t (st : Heap × Nat × Nat) =>
      st.2.1 = dest + t ∧ st.2.2 = src + t ∧
      ∀ a, st.1 a = if dest ≤ a ∧ a < dest + t then h a ^^^ h (src + (a - dest)) else h a) n
    (fun _ (st : Heap × Nat × Nat) =>
      (Function.update st.1 st.2.1 (st.1 st.2.1 ^^^ st.1 st.2.2), st.2.1 + 1, st.2.2 + 1))
    (h, dest, src) ⟨rfl, rfl, fun a => by rw [if_neg]; omega⟩ ?_
  · funext a
    exact key.2.2 a
  · intro t st ht ⟨h1, h2, h3⟩
    refine ⟨by simp only [h1]; omega, by simp only [h2]; omega, fun a => ?_⟩
    simp only [Function.update_apply]
    have hs : st.1 (src + t) = h (src + t) := by
      rw [h3, if_neg]
      unfold Disj at hd
      omega
    have hdst : st.1 (dest + t) = h (dest + t) := by
      rw [h3, if_neg]; omega
    by_cases ha : a = dest + t
    · rw [h1, h2, if_pos ha, if_pos (by omega), hs, hdst, ha]
      congr 2
      omega
    · rw [h1, if_neg ha, h3 a]
      by_cases hin : dest ≤ a ∧ a < dest + t
      · rw [if_pos hin, if_pos (by omega)]
      · rw [if_neg hin, if_neg (by omega)]

theorem xorStep_eq {gf32 : gf_t} {size src dest : Nat} (h : Heap) (hd : Disj src dest size)
    (hx : 16 ≤ size → RegionXor gf32) : xorStep gf32 size h src dest = xorInto h src dest size := by
  unfold xorStep
  by_cases hs : size ≥ 16
  · rw [if_pos hs]; exact hx hs h src dest size hd
  · rw [if_neg hs]; exact xor_byte_loop_eq h hd

/-- Parity 0 after the copy and the first `n` accumulations. -/
theorem parity0_iter {gf32 : gf_t} {k size : Nat} {data_ptrs : Nat → Nat} {c0 : Nat}
    (h0 : Heap) (hd : ∀ i, i < k → Disj (data_ptrs i) c0 size)
    (hx : 16 ≤ size → RegionXor gf32) (n : Nat) (hn : n + 1 ≤ k) :
    iter n (fun t h => xorStep gf32 size h (data_ptrs (1 + t)) c0)
        (heapCopy h0 c0 (data_ptrs 0) size)
      = fun a => if c0 ≤ a ∧ a < c0 + size then
          xor_range (n + 1) (fun i => h0 (data_ptrs i + (a - c0))) else h0 a := by
  induction n with
  | zero =>
    funext a
    simp only [iter, heapCopy, xor_range, Nat.zero_xor]
  | succ n ih =>
    funext a
    simp only [iter]
    rw [ih (by omega), xorStep_eq _ (hd (1 + n) (by omega)) hx]
    simp only [xorInto]
    by_cases hin : c0 ≤ a ∧ a < c0 + size
    · simp only [if_pos hin]
      have hdis := hd (1 + n) (by omega)
      unfold Disj at hdis
      rw [if_neg (by omega)]
      show _ = xor_range (n + 1) _ ^^^ h0 (data_ptrs (n + 1) + (a - c0))
      rw [Nat.add_comm 1 n]
    · simp only [if_neg hin]

/-- The Horner loop changes memory only inside parity 1. -/
theorem parity1_frame {gf32 g : gf_t} {k size : Nat} {data_ptrs : Nat → Nat} {c1 : Nat}
    (hd : ∀ i, i < k → Disj (data_ptrs i) c1 size) (hx : 16 ≤ size → RegionXor gf32)
    (hf : RegionFrame g) (h : Heap) (n : Nat) (hn : n + 1 ≤ k) (a : Nat)
    (ha : ¬ (c1 ≤ a ∧ a < c1 + size)) :
    iter n (fun t h => xorStep gf32 size (regionApply g h c1 c1 2 size 0)
        (data_ptrs (k - 2 - t)) c1) h a = h a := by
  induction n with
  | zero => rfl
  | succ n ih =>
    simp only [iter]
    rw [xorStep_eq _ (hd (k - 2 - n) (by omega)) hx]
    simp only [xorInto]
    rw [if_neg ha, hf _ _ _ _ ha]
    exact ih (by omega)

/-- Parity 0 and the data fragments after the encoder ran. -/
theorem encHeap_parity0 {gf32 g : gf_t} {k size : Nat} {data_ptrs coding_ptrs : Nat → Nat}
    (h0 : Heap) (hk : 1 ≤ k)
    (hd0 : ∀ i, i < k → Disj (data_ptrs i) (coding_ptrs 0) size)
    (hd1 : ∀ i, i < k → Disj (data_ptrs i) (coding_ptrs 1) size)
    (hcc : Disj (coding_ptrs 0) (coding_ptrs 1) size)
    (hx : 16 ≤ size → RegionXor gf32) (hf : RegionFrame g) :
    (∀ b, b < size → encHeap gf32 g k data_ptrs coding_ptrs size h0 (coding_ptrs 0 + b)
        = xor_range k (fun i => h0 (data_ptrs i + b))) ∧
    (∀ i, i < k → ∀ b, b < size →
      encHeap gf32 g k data_ptrs coding_ptrs size h0 (data_ptrs i + b) = h0 (data_ptrs i + b)) := by
  have hout : ∀ a, ¬ (coding_ptrs 1 ≤ a ∧ a < coding_ptrs 1 + size) →
      encHeap gf32 g k data_ptrs coding_ptrs size h0 a
        = (if coding_ptrs 0 ≤ a ∧ a < coding_ptrs 0 + size then
            xor_range k (fun i => h0 (data_ptrs i + (a - coding_ptrs 0))) else h0 a) := by
    intro a ha
    unfold encHeap
    rw [parity1_frame hd1 hx hf _ (k - 1) (by omega) a ha]
    simp only [heapCopy]
    rw [if_neg ha, parity0_iter h0 hd0 hx (k - 1) (by omega)]
    simp only []
    rw [show k - 1 + 1 = k by omega]
  unfold Disj at hcc
  constructor
  · intro b hb
    rw [hout _ (by omega), if_pos (by omega)]
    congr 1
    funext i
    congr 2
    omega
  · intro i hi b hb
    have h1 := hd0 i hi
    have h2 := hd1 i hi
    unfold Disj at h1 h2
    rw [hout _ (by omega), if_neg (by omega)]

theorem read_word_congr {h h' : Heap} {a a' : Nat} (n : Nat)
    (e : ∀ t, t < n → h (a + t) = h' (a' + t)) : read_word h a n = read_word h' a' n := by
  induction n generalizing a a' with
  | zero => rfl
  | succ n ih =>
    simp only [read_word]
    have e0 := e 0 (Nat.succ_pos n)
    rw [Nat.add_zero, Nat.add_zero] at e0
    rw [e0, ih (fun t ht => by
      have := e (1 + t) (by omega)
      rw [← Nat.add_assoc, ← Nat.add_assoc] at this
      exact this)]

theorem byte_word_xor {x y X Y : Nat} (hx : x < 256) (hy : y < 256) :
    (x ^^^ y) + 256 * (X ^^^ Y) = (x + 256 * X) ^^^ (y + 256 * Y) := by
  have hxy : x ^^^ y < 2 ^ 8 := Nat.xor_lt_two_pow (by omega) (by omega)
  apply Nat.eq_of_testBit_eq
  intro j
  have e : (256 : Nat) = 2 ^ 8 := by norm_num
  rw [Nat.testBit_xor, Nat.add_comm (x ^^^ y), Nat.add_comm x, Nat.add_comm y, e,
    Nat.testBit_mul_pow_two_add _ hxy, Nat.testBit_mul_pow_two_add _ (by omega : x < 2 ^ 8),
    Nat.testBit_mul_pow_two_add _ (by omega : y < 2 ^ 8)]
  by_cases hj : j < 8
  · simp only [if_pos hj, Nat.testBit_xor]
  · simp only [if_neg hj, Nat.testBit_xor]

theorem read_word_lt {h : Heap} {a : Nat} (n : Nat) (hb : ∀ t, t < n → h (a + t) < 256) :
    read_word h a n < 256 ^ n := by
  induction n generalizing a with
  | zero => simp [read_word]
  | succ n ih =>
    simp only [read_word]
    have h0 := hb 0 (Nat.succ_pos n)
    rw [Nat.add_zero] at h0
    have h1 := ih (a := a + 1) (fun t ht => by
      have := hb (1 + t) (by omega)
      rw [← Nat.add_assoc] at this
      exact this)
    rw [pow_succ]
    have : 256 * read_word h (a + 1) n + 256 ≤ 256 * 256 ^ n := by
      have := Nat.mul_le_mul_left 256 (Nat.succ_le_of_lt h1)
      rw [Nat.mul_succ] at this
      exact this
    rw [Nat.mul_comm (256 ^ n)]
    omega

theorem read_word_xor {h h1 h2 : Heap} {a a1 a2 : Nat} (n : Nat)
    (e : ∀ t, t < n → h (a + t) = h1 (a1 + t) ^^^ h2 (a2 + t))
    (b1 : ∀ t, t < n → h1 (a1 + t) < 256) (b2 : ∀ t, t < n → h2 (a2 + t) < 256) :
    read_word h a n = read_word h1 a1 n ^^^ read_word h2 a2 n := by
  induction n generalizing a a1 a2 with
  | zero => simp [read_word]
  | succ n ih =>
    simp only [read_word]
    have e0 := e 0 (Nat.succ_pos n)
    have c1 := b1 0 (Nat.succ_pos n)
    have c2 := b2 0 (Nat.succ_pos n)
    rw [Nat.add_zero] at e0 c1 c2
    rw [Nat.add_zero, Nat.add_zero] at e0
    have shift : ∀ {f : Heap} {x : Nat} {P : Nat → Prop},
        (∀ t, t < n + 1 → P (f (x + t))) → ∀ t, t < n → P (f (x + 1 + t)) := by
      intro f x P hP t ht
      have := hP (1 + t) (by omega)
      rw [← Nat.add_assoc] at this
      exact this
    have ih' := @ih (a + 1) (a1 + 1) (a2 + 1)
      (fun t ht => by
        have := e (1 + t) (by omega)
        rw [← Nat.add_assoc, ← Nat.add_assoc, ← Nat.add_assoc] at this
        exact this)
      (shift (P := fun v => v < 256) b1) (shift (P := fun v => v < 256) b2)
    rw [e0, ih', byte_word_xor c1 c2]

theorem toF_xor_range {w : Nat} {gf : gf_t} [Fact (IsGF w gf)] (n : Nat) (f : Nat → Nat)
    (hf : ∀ i, i < n → f i < 2 ^ w) :
    xor_range n f < 2 ^ w ∧
      toF w gf (xor_range n f) = (Finset.range n).sum (fun i => toF w gf (f i)) := by
  induction n with
  | zero => exact ⟨Nat.two_pow_pos w, by simp [xor_range, toF_zero]⟩
  | succ n ih =>
    obtain ⟨i1, i2⟩ := ih (fun i hi => hf i (Nat.lt_succ_of_lt hi))
    have hn := hf n (Nat.lt_succ_self n)
    refine ⟨Nat.xor_lt_two_pow i1 hn, ?_⟩
    simp only [xor_range]
    rw [toF_xor i1 hn, i2, Finset.sum_range_succ]

/-- Horner evaluation by doubling agrees with the sum of the words multiplied
by the powers of 2 computed by scalar multiplication. -/
theorem horner_eq {w : Nat} {gf : gf_t} (hgf : IsGF w gf) (hw : 2 ≤ w) (d : Nat → Nat) (k : Nat)
    (hk : 1 ≤ k) (hd : ∀ i, i < k → d i < 2 ^ w) :
    horner gf d k (k - 1) = xor_range k (fun i => gmul gf (d i) (gpow gf 2 i)) := by
  haveI : Fact (IsGF w gf) := ⟨hgf⟩
  have h2 : 2 < 2 ^ w := by
    calc 2 < 2 ^ 2 := by norm_num
      _ ≤ 2 ^ w := Nat.pow_le_pow_right (by norm_num) hw
  have key : ∀ t, t + 1 ≤ k → horner gf d k t < 2 ^ w ∧
      toF w gf (horner gf d k t)
        = (Finset.range (t + 1)).sum (fun j => toF w gf (d (k - 1 - t + j)) * toF w gf 2 ^ j) := by
    intro t
    induction t with
    | zero =>
      intro _
      refine ⟨hd _ (by omega), ?_⟩
      simp [horner]
    | succ t ih =>
      intro ht
      obtain ⟨i1, i2⟩ := ih (by omega)
      have hdt := hd (k - 2 - t) (by omega)
      have hm := gmul_lt hgf i1 h2
      refine ⟨Nat.xor_lt_two_pow hm hdt, ?_⟩
      simp only [horner]
      rw [toF_xor hm hdt, toF_gmul i1 h2, i2, Finset.sum_range_succ' _ (t + 1), Finset.sum_mul]
      have e1 : k - 1 - (t + 1) + 0 = k - 2 - t := by omega
      rw [e1, pow_zero, mul_one]
      congr 1
      refine Finset.sum_congr rfl fun j _ => ?_
      have e2 : k - 1 - (t + 1) + (j + 1) = k - 1 - t + j := by omega
      rw [e2, pow_succ, mul_assoc]
  obtain ⟨k1, k2⟩ := key (k - 1) (by omega)
  have hterm : ∀ i, i < k → gmul gf (d i) (gpow gf 2 i) < 2 ^ w :=
    fun i hi => gmul_lt hgf (hd i hi) (toF_gpow h2 i).1
  obtain ⟨x1, x2⟩ := @toF_xor_range w gf _ k _ hterm
  apply @toF_inj w gf _ _ k1 x1
  rw [k2, x2, show k - 1 + 1 = k by omega]
  refine Finset.sum_congr rfl fun i hi => ?_
  have hi' := Finset.mem_range.mp hi
  rw [toF_gmul (hd i hi') (toF_gpow h2 i).1, (toF_gpow h2 i).2,
    show k - 1 - (k - 1) + i = i by omega]

theorem word_in_region {size wb p t : Nat} (hp : p < size / wb) (ht : t < wb) :
    p * wb + t < size := by
  have h1 : (p + 1) * wb ≤ size / wb * wb := Nat.mul_le_mul_right wb hp
  have h2 : size / wb * wb ≤ size := Nat.div_mul_le_self size wb
  rw [Nat.succ_mul] at h1
  omega

/-- Parity 1 word by word after the copy and the first `n` Horner steps. -/
theorem parity1_words {w : Nat} {gf gf32 g : gf_t} {k size : Nat} {data_ptrs : Nat → Nat}
    {c1 : Nat} (hd : ∀ i, i < k → Disj (data_ptrs i) c1 size)
    (hx : 16 ≤ size → RegionXor gf32) (hf : RegionFrame g) (hdbl : RegionDoubles w gf g)
    (hdiv : (w / 8) ∣ size) (h0 hs : Heap)
    (hdat : ∀ i, i < k → ∀ b, b < size → hs (data_ptrs i + b) = h0 (data_ptrs i + b))
    (hb : ∀ i, i < k → ∀ b, b < size → h0 (data_ptrs i + b) < 256) (n : Nat) (hn : n + 1 ≤ k) :
    (∀ a, c1 ≤ a → a < c1 + size →
      iter n (fun t h => xorStep gf32 size (regionApply g h c1 c1 2 size 0)
        (data_ptrs (k - 2 - t)) c1) (heapCopy hs c1 (data_ptrs (k - 1)) size) a < 256) ∧
    ∀ p, p < size / (w / 8) →
      read_word (iter n (fun t h => xorStep gf32 size (regionApply g h c1 c1 2 size 0)
        (data_ptrs (k - 2 - t)) c1) (heapCopy hs c1 (data_ptrs (k - 1)) size))
        (c1 + p * (w / 8)) (w / 8)
      = horner gf (fun i => read_word h0 (data_ptrs i + p * (w / 8)) (w / 8)) k n := by
  induction n with
  | zero =>
    constructor
    · intro a ha1 ha2
      simp only [iter, heapCopy]
      rw [if_pos ⟨ha1, ha2⟩, hdat _ (by omega) _ (by omega)]
      exact hb _ (by omega) _ (by omega)
    · intro p hp
      simp only [iter, horner]
      apply read_word_congr
      intro t ht
      have hin := word_in_region hp ht
      simp only [heapCopy]
      rw [if_pos (by omega), show c1 + p * (w / 8) + t - c1 = p * (w / 8) + t by omega,
        hdat _ (by omega) _ hin, Nat.add_assoc]
  | succ n ih =>
    obtain ⟨ihb, ihw⟩ := ih (by omega)
    have hi : k - 2 - n < k := by omega
    have hdis := hd (k - 2 - n) hi
    simp only [iter]
    generalize hH : iter n (fun t h => xorStep gf32 size (regionApply g h c1 c1 2 size 0)
        (data_ptrs (k - 2 - t)) c1) (heapCopy hs c1 (data_ptrs (k - 1)) size) = H at ihb ihw ⊢
    have hHd : ∀ b, b < size → H (data_ptrs (k - 2 - n) + b) = h0 (data_ptrs (k - 2 - n) + b) := by
      intro b hbs
      have hout : ¬ (c1 ≤ data_ptrs (k - 2 - n) + b ∧ data_ptrs (k - 2 - n) + b < c1 + size) := by
        unfold Disj at hdis
        omega
      rw [← hH, parity1_frame hd hx hf _ n (by omega) _ hout]
      simp only [heapCopy]
      rw [if_neg hout, hdat _ hi _ hbs]
    obtain ⟨b1, w1⟩ := hdbl H c1 size hdiv ihb
    have hH1d : ∀ b, b < size → regionApply g H c1 c1 2 size 0 (data_ptrs (k - 2 - n) + b)
        = h0 (data_ptrs (k - 2 - n) + b) := by
      intro b hbs
      have hout : ¬ (c1 ≤ data_ptrs (k - 2 - n) + b ∧ data_ptrs (k - 2 - n) + b < c1 + size) := by
        unfold Disj at hdis
        omega
      rw [hf _ _ _ _ hout, hHd b hbs]
    rw [xorStep_eq _ hdis hx]
    constructor
    · intro a ha1 ha2
      simp only [xorInto]
      rw [if_pos ⟨ha1, ha2⟩]
      have x1 := b1 a ha1 ha2
      have x2 : regionApply g H c1 c1 2 size 0 (data_ptrs (k - 2 - n) + (a - c1)) < 256 := by
        rw [hH1d _ (by omega)]
        exact hb _ hi _ (by omega)
      exact Nat.xor_lt_two_pow (n := 8) x1 x2
    · intro p hp
      simp only [horner]
      rw [← ihw p hp, ← w1 p hp]
      have e2 : read_word h0 (data_ptrs (k - 2 - n) + p * (w / 8)) (w / 8)
          = read_word (regionApply g H c1 c1 2 size 0)
              (data_ptrs (k - 2 - n) + p * (w / 8)) (w / 8) := by
        apply read_word_congr
        intro t ht
        rw [Nat.add_assoc, hH1d _ (word_in_region hp ht)]
      rw [e2]
      apply read_word_xor
      · intro t ht
        have hin := word_in_region hp ht
        simp only [xorInto]
        rw [if_pos (by omega), show c1 + p * (w / 8) + t - c1 = p * (w / 8) + t by omega,
          Nat.add_assoc (data_ptrs (k - 2 - n))]
      · intro t ht
        have hin := word_in_region hp ht
        exact b1 _ (by omega) (by omega)
      · intro t ht
        have hin := word_in_region hp ht
        rw [Nat.add_assoc, hH1d _ hin]
        exact hb _ hi _ hin

/-- Parity 1 after the encoder ran: word `p` is the sum over the data
fragments of word `p` of fragment `i` multiplied by `2^i`. -/
theorem encHeap_parity1 {w : Nat} {gf gf32 g : gf_t} {k size : Nat}
    {data_ptrs coding_ptrs : Nat → Nat} (h0 : Heap) (hgf : IsGF w gf)
    (hw : w = 8 ∨ w = 16 ∨ w = 32) (hk : 1 ≤ k)
    (hd0 : ∀ i, i < k → Disj (data_ptrs i) (coding_ptrs 0) size)
    (hd1 : ∀ i, i < k → Disj (data_ptrs i) (coding_ptrs 1) size)
    (hx : 16 ≤ size → RegionXor gf32) (hf : RegionFrame g) (hdbl : RegionDoubles w gf g)
    (hdiv : (w / 8) ∣ size)
    (hb : ∀ i, i < k → ∀ b, b < size → h0 (data_ptrs i + b) < 256) :
    ∀ p, p < size / (w / 8) →
      read_word (encHeap gf32 g k data_ptrs coding_ptrs size h0)
          (coding_ptrs 1 + p * (w / 8)) (w / 8)
        = xor_range k (fun i =>
            gmul gf (read_word h0 (data_ptrs i + p * (w / 8)) (w / 8)) (gpow gf 2 i)) := by
  intro p hp
  have hdat : ∀ i, i < k → ∀ b, b < size →
      iter (k - 1) (fun t h => xorStep gf32 size h (data_ptrs (1 + t)) (coding_ptrs 0))
        (heapCopy h0 (coding_ptrs 0) (data_ptrs 0) size) (data_ptrs i + b)
        = h0 (data_ptrs i + b) := by
    intro i hi b hbs
    rw [parity0_iter h0 hd0 hx (k - 1) (by omega)]
    have h1 := hd0 i hi
    unfold Disj at h1
    simp only []
    rw [if_neg (by omega)]
  have key := (parity1_words hd1 hx hf hdbl hdiv h0 _ hdat hb (k - 1) (by omega)).2 p hp
  unfold encHeap
  rw [key]
  have hw2 : 2 ≤ w := by omega
  have h8 : 256 ^ (w / 8) = 2 ^ w := by
    rcases hw with h | h | h <;> subst h <;> norm_num
  apply horner_eq hgf hw2 _ k hk
  intro i hi
  rw [← h8]
  apply read_word_lt
  intro t ht
  rw [Nat.add_assoc]
  exact hb i hi _ (word_in_region hp ht)

theorem two_mul_xor (a b : Nat) : 2 * (a ^^^ b) = 2 * a ^^^ 2 * b := by
  apply Nat.eq_of_testBit_eq
  intro j
  cases j with
  | zero =>
    rw [Nat.testBit_xor]
    simp [Nat.testBit_zero]
  | succ j =>
    rw [Nat.testBit_xor, Nat.testBit_succ, Nat.testBit_succ, Nat.testBit_succ,
      Nat.mul_div_cancel_left _ (by decide : 0 < 2), Nat.mul_div_cancel_left _ (by decide : 0 < 2),
      Nat.mul_div_cancel_left _ (by decide : 0 < 2), Nat.testBit_xor]

theorem testBit_seven (x : Nat) (hx : x < 256) : x.testBit 7 = decide (128 ≤ x) := by
  by_cases h : 128 ≤ x
  · have e : x = 2 ^ 7 + (x - 128) := by
      have : (2 : Nat) ^ 7 = 128 := by norm_num
      omega
    rw [e, Nat.testBit_two_pow_add_eq, Nat.testBit_lt_two_pow (by
      have : (2 : Nat) ^ 7 = 128 := by norm_num
      omega), ← e]
    simp [h]
  · rw [Nat.testBit_lt_two_pow (by
      have : (2 : Nat) ^ 7 = 128 := by norm_num
      omega)]
    simp [h]

theorem ref_xtime_eq (x : Nat) :
    ref_xtime 8 285 x = if 128 ≤ x then 2 * x ^^^ 285 else 2 * x := by
  unfold ref_xtime
  by_cases h : 128 ≤ x
  · rw [if_pos h, if_pos (by norm_num; omega)]
  · rw [if_neg h, if_neg (by norm_num; omega)]

theorem ref_xtime_lt : ∀ x, x < 256 → ref_xtime 8 285 x < 256 := by decide!

theorem xor_xor_xor_comm (a b c d : Nat) : (a ^^^ b) ^^^ (c ^^^ d) = (a ^^^ c) ^^^ (b ^^^ d) := by
  rw [Nat.xor_assoc, Nat.xor_assoc, ← Nat.xor_assoc b, ← Nat.xor_assoc c, Nat.xor_comm b c]

theorem ref_xtime_xor (a b : Nat) (ha : a < 256) (hb : b < 256) :
    ref_xtime 8 285 (a ^^^ b) = ref_xtime 8 285 a ^^^ ref_xtime 8 285 b := by
  have hab : a ^^^ b < 256 := Nat.xor_lt_two_pow (n := 8) ha hb
  have h7 := Nat.testBit_xor a b 7
  rw [testBit_seven _ hab, testBit_seven _ ha, testBit_seven _ hb] at h7
  rw [ref_xtime_eq, ref_xtime_eq, ref_xtime_eq, two_mul_xor]
  by_cases h1 : 128 ≤ a <;> by_cases h2 : 128 ≤ b <;> simp only [h1, h2] at h7 <;>
    simp at h7
  · rw [if_neg (by omega), if_pos h1, if_pos h2, xor_xor_xor_comm, Nat.xor_self, Nat.xor_zero]
  · rw [if_pos h7, if_pos h1, if_neg h2, Nat.xor_assoc, Nat.xor_assoc, Nat.xor_comm 285]
  · rw [if_pos h7, if_neg h1, if_pos h2, Nat.xor_assoc]
  · rw [if_neg (by omega), if_neg h1, if_neg h2]

theorem ref_mult_aux_lt (n : Nat) : ∀ x y acc, x < 256 → acc < 256 →
    ref_mult_aux 8 285 n x y acc < 256 := by
  induction n with
  | zero => intro x y acc _ ha; exact ha
  | succ n ih =>
    intro x y acc hx ha
    simp only [ref_mult_aux]
    apply ih _ _ _ (ref_xtime_lt x hx)
    split
    · exact Nat.xor_lt_two_pow (n := 8) ha hx
    · exact ha

theorem ref_mult_lt_8 (x y : Nat) (hx : x < 256) : ref_mult 8 285 x y < 256 :=
  ref_mult_aux_lt 8 x y 0 hx (by decide)

/-- The shift-and-add product is additive in its second argument. -/
theorem ref_mult_aux_xor_right (w poly n : Nat) : ∀ x y1 y2 a1 a2,
    ref_mult_aux w poly n x (y1 ^^^ y2) (a1 ^^^ a2)
      = ref_mult_aux w poly n x y1 a1 ^^^ ref_mult_aux w poly n x y2 a2 := by
  induction n with
  | zero => intro x y1 y2 a1 a2; rfl
  | succ n ih =>
    intro x y1 y2 a1 a2
    simp only [ref_mult_aux]
    rw [Nat.xor_div_two, ← ih]
    congr 1
    have hx := @Nat.xor_mod_two_eq_one y1 y2
    by_cases h1 : y1 % 2 = 1 <;> by_cases h2 : y2 % 2 = 1
    · rw [if_neg (fun h => hx.mp h ⟨fun _ => h2, fun _ => h1⟩), if_pos h1, if_pos h2,
        xor_xor_xor_comm, Nat.xor_self, Nat.xor_zero]
    · rw [if_pos (hx.mpr fun hiff => h2 (hiff.mp h1)), if_pos h1, if_neg h2, Nat.xor_assoc,
        Nat.xor_assoc, Nat.xor_comm x]
    · rw [if_pos (hx.mpr fun hiff => h1 (hiff.mpr h2)), if_neg h1, if_pos h2, Nat.xor_assoc]
    · rw [if_neg (fun h => hx.mp h ⟨fun a => absurd a h1, fun a => absurd a h2⟩), if_neg h1,
        if_neg h2]

/-- The shift-and-add product is additive in its first argument. -/
theorem ref_mult_aux_xor_left (n : Nat) : ∀ x1 x2 y a1 a2, x1 < 256 → x2 < 256 →
    ref_mult_aux 8 285 n (x1 ^^^ x2) y (a1 ^^^ a2)
      = ref_mult_aux 8 285 n x1 y a1 ^^^ ref_mult_aux 8 285 n x2 y a2 := by
  induction n with
  | zero => intro x1 x2 y a1 a2 _ _; rfl
  | succ n ih =>
    intro x1 x2 y a1 a2 h1 h2
    simp only [ref_mult_aux]
    rw [ref_xtime_xor _ _ h1 h2, ← ih _ _ _ _ _ (ref_xtime_lt _ h1) (ref_xtime_lt _ h2)]
    congr 1
    by_cases hy : y % 2 = 1
    · rw [if_pos hy, if_pos hy, if_pos hy, xor_xor_xor_comm]
    · rw [if_neg hy, if_neg hy, if_neg hy]

theorem ref_mult_xor_right (x y z : Nat) :
    ref_mult 8 285 x (y ^^^ z) = ref_mult 8 285 x y ^^^ ref_mult 8 285 x z := by
  unfold ref_mult
  rw [← ref_mult_aux_xor_right, Nat.xor_self]

theorem ref_mult_xor_left (x y z : Nat) (hx : x < 256) (hy : y < 256) :
    ref_mult 8 285 (x ^^^ y) z = ref_mult 8 285 x z ^^^ ref_mult 8 285 y z := by
  unfold ref_mult
  rw [← ref_mult_aux_xor_left _ _ _ _ _ _ hx hy, Nat.xor_self]

theorem ref_mult_zero_right (x : Nat) : ref_mult 8 285 x 0 = 0 := by
  have := ref_mult_xor_right x 0 0
  rw [Nat.xor_self, Nat.xor_self] at this
  exact this

theorem ref_mult_zero_left (y : Nat) : ref_mult 8 285 0 y = 0 := by
  have := ref_mult_xor_left 0 0 y (by decide) (by decide)
  rw [Nat.xor_self, Nat.xor_self] at this
  exact this

/-- Induction over the span of the bits: a property of `0` and of the powers
`2^i`, `i < n`, that is closed under `^` holds below `2^n`. -/
theorem xor_span_induction (n : Nat) (P : Nat → Prop) (h0 : P 0)
    (hbit : ∀ i, i < n → P (2 ^ i))
    (hxor : ∀ a b, a < 2 ^ n → b < 2 ^ n → P a → P b → P (a ^^^ b)) :
    ∀ a, a < 2 ^ n → P a := by
  have key : ∀ m, m ≤ n → ∀ a, a < 2 ^ m → P a := by
    intro m
    induction m with
    | zero =>
      intro _ a ha
      have : a = 0 := by simpa using ha
      rw [this]; exact h0
    | succ m ih =>
      intro hm a ha
      by_cases hlt : a < 2 ^ m
      · exact ih (by omega) a hlt
      · have hp : 2 ^ (m + 1) = 2 ^ m + 2 ^ m := by rw [pow_succ]; omega
        have hsub : a - 2 ^ m < 2 ^ m := by omega
        have e : a = (a - 2 ^ m) ^^^ 2 ^ m := by
          apply Nat.eq_of_testBit_eq
          intro j
          have ea : a = 2 ^ m * 1 + (a - 2 ^ m) := by omega
          rw [Nat.testBit_xor, Nat.testBit_two_pow]
          conv_lhs => rw [ea, Nat.testBit_mul_pow_two_add 1 hsub]
          by_cases hj : j < m
          · rw [if_pos hj]
            have : ¬ m = j := by omega
            simp [this]
          · rw [if_neg hj]
            have hf : (a - 2 ^ m).testBit j = false :=
              Nat.testBit_lt_two_pow (Nat.lt_of_lt_of_le hsub
                (Nat.pow_le_pow_right (by decide) (by omega)))
            rw [hf]
            by_cases hjm : m = j
            · subst hjm; simp
            · have : j - m ≠ 0 := by omega
              rw [Nat.testBit_lt_two_pow (Nat.one_lt_two_pow this)]
              simp [hjm]
        have hle : 2 ^ m < 2 ^ n := Nat.pow_lt_pow_right (by decide) (by omega)
        rw [e]
        exact hxor _ _ (by omega) hle (ih (by omega) _ hsub) (hbit m (by omega))
  exact key n (Nat.le_refl n)

theorem xor_span_8 (P : Nat → Prop) (h0 : P 0) (hbit : ∀ i, i < 8 → P (2 ^ i))
    (hxor : ∀ a b, a < 256 → b < 256 → P a → P b → P (a ^^^ b)) : ∀ a, a < 256 → P a :=
  xor_span_induction 8 P h0 hbit hxor

theorem ref_mult_comm_bits : ∀ i, i < 8 → ∀ j, j < 8 →
    ref_mult 8 285 (2 ^ i) (2 ^ j) = ref_mult 8 285 (2 ^ j) (2 ^ i) := by decide!

theorem ref_mult_assoc_bits : ∀ i, i < 8 → ∀ j, j < 8 → ∀ l, l < 8 →
    ref_mult 8 285 (ref_mult 8 285 (2 ^ i) (2 ^ j)) (2 ^ l)
      = ref_mult 8 285 (2 ^ i) (ref_mult 8 285 (2 ^ j) (2 ^ l)) := by decide!

theorem ref_mult_one_left : ∀ x, x < 256 → ref_mult 8 285 1 x = x := by decide!

theorem ref_inv_spec : ∀ y, y < 256 →
    ref_inv 8 285 y < 256 ∧ (y ≠ 0 → ref_mult 8 285 (ref_inv 8 285 y) y = 1) := by decide!

theorem two_pow_lt_256 {i : Nat} (hi : i < 8) : 2 ^ i < 256 :=
  Nat.pow_lt_pow_right (by decide) hi

theorem ref_mult_comm_8 (x : Nat) (hx : x < 256) :
    ∀ y, y < 256 → ref_mult 8 285 x y = ref_mult 8 285 y x := by
  refine xor_span_8 (fun x => ∀ y, y < 256 → ref_mult 8 285 x y = ref_mult 8 285 y x)
    ?_ ?_ ?_ x hx
  · intro y _
    rw [ref_mult_zero_left, ref_mult_zero_right]
  · intro i hi
    refine xor_span_8 (fun y => ref_mult 8 285 (2 ^ i) y = ref_mult 8 285 y (2 ^ i)) ?_ ?_ ?_
    · show ref_mult 8 285 (2 ^ i) 0 = ref_mult 8 285 0 (2 ^ i)
      rw [ref_mult_zero_left, ref_mult_zero_right]
    · intro j hj
      exact ref_mult_comm_bits i hi j hj
    · intro a b ha hb pa pb
      show ref_mult 8 285 (2 ^ i) (a ^^^ b) = ref_mult 8 285 (a ^^^ b) (2 ^ i)
      rw [ref_mult_xor_right, ref_mult_xor_left _ _ _ ha hb, pa, pb]
  · intro a b ha hb pa pb y hy
    rw [ref_mult_xor_left _ _ _ ha hb, ref_mult_xor_right, pa y hy, pb y hy]

theorem ref_mult_assoc_8 (x : Nat) (hx : x < 256) : ∀ y, y < 256 → ∀ z, z < 256 →
    ref_mult 8 285 (ref_mult 8 285 x y) z = ref_mult 8 285 x (ref_mult 8 285 y z) := by
  refine xor_span_8 (fun x => ∀ y, y < 256 → ∀ z, z < 256 →
    ref_mult 8 285 (ref_mult 8 285 x y) z = ref_mult 8 285 x (ref_mult 8 285 y z)) ?_ ?_ ?_ x hx
  · intro y _ z _
    rw [ref_mult_zero_left, ref_mult_zero_left, ref_mult_zero_left]
  · intro i hi
    have hxi := two_pow_lt_256 hi
    refine xor_span_8 (fun y => ∀ z, z < 256 →
      ref_mult 8 285 (ref_mult 8 285 (2 ^ i) y) z
        = ref_mult 8 285 (2 ^ i) (ref_mult 8 285 y z)) ?_ ?_ ?_
    · intro z _
      rw [ref_mult_zero_right, ref_mult_zero_left, ref_mult_zero_right]
    · intro j hj
      refine xor_span_8 (fun z => ref_mult 8 285 (ref_mult 8 285 (2 ^ i) (2 ^ j)) z
        = ref_mult 8 285 (2 ^ i) (ref_mult 8 285 (2 ^ j) z)) ?_ ?_ ?_
      · show ref_mult 8 285 (ref_mult 8 285 (2 ^ i) (2 ^ j)) 0
          = ref_mult 8 285 (2 ^ i) (ref_mult 8 285 (2 ^ j) 0)
        rw [ref_mult_zero_right, ref_mult_zero_right, ref_mult_zero_right]
      · intro l hl
        exact ref_mult_assoc_bits i hi j hj l hl
      · intro a b _ _ pa pb
        show ref_mult 8 285 (ref_mult 8 285 (2 ^ i) (2 ^ j)) (a ^^^ b)
          = ref_mult 8 285 (2 ^ i) (ref_mult 8 285 (2 ^ j) (a ^^^ b))
        rw [ref_mult_xor_right, ref_mult_xor_right, ref_mult_xor_right, pa, pb]
    · intro a b ha hb pa pb z hz
      rw [ref_mult_xor_right, ref_mult_xor_left _ _ _ (ref_mult_lt_8 _ _ hxi)
        (ref_mult_lt_8 _ _ hxi), ref_mult_xor_left _ _ _ ha hb, ref_mult_xor_right,
        pa z hz, pb z hz]
  · intro a b ha hb pa pb y hy z hz
    rw [ref_mult_xor_left _ _ _ ha hb, ref_mult_xor_left _ _ _ (ref_mult_lt_8 _ _ ha)
      (ref_mult_lt_8 _ _ hb), ref_mult_xor_left _ _ _ ha hb, pa y hy z hz, pb y hy z hz]

/-- The reference instance for width 8 implements GF(2^8). -/
theorem isGF_ref_8 : IsGF 8 (ref_gf 8) where
  w_pos := by decide
  ops := hasOps_ref 8
  mul_lt := fun x hx y _ => ref_mult_lt_8 x y hx
  mul_comm := fun x hx y hy => ref_mult_comm_8 x hx y hy
  mul_assoc := fun x hx y hy z hz => ref_mult_assoc_8 x hx y hy z hz
  mul_xor := fun x _ y _ z _ => ref_mult_xor_right x y z
  one_mul := ref_mult_one_left
  div_spec := by
    intro x hx y hy hy0
    obtain ⟨i1, i2⟩ := ref_inv_spec y hy
    refine ⟨ref_mult_lt_8 x _ hx, ?_⟩
    show ref_mult 8 285 (ref_mult 8 285 x (ref_inv 8 285 y)) y = x
    rw [ref_mult_assoc_8 x hx _ i1 y hy, i2 hy0, ref_mult_comm_8 x hx 1 (by decide)]
    exact ref_mult_one_left x hx

theorem regionApply_ref (w : Nat) (h : Heap) (src dest val n add : Nat) :
    regionApply (ref_gf w) h src dest val n add = ref_region w (ref_poly w) h src dest val n add :=
  rfl

theorem regionFrame_ref (w : Nat) : RegionFrame (ref_gf w) := by
  intro h region n a ha
  rw [regionApply_ref]
  unfold ref_region
  rw [if_neg ha]

theorem regionXor_ref (w : Nat) : RegionXor (ref_gf w) := by
  intro h src dest n _
  rw [regionApply_ref]
  funext a
  unfold ref_region xorInto
  by_cases hin : dest ≤ a ∧ a < dest + n
  · rw [if_pos hin, if_pos hin, if_neg (by decide), if_pos rfl, if_neg (by decide)]
  · rw [if_neg hin, if_neg hin]

theorem ref_gf_mul_8 (x y : Nat) : (ref_gf 8).mul x y = ref_mult 8 285 x y := by
  show ref_mult 8 (ref_poly 8) x y = ref_mult 8 285 x y
  rw [show ref_poly 8 = 285 from rfl]

theorem regionDoubles_ref_8 : RegionDoubles 8 (ref_gf 8) (ref_gf 8) := by
  intro h region n _ hb
  have hbyte : ∀ a, region ≤ a → a < region + n →
      regionApply (ref_gf 8) h region region 2 n 0 a = gmul (ref_gf 8) (h a) 2 := by
    intro a h1 h2
    rw [regionApply_ref]
    unfold ref_region
    rw [if_pos ⟨h1, h2⟩, if_neg (by decide), if_neg (by decide)]
    simp only [if_pos]
    have e1 : region + (a - region) / (8 / 8) * (8 / 8) = a := by
      rw [show 8 / 8 = 1 by decide, Nat.div_one, Nat.mul_one]
      omega
    have e2 : ref_poly 8 = 285 := rfl
    rw [e1, e2]
    have hr : read_word h a (8 / 8) = h a := by
      show h a + 256 * 0 = h a
      omega
    have hlt := ref_mult_lt_8 (h a) 2 (hb a h1 h2)
    rw [hr]
    unfold word_byte gmul
    rw [show (a - region) % (8 / 8) = 0 by rw [show 8 / 8 = 1 by decide]; exact Nat.mod_one _,
      pow_zero, Nat.div_one, Nat.mod_eq_of_lt hlt]
    by_cases hz : h a = 0
    · rw [if_pos (Or.inl hz), hz, ref_mult_zero_left]
    · rw [if_neg (by rintro (h' | h'); exact hz h'; exact absurd h' (by decide)),
        ref_gf_mul_8]
  constructor
  · intro a h1 h2
    rw [hbyte a h1 h2]
    exact gmul_lt isGF_ref_8 (hb a h1 h2) (by decide)
  · intro p hp
    have e8 : 8 / 8 = 1 := by decide
    rw [e8, Nat.div_one] at hp
    rw [e8, Nat.mul_one]
    show regionApply (ref_gf 8) h region region 2 n 0 (region + p) + 256 * 0
      = gmul (ref_gf 8) (h (region + p) + 256 * 0) 2
    rw [Nat.mul_zero, Nat.add_zero, Nat.add_zero]
    exact hbyte _ (by omega) (by omega)

theorem ready_init_32 : Ready ref_lib 32 (ref_gf 32) World.init :=
  ⟨by decide, by decide, Or.inr ⟨rfl, rfl⟩⟩

theorem encReady_init_8 (size : Nat) :
    EncReady ref_lib 8 (ref_gf 8) (ref_gf 32) (ref_gf 8) size World.init :=
  ⟨ready_init_8, hasOps_ref 8, Or.inr ⟨rfl, rfl⟩, rfl, fun _ => ⟨ready_init_32, rfl⟩⟩

theorem encReady_heap_init (size : Nat) (h : Heap) :
    EncReady ref_lib 8 (ref_gf 8) (ref_gf 32) (ref_gf 8) size { World.init with heap := h } :=
  ⟨⟨by decide, by decide, Or.inr ⟨rfl, rfl⟩⟩, hasOps_ref 8, Or.inr ⟨rfl, rfl⟩, rfl,
    fun _ => ⟨⟨by decide, by decide, Or.inr ⟨rfl, rfl⟩⟩, rfl⟩⟩

/-- C8: for `w ∈ {8,16,32}`, `k ≥ 1` and a fragment size that is a multiple of
`w/8` bytes, with a backend implementing GF(2^w) whose doubling region
function multiplies every word by 2 in that field, `reed_sol_r6_encode(k, w,
data, coding, size)` returns 1 and every word `p` of parity fragment 1 is the
`^` over `i = 0 .. k-1` of `galois_single_multiply(data[i][p], 2^i, w)`, with
`2^i` computed by scalar multiplication; `gmul gf` is what
`galois_single_multiply(_, _, w)` returns in the final state. -/
theorem C8_r6_parity1_horner {L : gf_complete} {w : Nat} {gf gf32 g : gf_t} (k size : Nat)
    (data_ptrs coding_ptrs : Nat → Nat) (W : World) (hw : w = 8 ∨ w = 16 ∨ w = 32)
    (hk : 1 ≤ k) (hgf : IsGF w gf) (hW : EncReady L w gf gf32 g size W)
    (hdiv : (w / 8) ∣ size)
    (hd0 : ∀ i, i < k → Disj (data_ptrs i) (coding_ptrs 0) size)
    (hd1 : ∀ i, i < k → Disj (data_ptrs i) (coding_ptrs 1) size)
    (hx : 16 ≤ size → RegionXor gf32) (hf : RegionFrame g) (hdbl : RegionDoubles w gf g)
    (hb : ∀ i, i < k → ∀ b, b < size → W.heap (data_ptrs i + b) < 256) :
    ∃ W', reed_sol_r6_encode L k w data_ptrs coding_ptrs size W = Outcome.ret (1, W') ∧
      (∀ p, p < size / (w / 8) →
        read_word W'.heap (coding_ptrs 1 + p * (w / 8)) (w / 8)
          = xor_range k (fun i =>
              gmul gf (read_word W.heap (data_ptrs i + p * (w / 8)) (w / 8)) (gpow gf 2 i))) ∧
      ∀ x y, ∃ W2, galois_single_multiply L x y w W' = Outcome.ret (gmul gf x y, W2) := by
  obtain ⟨W', e, hI, hh⟩ := r6_encode_runs hw k data_ptrs coding_ptrs W hW
  refine ⟨W', e, ?_, ?_⟩
  · intro p hp
    rw [hh]
    exact encHeap_parity1 W.heap hgf hw hk hd0 hd1 hx hf hdbl hdiv hb p hp
  · intro x y
    obtain ⟨W2, e2, _⟩ := mul_run hI.1 hI.2.1 x y
    exact ⟨W2, e2⟩

theorem C8_r6_parity1_horner_witness :
    ∃ W', reed_sol_r6_encode ref_lib 3 8 (fun i => 10 * i) (fun i => 100 + 10 * i) 2
        { World.init with heap := fun a => a % 256 } = Outcome.ret (1, W') ∧
      (∀ p, p < 2 / (8 / 8) →
        read_word W'.heap ((fun i => 100 + 10 * i) 1 + p * (8 / 8)) (8 / 8)
          = xor_range 3 (fun i =>
              gmul (ref_gf 8)
                (read_word ({ World.init with heap := fun a => a % 256 } : World).heap
                  ((fun i => 10 * i) i + p * (8 / 8)) (8 / 8))
                (gpow (ref_gf 8) 2 i))) ∧
      ∀ x y, ∃ W2, galois_single_multiply ref_lib x y 8 W'
        = Outcome.ret (gmul (ref_gf 8) x y, W2) :=
  C8_r6_parity1_horner 3 2 (fun i => 10 * i) (fun i => 100 + 10 * i)
    { World.init with heap := fun a => a % 256 } (Or.inl rfl) (by decide) isGF_ref_8
    (encReady_heap_init 2 _) (by decide)
    (fun i hi => by simp only [Disj]; omega) (fun i hi => by simp only [Disj]; omega)
    (fun _ => regionXor_ref 32) (regionFrame_ref 8) regionDoubles_ref_8
    (fun _ _ _ _ => Nat.mod_lt _ (by decide))

/-- C9: for `w ∈ {8,16,32}`, `k ≥ 1` and any `size`, with fragments that do not
overlap the parity fragments and a backend that serves the encoder,
`reed_sol_r6_encode(k, w, data, coding, size)` returns 1, every byte `b < size`
of parity fragment 0 is `data[0][b] ^ data[1][b] ^ ... ^ data[k-1][b]`, and the
`k` data fragments are unchanged. -/
theorem C9_r6_parity0_xor {L : gf_complete} {w : Nat} {gf gf32 g : gf_t} (k size : Nat)
    (data_ptrs coding_ptrs : Nat → Nat) (W : World) (hw : w = 8 ∨ w = 16 ∨ w = 32)
    (hk : 1 ≤ k) (hW : EncReady L w gf gf32 g size W)
    (hd0 : ∀ i, i < k → Disj (data_ptrs i) (coding_ptrs 0) size)
    (hd1 : ∀ i, i < k → Disj (data_ptrs i) (coding_ptrs 1) size)
    (hcc : Disj (coding_ptrs 0) (coding_ptrs 1) size)
    (hx : 16 ≤ size → RegionXor gf32) (hf : RegionFrame g) :
    ∃ W', reed_sol_r6_encode L k w data_ptrs coding_ptrs size W = Outcome.ret (1, W') ∧
      (∀ b, b < size →
        W'.heap (coding_ptrs 0 + b) = xor_range k (fun i => W.heap (data_ptrs i + b))) ∧
      ∀ i, i < k → ∀ b, b < size → W'.heap (data_ptrs i + b) = W.heap (data_ptrs i + b) := by
  obtain ⟨W', e, _, hh⟩ := r6_encode_runs hw k data_ptrs coding_ptrs W hW
  obtain ⟨h1, h2⟩ := @encHeap_parity0 gf32 g k size data_ptrs coding_ptrs W.heap hk hd0 hd1 hcc hx hf
  refine ⟨W', e, ?_, ?_⟩
  · intro b hb
    rw [hh]
    exact h1 b hb
  · intro i hi b hb
    rw [hh]
    exact h2 i hi b hb

theorem C9_r6_parity0_xor_witness :
    ∃ W', reed_sol_r6_encode ref_lib 3 8 (fun i => 20 * i) (fun i => 100 + 20 * i) 17
        { World.init with heap := fun a => a % 256 } = Outcome.ret (1, W') ∧
      (∀ b, b < 17 →
        W'.heap ((fun i => 100 + 20 * i) 0 + b)
          = xor_range 3 (fun i =>
              ({ World.init with heap := fun a => a % 256 } : World).heap
                ((fun i => 20 * i) i + b))) ∧
      ∀ i, i < 3 → ∀ b, b < 17 → W'.heap ((fun i => 20 * i) i + b)
        = ({ World.init with heap := fun a => a % 256 } : World).heap ((fun i => 20 * i) i + b) :=
  C9_r6_parity0_xor 3 17 (fun i => 20 * i) (fun i => 100 + 20 * i)
    { World.init with heap := fun a => a % 256 } (Or.inl rfl) (by decide)
    (encReady_heap_init 17 _)
    (fun i hi => by simp only [Disj]; omega) (fun i hi => by simp only [Disj]; omega)
    (by simp only [Disj]; omega) (fun _ => regionXor_ref 32) (regionFrame_ref 8)

/-- C10: `reed_sol_r6_encode` returns the failure indicator 0 only if `w` is
not one of 8, 16, 32; and for `w ∈ {8,16,32}`, every `k ≥ 1` and every `size`,
with a backend that serves the encoder, it returns the success indicator 1. -/
theorem C10_r6_encode_fails_only_unsupported (L : gf_complete) (k w : Nat)
    (data_ptrs coding_ptrs : Nat → Nat) (size : Nat) :
    (∀ W r W', reed_sol_r6_encode L k w data_ptrs coding_ptrs size W = Outcome.ret (r, W') →
      r = 0 → ¬ (w = 8 ∨ w = 16 ∨ w = 32)) ∧
    ∀ (gf gf32 g : gf_t) (W : World), (w = 8 ∨ w = 16 ∨ w = 32) → 1 ≤ k →
      EncReady L w gf gf32 g size W →
      ∃ W', reed_sol_r6_encode L k w data_ptrs coding_ptrs size W = Outcome.ret (1, W') := by
  constructor
  · intro W r W' e hr hw
    have h1 : r = 1 := r6_encode_post L hw k data_ptrs coding_ptrs size W r W' e
    omega
  · intro gf gf32 g W hw _ hW
    obtain ⟨W', e, _, _⟩ := r6_encode_runs hw k data_ptrs coding_ptrs W hW
    exact ⟨W', e⟩

theorem C10_r6_encode_fails_only_unsupported_witness :
    ∃ W', reed_sol_r6_encode ref_lib 4 8 (fun i => 30 * i) (fun i => 200 + 30 * i) 24
      World.init = Outcome.ret (1, W') :=
  (C10_r6_encode_fails_only_unsupported ref_lib 4 8 (fun i => 30 * i) (fun i => 200 + 30 * i)
    24).2 (ref_gf 8) (ref_gf 32) (ref_gf 8) World.init (Or.inl rfl) (by decide)
    (encReady_init_8 24)

/-- C11: `galois_single_multiply(x, 0, w)`, `galois_single_multiply(0, y, w)`
and `galois_single_divide(0, y, w)` return 0 at once, for every width and
whatever the backend is: the state, and so the registry, is left as it was
and no field instance is set up. -/
theorem C11_zero_operand_shortcut (L : gf_complete) (x y w : Nat) (W : World) :
    galois_single_multiply L x 0 w W = Outcome.ret (0, W) ∧
    galois_single_multiply L 0 y w W = Outcome.ret (0, W) ∧
    galois_single_divide L 0 y w W = Outcome.ret (0, W) := by
  refine ⟨?_, ?_, ?_⟩
  · unfold galois_single_multiply
    rw [if_pos (Or.inr rfl)]
  · unfold galois_single_multiply
    rw [if_pos (Or.inl rfl)]
  · unfold galois_single_divide
    rw [if_pos rfl]

/-- C12 (counterexample): `galois_single_divide(0, 0, 8)` does not return the
sentinel `-1`: the test `x == 0` comes first and returns 0. -/
theorem C12_divide_zero_by_zero_counterexample :
    ¬ ∃ W', galois_single_divide ref_lib 0 0 8 World.init = Outcome.ret (neg1, W') := by
  rintro ⟨W', h⟩
  have e : galois_single_divide ref_lib 0 0 8 World.init = Outcome.ret (0, World.init) := by
    unfold galois_single_divide
    rw [if_pos rfl]
  rw [e] at h
  injection h with h
  injection h with h1 _
  exact absurd h1 (by decide)

/-- C12 (amended): for every width and every nonzero `x`,
`galois_single_divide(x, 0, w)` returns the sentinel `-1` and leaves the state
as it was; `galois_single_divide(0, 0, w)` returns 0. -/
theorem C12_divide_by_zero_sentinel (L : gf_complete) (x w : Nat) (W : World) (hx : x ≠ 0) :
    galois_single_divide L x 0 w W = Outcome.ret (neg1, W) ∧
    galois_single_divide L 0 0 w W = Outcome.ret (0, W) := by
  constructor
  · unfold galois_single_divide
    rw [if_neg hx, if_pos rfl]
  · unfold galois_single_divide
    rw [if_pos rfl]

theorem C12_divide_by_zero_sentinel_witness :
    galois_single_divide ref_lib 3 0 8 World.init = Outcome.ret (neg1, World.init) ∧
    galois_single_divide ref_lib 0 0 8 World.init = Outcome.ret (0, World.init) :=
  C12_divide_by_zero_sentinel ref_lib 3 8 World.init (by decide)

/-- C13: for a width served by a backend implementing GF(2^w) and a nonzero
`y < 2^w`, `galois_inverse(y, w)` returns what `galois_single_divide(1, y, w)`
returns, `galois_single_multiply(y, galois_single_divide(1, y, w), w)` returns
1, and `galois_inverse(0, w)` returns `-1`. -/
theorem C13_inverse_round_trip (L : gf_complete) (w : Nat) (gf : gf_t) (y : Nat) (W : World)
    (hready : Ready L w gf W) (hgf : IsGF w gf) (hy0 : y ≠ 0) (hy : y < 2 ^ w) :
    ∃ d W1 W2, galois_single_divide L 1 y w W = Outcome.ret (d, W1) ∧
      galois_inverse L y w W = Outcome.ret (d, W1) ∧
      galois_single_multiply L y d w W1 = Outcome.ret (1, W2) ∧
      galois_inverse L 0 w W = Outcome.ret (neg1, W) := by
  obtain ⟨d, W1, e1, hI, hd⟩ := yields_div hgf.ops 1 y W hready
  obtain ⟨v, W2, e2, _, hv⟩ := yields_mul hgf.ops y d W1 hI
  obtain ⟨s1, _, s3⟩ := gdiv_one_spec hgf hy hy0
  refine ⟨d, W1, W2, e1, ?_, ?_, ?_⟩
  · unfold galois_inverse
    rw [if_neg hy0]
    exact e1
  · rw [e2, hv, hd, gmul_comm hgf hy s1, s3]
  · unfold galois_inverse
    rw [if_pos rfl]
    rfl

theorem C13_inverse_round_trip_witness :
    ∃ d W1 W2, galois_single_divide ref_lib 1 3 8 World.init = Outcome.ret (d, W1) ∧
      galois_inverse ref_lib 3 8 World.init = Outcome.ret (d, W1) ∧
      galois_single_multiply ref_lib 3 d 8 W1 = Outcome.ret (1, W2) ∧
      galois_inverse ref_lib 0 8 World.init = Outcome.ret (neg1, World.init) :=
  C13_inverse_round_trip ref_lib 8 (ref_gf 8) 3 World.init ready_init_8 isGF_ref_8
    (by decide) (by decide)

/-- With slot `w > 32` of the registry empty and nonzero operands,
`galois_single_multiply(x, y, w)` ends in the assertion of `galois_init`. -/
theorem multiply_wide_empty_fatal (L : gf_complete) (x y w : Nat) (W : World) (hw : 32 < w)
    (hx : x ≠ 0) (hy : y ≠ 0) (hn : W.gfp_array w = none) :
    galois_single_multiply L x y w W = Outcome.fatal := by
  unfold galois_single_multiply
  rw [if_neg (by rintro (h | h); exact hx h; exact hy h)]
  simp only [hn]
  unfold galois_init
  rw [if_pos (Or.inr hw)]

/-- With slot `w > 32` of the registry occupied and nonzero operands,
`galois_single_multiply(x, y, w)` reports "not implemented" and returns 0. -/
theorem multiply_wide_registered (L : gf_complete) (x y w : Nat) (W : World) (g : gf_t)
    (hw : 32 < w) (hx : x ≠ 0) (hy : y ≠ 0) (hs : W.gfp_array w = some g) :
    galois_single_multiply L x y w W
      = Outcome.ret (0, { W with stderr := W.stderr ++ [Report.not_implemented w] }) := by
  unfold galois_single_multiply
  rw [if_neg (by rintro (h | h); exact hx h; exact hy h)]
  simp only [hs]
  rw [if_neg (by omega)]

/-- C14 (the code at the failing input): in a fresh process
`galois_single_multiply(3, 5, 40)` does not return: `galois_init(40)` runs
first and ends in its assertion on the width. -/
theorem C14_multiply_width_40_fatal :
    galois_single_multiply ref_lib 3 5 40 World.init = Outcome.fatal :=
  multiply_wide_empty_fatal ref_lib 3 5 40 World.init (by decide) (by decide) (by decide) rfl

/-- With the registry serving width 32 by `gf32` (needed for 16 bytes or
more), `galois_region_xor` returns and acts on memory as `xorStep`. -/
theorem region_xor_heap {L : gf_complete} {gf32 : gf_t} (src dest n : Nat) (W : World)
    (hb : 16 ≤ n → Ready L 32 gf32 W ∧ gf32.multiply_region.isSome = true) :
    ∃ W', galois_region_xor L src dest n W = Outcome.ret ((), W') ∧
      W'.heap = xorStep gf32 n W.heap src dest := by
  unfold galois_region_xor xorStep
  by_cases hs : n ≥ 16
  · rw [if_pos hs]
    simp only [if_pos hs]
    obtain ⟨hr, hreg⟩ := hb hs
    obtain ⟨f, hf⟩ := Option.isSome_iff_exists.mp hreg
    unfold galois_w32_region_xor regionApply
    cases h32 : W.gfp_array 32 with
    | none =>
      refine ⟨{ W.setField 32 (some gf32) with
          heap := f (some gf32.scratch) W.heap src dest 1 n 1 }, ?_, ?_⟩
      · simp only [galois_init_ready hr h32]
        simp only [World.setField, Function.update_same, hf]
      · simp only [hf]
    | some g' =>
      have hg : g' = gf32 := by
        rcases hr.2.2 with h | ⟨h, _⟩
        · rw [h32] at h; exact Option.some.inj h
        · rw [h32] at h; cases h
      subst hg
      refine ⟨{ W with heap := f (some g'.scratch) W.heap src dest 1 n 1 }, ?_, ?_⟩
      · simp only [h32, hf]
      · simp only [hf]
  · rw [if_neg hs]
    simp only [if_neg hs]
    exact ⟨{ W with heap := xor_byte_loop n W.heap dest src }, rfl, rfl⟩

/-- C15: for every `n` and non-overlapping regions `src`, `dest` of `n` bytes,
`galois_region_xor(src, dest, n)` returns and leaves memory as the byte-wise
`xorInto`: `dest[b]` is the old `dest[b] ^ src[b]` for `b < n`, `src` and all
other memory are unchanged.  This holds on the byte loop (`n < 16`) and, with
the registry serving width 32 by an instance whose region function with
`val = 1`, `add = 1` combines by `^`, on the region path (`n ≥ 16`); so both
paths compute the same function of `n`, at `n = 15` and `n = 16` too. -/
theorem C15_region_xor_bytewise (L : gf_complete) (gf32 : gf_t) (src dest n : Nat) (W : World)
    (hd : Disj src dest n)
    (hb : 16 ≤ n → Ready L 32 gf32 W ∧ gf32.multiply_region.isSome = true ∧ RegionXor gf32) :
    ∃ W', galois_region_xor L src dest n W = Outcome.ret ((), W') ∧
      W'.heap = xorInto W.heap src dest n ∧
      (∀ b, b < n → W'.heap (dest + b) = W.heap (dest + b) ^^^ W.heap (src + b)) ∧
      (∀ b, b < n → W'.heap (src + b) = W.heap (src + b)) ∧
      ∀ a, ¬ (dest ≤ a ∧ a < dest + n) → W'.heap a = W.heap a := by
  obtain ⟨W', e, hh⟩ := @region_xor_heap L gf32 src dest n W
    (fun h => ⟨(hb h).1, (hb h).2.1⟩)
  rw [xorStep_eq _ hd (fun h => (hb h).2.2)] at hh
  refine ⟨W', e, hh, ?_, ?_, ?_⟩
  · intro b hbn
    rw [hh]
    simp only [xorInto]
    rw [if_pos (by omega), Nat.add_sub_cancel_left]
  · intro b hbn
    rw [hh]
    simp only [xorInto]
    unfold Disj at hd
    rw [if_neg (by omega)]
  · intro a ha
    rw [hh]
    simp only [xorInto]
    rw [if_neg ha]

theorem C15_region_xor_bytewise_witness :
    (∃ W', galois_region_xor ref_lib 0 100 15 { World.init with heap := fun a => a % 256 }
        = Outcome.ret ((), W') ∧
      W'.heap = xorInto ({ World.init with heap := fun a => a % 256 } : World).heap 0 100 15 ∧
      (∀ b, b < 15 → W'.heap (100 + b)
        = ({ World.init with heap := fun a => a % 256 } : World).heap (100 + b)
          ^^^ ({ World.init with heap := fun a => a % 256 } : World).heap (0 + b)) ∧
      (∀ b, b < 15 → W'.heap (0 + b)
        = ({ World.init with heap := fun a => a % 256 } : World).heap (0 + b)) ∧
      ∀ a, ¬ (100 ≤ a ∧ a < 100 + 15) → W'.heap a
        = ({ World.init with heap := fun a => a % 256 } : World).heap a) ∧
    ∃ W', galois_region_xor ref_lib 0 100 16 { World.init with heap := fun a => a % 256 }
        = Outcome.ret ((), W') ∧
      W'.heap = xorInto ({ World.init with heap := fun a => a % 256 } : World).heap 0 100 16 :=
  ⟨C15_region_xor_bytewise ref_lib (ref_gf 32) 0 100 15
      { World.init with heap := fun a => a % 256 } (by simp only [Disj]; omega)
      (fun h => absurd h (by decide)),
    (C15_region_xor_bytewise ref_lib (ref_gf 32) 0 100 16
      { World.init with heap := fun a => a % 256 } (by simp only [Disj]; omega)
      (fun _ => ⟨⟨by decide, by decide, Or.inr ⟨rfl, rfl⟩⟩, rfl, regionXor_ref 32⟩)).imp
      fun _ h => ⟨h.1, h.2.1⟩⟩

theorem is_valid_gf_iff (gf : Option gf_t) (w : Nat) :
    is_valid_gf gf w ≠ 0 ↔ ∃ g, gf = some g ∧ Capable g := by
  unfold is_valid_gf Capable
  cases gf with
  | none => simp
  | some g =>
    rcases g with ⟨s, m, d, i, r, e⟩
    cases m <;> cases d <;> cases i <;> cases r <;> cases e <;> simp

/-- C16: `galois_change_technique(gf, w)` returns exactly when `1 ≤ w ≤ 32` and
`gf` is non-null with all five capabilities, and is fatal otherwise (no state
is left).  When it returns, the instance registered before for `w`, if any,
has been passed to `gf_free` with the composite flag of `w` (and no other
release call is made), `galois_get_field_ptr(w)` returns `gf`, and the
registry entries of all other widths are as before. -/
theorem C16_change_technique (gf : Option gf_t) (w : Nat) (W : World) :
    ((∃ r W', galois_change_technique gf w W = Outcome.ret (r, W')) ↔
      (1 ≤ w ∧ w ≤ 32 ∧ ∃ g, gf = some g ∧ Capable g)) ∧
    (¬ (1 ≤ w ∧ w ≤ 32 ∧ ∃ g, gf = some g ∧ Capable g) →
      galois_change_technique gf w W = Outcome.fatal) ∧
    ∀ r W', galois_change_technique gf w W = Outcome.ret (r, W') →
      (∀ old, W.gfp_array w = some old →
        r = [Release.gf_free old (W.gfp_is_composite w)]) ∧
      (W.gfp_array w = none → r = []) ∧
      galois_get_field_ptr w W' = Outcome.ret (gf, W') ∧
      ∀ v, v ≠ w → W'.gfp_array v = W.gfp_array v := by
  have hv := is_valid_gf_iff gf w
  by_cases hok : 1 ≤ w ∧ w ≤ 32 ∧ ∃ g, gf = some g ∧ Capable g
  · obtain ⟨h1, h2, g, rfl, hg⟩ := hok
    have hval : ¬ is_valid_gf (some g) w = 0 := hv.mpr ⟨g, rfl, hg⟩
    have e : ∃ r0, galois_change_technique (some g) w W
          = Outcome.ret (r0, W.setField w (some g)) ∧
        (∀ old, W.gfp_array w = some old →
          r0 = [Release.gf_free old (W.gfp_is_composite w)]) ∧
        (W.gfp_array w = none → r0 = []) := by
      unfold galois_change_technique
      rw [if_neg (by omega), if_neg hval]
      cases W.gfp_array w with
      | none => exact ⟨[], rfl, fun _ h => (by cases h), fun _ => rfl⟩
      | some old =>
        exact ⟨[Release.gf_free old (W.gfp_is_composite w)], rfl,
          fun o h => (by cases h; rfl), fun h => (by cases h)⟩
    obtain ⟨r0, e0, e1, e2⟩ := e
    refine ⟨⟨fun _ => ⟨h1, h2, g, rfl, hg⟩, fun _ => ⟨_, _, e0⟩⟩, ?_, ?_⟩
    · intro hn
      exact absurd ⟨h1, h2, g, rfl, hg⟩ hn
    · intro r W' h
      rw [e0] at h
      injection h with h
      injection h with hr hW
      subst hr hW
      refine ⟨e1, e2, ?_, ?_⟩
      · unfold galois_get_field_ptr
        simp [World.setField]
      · intro v hvw
        simp [World.setField, Function.update_noteq hvw]
  · have e : galois_change_technique gf w W = Outcome.fatal := by
      unfold galois_change_technique
      by_cases hw : w ≤ 0 ∨ w > 32
      · rw [if_pos hw]
      · rw [if_neg hw, if_pos]
        by_contra hne
        exact hok ⟨by omega, by omega, hv.mp hne⟩
    refine ⟨⟨?_, fun h => absurd h hok⟩, fun _ => e, ?_⟩
    · rintro ⟨r, W', h⟩
      rw [e] at h
      cases h
    · intro r W' h
      rw [e] at h
      cases h

theorem C16_change_technique_witness :
    galois_change_technique none 8 World.init = Outcome.fatal ∧
    galois_change_technique (some (ref_gf 8)) 40 World.init = Outcome.fatal ∧
    galois_change_technique (some gf_blank) 8 World.init = Outcome.fatal ∧
    ∃ r W', galois_change_technique (some (ref_gf 8)) 8 World.init = Outcome.ret (r, W') :=
  ⟨(C16_change_technique none 8 World.init).2.1 (by rintro ⟨_, _, g, h, _⟩; cases h),
    (C16_change_technique (some (ref_gf 8)) 40 World.init).2.1
      (by rintro ⟨_, h, _⟩; exact absurd h (by decide)),
    (C16_change_technique (some gf_blank) 8 World.init).2.1 (by
      rintro ⟨_, _, g, h, hc⟩
      cases h
      exact absurd hc.1 (by decide)),
    (C16_change_technique (some (ref_gf 8)) 8 World.init).1.mpr
      ⟨by decide, by decide, ref_gf 8, rfl, rfl, rfl, rfl, rfl, rfl⟩⟩

/-- When slot `w` is empty or holds a pointer obtained from `malloc`,
`galois_uninit_field(w)` returns and leaves slot `w` of the registry empty, so
`galois_get_field_ptr(w)` returns null; a second call right after returns 0,
makes no release call and leaves the whole state (every registry entry) as it
was, and `galois_get_field_ptr(w)` returns null again. -/
theorem uninit_field_twice (gf_free : gf_t → Nat → Nat) (storage storage2 : Storage) (w : Nat)
    (W : World) (hs : W.gfp_array w = none ∨ storage = Storage.heap) :
    ∃ r W1, galois_uninit_field gf_free storage w W = Outcome.ret (r, W1) ∧
      galois_get_field_ptr w W1 = Outcome.ret (none, W1) ∧
      galois_uninit_field gf_free storage2 w W1 = Outcome.ret ((0, []), W1) ∧
      ∀ v, v ≠ w → W1.gfp_array v = W.gfp_array v := by
  have hget : ∀ W1 : World, W1.gfp_array w = none →
      galois_get_field_ptr w W1 = Outcome.ret (none, W1) ∧
      galois_uninit_field gf_free storage2 w W1 = Outcome.ret ((0, []), W1) := by
    intro W1 h1
    constructor
    · unfold galois_get_field_ptr
      simp only [h1]
    · unfold galois_uninit_field
      simp only [h1]
  cases h : W.gfp_array w with
  | none =>
    refine ⟨(0, []), W, ?_, (hget W h).1, (hget W h).2, fun _ _ => rfl⟩
    unfold galois_uninit_field
    simp only [h]
  | some g =>
    have hheap : storage = Storage.heap := by
      rcases hs with h0 | h0
      · rw [h] at h0; cases h0
      · exact h0
    subst hheap
    have h1 : (W.setField w none).gfp_array w = none := by simp [World.setField]
    refine ⟨(gf_free g 1, [Release.gf_free g 1, Release.free g]), W.setField w none, ?_,
      (hget _ h1).1, (hget _ h1).2, ?_⟩
    · unfold galois_uninit_field
      simp only [h]
    · intro v hv
      simp [World.setField, Function.update_noteq hv]

/-- When slot `w` holds a pointer into the static array `gfp_array_noalloc`,
`galois_uninit_field(w)` passes it to `free` and does not return. -/
theorem uninit_field_static (gf_free : gf_t → Nat → Nat) (w : Nat) (W : World) (g : gf_t)
    (h : W.gfp_array w = some g) :
    galois_uninit_field gf_free Storage.static_noalloc w W = Outcome.fatal := by
  unfold galois_uninit_field
  simp only [h]

/-- In a fresh process with the reference library,
`galois_single_multiply(3, 5, 8)` registers the width-8 instance. -/
theorem multiply_registers_8 :
    galois_single_multiply ref_lib 3 5 8 World.init
      = Outcome.ret ((ref_gf 8).mul 3 5, World.init.setField 8 (some (ref_gf 8))) := by
  unfold galois_single_multiply
  rw [if_neg (by decide)]
  have hn : World.init.gfp_array 8 = none := rfl
  simp only [hn, galois_init_ready ready_init_8 hn]
  simp [World.setField, gf_t.mul, ref_gf]

/-- C17 (the code at the failing input): after `galois_single_multiply(3, 5, 8)`
in a fresh process, slot 8 of the registry holds the instance that
`galois_init(8)` placed in the static array `gfp_array_noalloc`;
`galois_uninit_field(8)` passes that pointer to `free` and does not return, so
`galois_get_field_ptr(8)` is never seen to report null. -/
theorem C17_uninit_static_instance_fatal (gf_free : gf_t → Nat → Nat) :
    ∃ v W1, galois_single_multiply ref_lib 3 5 8 World.init = Outcome.ret (v, W1) ∧
      galois_get_field_ptr 8 W1 = Outcome.ret (some (ref_gf 8), W1) ∧
      galois_init_storage 8 = Storage.static_noalloc ∧
      galois_uninit_field gf_free (galois_init_storage 8) 8 W1 = Outcome.fatal := by
  have h8 : (World.init.setField 8 (some (ref_gf 8))).gfp_array 8 = some (ref_gf 8) := by
    simp [World.setField]
  refine ⟨_, _, multiply_registers_8, ?_, rfl, ?_⟩
  · unfold galois_get_field_ptr
    simp only [h8]
  · exact uninit_field_static gf_free 8 _ (ref_gf 8) h8

theorem bind_ret_inv {α β : Type} {m : GM α} {f : α → GM β} {W W' : World} {b : β}
    (h : (m >>= f) W = Outcome.ret (b, W')) :
    ∃ a W1, m W = Outcome.ret (a, W1) ∧ f a W1 = Outcome.ret (b, W') := by
  have e : GM.bind m f W = Outcome.ret (b, W') := h
  unfold GM.bind at e
  cases hm : m W with
  | fatal => rw [hm] at e; cases e
  | ret p =>
    obtain ⟨a, W1⟩ := p
    rw [hm] at e
    exact ⟨a, W1, rfl, e⟩

theorem pure_ret_inv {α : Type} {a b : α} {W W' : World}
    (h : (pure a : GM α) W = Outcome.ret (b, W')) : b = a ∧ W' = W := by
  have e : Outcome.ret (a, W) = Outcome.ret (b, W') := h
  injection e with e
  injection e with e1 e2
  exact ⟨e1.symm, e2.symm⟩

/-- Past its two size checks, `reed_sol_extended_vandermonde_matrix_setup`
never returns `NULL`. -/
theorem ext_setup_post_some (L : gf_complete) (rows cols w : Nat) (vdm : Buf)
    (h1 : ¬ (w < 30 ∧ 1 <<< w < rows)) (h2 : ¬ (w < 30 ∧ 1 <<< w < cols)) :
    Post (reed_sol_extended_vandermonde_matrix_setup L rows cols w vdm) (fun o => o ≠ none) := by
  unfold reed_sol_extended_vandermonde_matrix_setup
  rw [if_neg h1, if_neg h2]
  simp only []
  split
  · exact post_pure _ _ (by simp)
  · split
    · exact post_pure _ _ (by simp)
    · exact post_bind (post_true _) (fun _ _ => post_pure _ _ (by simp))

/-- When `reed_sol_extended_vandermonde_matrix_setup` returns `NULL`, a size
check has failed and the state is as before. -/
theorem ext_setup_none {L : gf_complete} {rows cols w : Nat} {vdm : Buf} {W W1 : World}
    (h : reed_sol_extended_vandermonde_matrix_setup L rows cols w vdm W
      = Outcome.ret (none, W1)) :
    (w < 30 ∧ (1 <<< w < rows ∨ 1 <<< w < cols)) ∧ W1 = W := by
  by_cases h1 : w < 30 ∧ 1 <<< w < rows
  · refine ⟨⟨h1.1, Or.inl h1.2⟩, ?_⟩
    unfold reed_sol_extended_vandermonde_matrix_setup at h
    rw [if_pos h1] at h
    exact (pure_ret_inv h).2
  · by_cases h2 : w < 30 ∧ 1 <<< w < cols
    · refine ⟨⟨h2.1, Or.inr h2.2⟩, ?_⟩
      unfold reed_sol_extended_vandermonde_matrix_setup at h
      rw [if_neg h1, if_pos h2] at h
      exact (pure_ret_inv h).2
    · exact absurd rfl (ext_setup_post_some L rows cols w vdm h1 h2 W none W1 h)

/-- When `reed_sol_extended_vandermonde_matrix_setup` returns a matrix, both
size checks have passed. -/
theorem ext_setup_some {L : gf_complete} {rows cols w : Nat} {vdm d : Buf} {W W1 : World}
    (h : reed_sol_extended_vandermonde_matrix_setup L rows cols w vdm W
      = Outcome.ret (some d, W1)) :
    ¬ (w < 30 ∧ (1 <<< w < rows ∨ 1 <<< w < cols)) := by
  rintro ⟨hw, hc | hc⟩
  · unfold reed_sol_extended_vandermonde_matrix_setup at h
    rw [if_pos ⟨hw, hc⟩] at h
    exact absurd (pure_ret_inv h).1 (by simp)
  · unfold reed_sol_extended_vandermonde_matrix_setup at h
    by_cases h1 : w < 30 ∧ 1 <<< w < rows
    · rw [if_pos h1] at h
      exact absurd (pure_ret_inv h).1 (by simp)
    · rw [if_neg h1, if_pos ⟨hw, hc⟩] at h
      exact absurd (pure_ret_inv h).1 (by simp)

/-- The distribution-matrix setup returns `NULL` for `cols ≥ rows`, at once. -/
theorem dist_setup_null (L : gf_complete) (rows cols w : Nat) (dist : Option Buf)
    (hrc : rows ≤ cols) :
    reed_sol_big_vandermonde_distribution_matrix_setup L rows cols w dist = pure none := by
  unfold reed_sol_big_vandermonde_distribution_matrix_setup
  rw [if_pos hrc]

/-- On a non-null array the distribution-matrix setup returns `NULL` only for
`cols ≥ rows`. -/
theorem dist_setup_none {L : gf_complete} {rows cols w : Nat} {d : Buf} {W W1 : World}
    (h : reed_sol_big_vandermonde_distribution_matrix_setup L rows cols w (some d) W
      = Outcome.ret (none, W1)) : rows ≤ cols ∧ W1 = W := by
  by_cases hrc : rows ≤ cols
  · rw [dist_setup_null L rows cols w _ hrc] at h
    exact ⟨hrc, (pure_ret_inv h).2⟩
  · exfalso
    have hp : Post (reed_sol_big_vandermonde_distribution_matrix_setup L rows cols w (some d))
        (fun o => o ≠ none) := by
      unfold reed_sol_big_vandermonde_distribution_matrix_setup
      rw [if_neg (by omega)]
      simp only []
      exact post_bind (post_true _) fun _ _ => post_bind (post_true _) fun _ _ =>
        post_bind (post_true _) fun _ _ => post_pure _ _ (by simp)
    exact hp W none W1 h rfl

/-- With multiplication served whenever an interior row is filled,
`reed_sol_extended_vandermonde_matrix_setup` returns for all `rows, cols ≥ 1`. -/
theorem ext_setup_returns {I : World → Prop} {L : gf_complete} {w : Nat} {gf : gf_t}
    (rows cols : Nat)
    (hmul : 3 ≤ rows ∧ ¬ (w < 30 ∧ (1 <<< w < rows ∨ 1 <<< w < cols)) → MulOK I L w gf)
    (vdm : Buf) (hr : 1 ≤ rows) (hc : 1 ≤ cols) :
    Yields I (reed_sol_extended_vandermonde_matrix_setup L rows cols w vdm) (fun _ => True) := by
  by_cases h1 : w < 30 ∧ 1 <<< w < rows
  · unfold reed_sol_extended_vandermonde_matrix_setup
    rw [if_pos h1]
    exact yields_pure _ _ _ trivial
  · by_cases h2 : w < 30 ∧ 1 <<< w < cols
    · unfold reed_sol_extended_vandermonde_matrix_setup
      rw [if_neg h1, if_pos h2]
      exact yields_pure _ _ _ trivial
    · refine yields_mono (extV_setup_yields rows cols (fun h3 => hmul ⟨h3, ?_⟩) vdm hr hc h1 h2)
        (fun _ _ => trivial)
      rintro ⟨hw, h | h⟩
      · exact h1 ⟨hw, h⟩
      · exact h2 ⟨hw, h⟩

/-- For `rows, cols ≥ 1` with `cols ≥ rows`,
`reed_sol_big_vandermonde_distribution_matrix(rows, cols, w)` and its
`_noalloc` variant return null whenever the construction of the extended
Vandermonde matrix returns: when no interior row exists (`rows ≤ 2`), when the
width fails the size check, or when the backend serves `w`. -/
theorem dist_matrix_null (L : gf_complete) (rows cols w : Nat) (gf : gf_t)
    (dist : Buf) (W : World)
    (hfield : ¬ (3 ≤ rows ∧ ¬ (w < 30 ∧ (1 <<< w < rows ∨ 1 <<< w < cols))) ∨
      (Ready L w gf W ∧ HasOps gf))
    (hr : 1 ≤ rows) (hrc : rows ≤ cols) :
    (∃ W1, reed_sol_big_vandermonde_distribution_matrix L rows cols w W
      = Outcome.ret (none, W1)) ∧
    ∃ W2, reed_sol_big_vandermonde_distribution_matrix_noalloc L rows cols w dist W
      = Outcome.ret (none, W2) := by
  obtain ⟨I, hI, hmul⟩ := mulOK_of_field hfield
  constructor
  · unfold reed_sol_big_vandermonde_distribution_matrix reed_sol_extended_vandermonde_matrix
    cases hm : L.malloc_int (rows * cols) with
    | none => exact ⟨W, rfl⟩
    | some vdm =>
      simp only []
      obtain ⟨o, W1, e, _, _⟩ := ext_setup_returns rows cols hmul vdm hr (by omega) W hI
      rw [run_bind e]
      cases o with
      | none => exact ⟨W1, rfl⟩
      | some d =>
        simp only [dist_setup_null L rows cols w _ hrc]
        exact ⟨W1, rfl⟩
  · unfold reed_sol_big_vandermonde_distribution_matrix_noalloc
      reed_sol_extended_vandermonde_matrix_noalloc
    obtain ⟨o, W1, e, _, _⟩ := ext_setup_returns rows cols hmul dist hr (by omega) W hI
    rw [run_bind e]
    cases o with
    | none => exact ⟨W1, rfl⟩
    | some d =>
      simp only [dist_setup_null L rows cols w _ hrc]
      exact ⟨W1, rfl⟩

/-- Under the same conditions `reed_sol_vandermonde_coding_matrix(k, 0, w)`
returns null for `k ≥ 1`. -/
theorem coding_matrix_null (L : gf_complete) (k w : Nat) (gf : gf_t) (W : World)
    (hfield : ¬ (3 ≤ k ∧ ¬ (w < 30 ∧ (1 <<< w < k ∨ 1 <<< w < k))) ∨
      (Ready L w gf W ∧ HasOps gf))
    (hk : 1 ≤ k) :
    ∃ W3, reed_sol_vandermonde_coding_matrix L k 0 w W = Outcome.ret (none, W3) := by
  obtain ⟨W1, e⟩ := (dist_matrix_null L (k + 0) k w gf (fun _ => 0) W hfield hk (by omega)).1
  unfold reed_sol_vandermonde_coding_matrix
  rw [run_bind e]
  exact ⟨W1, rfl⟩

/-- Instances of `dist_matrix_null` and `coding_matrix_null` in a fresh
process: a served width with an interior row, a width above 32 without
interior row, and width 0. -/
theorem dist_matrix_null_examples :
    (∃ W1, reed_sol_big_vandermonde_distribution_matrix ref_lib 3 4 8 World.init
      = Outcome.ret (none, W1)) ∧
    (∃ W1, reed_sol_big_vandermonde_distribution_matrix ref_lib 2 2 40 World.init
      = Outcome.ret (none, W1)) ∧
    (∃ W1, reed_sol_big_vandermonde_distribution_matrix ref_lib 3 3 0 World.init
      = Outcome.ret (none, W1)) ∧
    ∃ W3, reed_sol_vandermonde_coding_matrix ref_lib 4 0 8 World.init
      = Outcome.ret (none, W3) :=
  ⟨(dist_matrix_null ref_lib 3 4 8 (ref_gf 8) (fun _ => 0) World.init
      (Or.inr ⟨ready_init_8, hasOps_ref 8⟩) (by decide) (by decide)).1,
    (dist_matrix_null ref_lib 2 2 40 (ref_gf 8) (fun _ => 0) World.init
      (Or.inl (by decide)) (by decide) (by decide)).1,
    (dist_matrix_null ref_lib 3 3 0 (ref_gf 8) (fun _ => 0) World.init
      (Or.inl (by decide)) (by decide) (by decide)).1,
    coding_matrix_null ref_lib 4 8 (ref_gf 8) World.init
      (Or.inr ⟨ready_init_8, hasOps_ref 8⟩) (by decide)⟩

/-- C18 (the code at the failing input): in a fresh process
`reed_sol_big_vandermonde_distribution_matrix(3, 3, 40)`, its `_noalloc`
variant and `reed_sol_vandermonde_coding_matrix(3, 0, 40)` do not return null:
filling the interior row of the extended Vandermonde matrix calls
`galois_single_multiply(1, 1, 40)`, which ends in the assertion of
`galois_init(40)` before the test `cols >= rows` is reached. -/
theorem C18_distribution_matrix_width_40_fatal :
    galois_single_multiply ref_lib 1 1 40 World.init = Outcome.fatal ∧
    reed_sol_big_vandermonde_distribution_matrix ref_lib 3 3 40 World.init = Outcome.fatal ∧
    reed_sol_big_vandermonde_distribution_matrix_noalloc ref_lib 3 3 40 (fun _ => 0) World.init
      = Outcome.fatal ∧
    reed_sol_vandermonde_coding_matrix ref_lib 3 0 40 World.init = Outcome.fatal :=
  ⟨rfl, rfl, rfl, rfl⟩

theorem run_bind_fatal {α β : Type} {m : GM α} {f : α → GM β} {W : World}
    (h : m W = Outcome.fatal) : (m >>= f) W = Outcome.fatal := by
  show GM.bind m f W = _
  simp only [GM.bind, h]

/-- The result of `reed_sol_big_vandermonde_distribution_matrix_noalloc` is the
first component of the run that also tracks the caller's array. -/
theorem noalloc_array_result (L : gf_complete) (rows cols w : Nat) (dist : Buf) (W : World) :
    reed_sol_big_vandermonde_distribution_matrix_noalloc L rows cols w dist W
      = match reed_sol_big_vandermonde_distribution_matrix_noalloc_array L rows cols w dist W with
        | Outcome.ret (r, W') => Outcome.ret (r.1, W')
        | Outcome.fatal => Outcome.fatal := by
  unfold reed_sol_big_vandermonde_distribution_matrix_noalloc
    reed_sol_big_vandermonde_distribution_matrix_noalloc_array
  cases h1 : reed_sol_extended_vandermonde_matrix_noalloc L rows cols w dist W with
  | fatal => rw [run_bind_fatal h1, run_bind_fatal h1]
  | ret p =>
    obtain ⟨o, W1⟩ := p
    rw [run_bind h1, run_bind h1]
    cases o with
    | none => rfl
    | some d =>
      simp only []
      cases h2 : reed_sol_big_vandermonde_distribution_matrix_setup L rows cols w (some d) W1 with
      | fatal => rw [run_bind_fatal h2]
      | ret q =>
        obtain ⟨o2, W2⟩ := q
        rw [run_bind h2]
        cases o2 <;> rfl

/-- C19 (counterexample): `reed_sol_big_vandermonde_distribution_matrix_noalloc(2,
2, 8, buf)` on a zeroed array returns null, yet the array is not zero after
the call: the first phase has stored the extended Vandermonde matrix. -/
theorem C19_buffer_changed_counterexample :
    ¬ ∀ d W', reed_sol_big_vandermonde_distribution_matrix_noalloc_array ref_lib 2 2 8
        (fun _ => 0) World.init = Outcome.ret ((none, d), W') →
      ∀ i, i < 2 * 2 → d i = (fun _ => 0) i := by
  intro h
  have e : reed_sol_big_vandermonde_distribution_matrix_noalloc_array ref_lib 2 2 8
      (fun _ => 0) World.init
      = Outcome.ret ((none, Function.update (Function.update (Function.update
          (Function.update (fun _ => 0) 0 1) 1 0) 2 0) 3 1), World.init) := rfl
  have := h _ _ e 0 (by decide)
  simp at this

/-- C19 (amended): when
`reed_sol_big_vandermonde_distribution_matrix_noalloc(rows, cols, w, buf)`
returns null, either the width is too small for `rows` or `cols` (`w < 30` and
`2^w < rows` or `2^w < cols`) and the array `buf` and the state are as before
the call, or `cols ≥ rows` and `buf` holds what
`reed_sol_extended_vandermonde_matrix_noalloc(rows, cols, w, buf)` stored. -/
theorem C19_noalloc_null_buffer (L : gf_complete) (rows cols w : Nat) (buf d : Buf)
    (W W' : World)
    (h : reed_sol_big_vandermonde_distribution_matrix_noalloc_array L rows cols w buf W
      = Outcome.ret ((none, d), W')) :
    ((w < 30 ∧ (1 <<< w < rows ∨ 1 <<< w < cols)) ∧ d = buf ∧ W' = W) ∨
    (rows ≤ cols ∧ ¬ (w < 30 ∧ (1 <<< w < rows ∨ 1 <<< w < cols)) ∧
      reed_sol_extended_vandermonde_matrix_noalloc L rows cols w buf W
        = Outcome.ret (some d, W')) := by
  unfold reed_sol_big_vandermonde_distribution_matrix_noalloc_array at h
  obtain ⟨o, W1, e1, h1⟩ := bind_ret_inv h
  cases o with
  | none =>
    left
    obtain ⟨hx, hW⟩ := ext_setup_none e1
    have hp := pure_ret_inv h1
    have hd : d = buf := (Prod.mk.inj hp.1.symm).2.symm
    exact ⟨hx, hd, hp.2.trans hW⟩
  | some d1 =>
    right
    simp only [] at h1
    obtain ⟨o2, W2, e2, h2⟩ := bind_ret_inv h1
    cases o2 with
    | none =>
      obtain ⟨hrc, hW⟩ := dist_setup_none e2
      have hp := pure_ret_inv h2
      have hd : d = d1 := (Prod.mk.inj hp.1.symm).2.symm
      subst hd
      refine ⟨hrc, ext_setup_some e1, ?_⟩
      rw [e1, hp.2, hW]
    | some d2 =>
      have hp := pure_ret_inv h2
      exact absurd (Prod.mk.inj hp.1).1 (by simp)

theorem C19_noalloc_null_buffer_witness :
    ((1 < 30 ∧ (1 <<< 1 < 3 ∨ 1 <<< 1 < 2)) ∧ (fun _ => 7 : Buf) = (fun _ => 7) ∧
      World.init = World.init) ∨
    (3 ≤ 2 ∧ ¬ (1 < 30 ∧ (1 <<< 1 < 3 ∨ 1 <<< 1 < 2)) ∧
      reed_sol_extended_vandermonde_matrix_noalloc ref_lib 3 2 1 (fun _ => 7) World.init
        = Outcome.ret (some (fun _ => 7), World.init)) :=
  C19_noalloc_null_buffer ref_lib 3 2 1 (fun _ => 7) (fun _ => 7) World.init World.init rfl

/-- Any `cols` distinct rows of an array holding an MDS matrix form an
invertible matrix. -/
theorem rows_invertible_of_MDS {w : Nat} {gf : gf_t} (hgf : IsGF w gf) {rows cols : Nat}
    {M : Nat → Nat → Nat} {d : Buf} (hd : Rel rows cols d M)
    (hmds : @MDS w gf ⟨hgf⟩ rows cols M) (sel : Nat → Nat)
    (hsel : ∀ i, i < cols → sel i < rows)
    (hinj : ∀ i, i < cols → ∀ j, j < cols → sel i = sel j → i = j) :
    RowsInvertible w gf hgf cols d sel := by
  haveI : Fact (IsGF w gf) := ⟨hgf⟩
  haveI := GFElt.isDomain w gf
  show (rowSubmatrix w gf cols d sel).det ≠ 0
  intro h0
  obtain ⟨v, hv, hAv⟩ := Matrix.exists_mulVec_eq_zero_iff.mpr h0
  apply hv
  have hS1 : ∀ r ∈ (Finset.univ : Finset (Fin cols)).image (fun i => sel i.val), r < rows := by
    intro r hr
    obtain ⟨i, _, rfl⟩ := Finset.mem_image.mp hr
    exact hsel i.val i.isLt
  have hS2 : ((Finset.univ : Finset (Fin cols)).image (fun i => sel i.val)).card = cols := by
    rw [Finset.card_image_of_injective]
    · simp
    · intro a b hab
      exact Fin.ext (hinj a.val a.isLt b.val b.isLt hab)
  have hx : ∀ j : Fin cols, (if h : j.val < cols then v ⟨j.val, h⟩ else 0) = v j :=
    fun j => dif_pos j.isLt
  have key := hmds _ hS1 hS2 (fun c => if h : c < cols then v ⟨c, h⟩ else 0) (by
    intro r hr
    obtain ⟨i, _, rfl⟩ := Finset.mem_image.mp hr
    have hi := congrFun hAv i
    simp only [Matrix.mulVec, Matrix.dotProduct, rowSubmatrix, Matrix.of_apply,
      Pi.zero_apply] at hi
    rw [Finset.sum_range]
    refine Eq.trans (Finset.sum_congr rfl fun j _ => ?_) hi
    simp only [hx j]
    rw [hd (sel i.val) (hsel i.val i.isLt) j.val j.isLt])
  funext i
  have := key i.val i.isLt
  simp only [hx i] at this
  exact this

/-- Rows forming an invertible matrix are linearly independent in the
arithmetic of the program. -/
theorem rows_independent_of_invertible {w : Nat} {gf : gf_t} (hgf : IsGF w gf)
    {cols : Nat} {d : Buf} (sel : Nat → Nat)
    (hin : ∀ i, i < cols → ∀ j, j < cols → d (sel i * cols + j) < 2 ^ w)
    (hdet : RowsInvertible w gf hgf cols d sel) : RowsIndependent w gf cols d sel := by
  haveI : Fact (IsGF w gf) := ⟨hgf⟩
  haveI := GFElt.isDomain w gf
  have hdet' : (rowSubmatrix w gf cols d sel).det ≠ 0 := hdet
  intro c hcr hz i hi
  have hv : Matrix.vecMul (fun i : Fin cols => toF w gf (c i.val))
      (rowSubmatrix w gf cols d sel) = 0 := by
    funext j
    simp only [Matrix.vecMul, Matrix.dotProduct, rowSubmatrix, Matrix.of_apply, Pi.zero_apply]
    have hterm : ∀ i, i < cols → gmul gf (c i) (d (sel i * cols + j.val)) < 2 ^ w :=
      fun i hi => gmul_lt hgf (hcr i hi) (hin i hi j.val j.isLt)
    obtain ⟨_, x2⟩ := @toF_xor_range w gf _ cols _ hterm
    rw [hz j.val j.isLt, toF_zero, Finset.sum_range] at x2
    rw [x2]
    refine Finset.sum_congr rfl fun i _ => ?_
    rw [toF_gmul (hcr i.val i.isLt) (hin i.val i.isLt j.val j.isLt)]
  have h0 := congrFun (Matrix.eq_zero_of_vecMul_eq_zero hdet' hv) ⟨i, hi⟩
  exact toF_inj (hcr i hi) (Nat.two_pow_pos w) (h0.trans toF_zero.symm)

/-- C20: for `rows > cols ≥ 1` with `2^w ≥ rows` and a backend implementing
GF(2^w), any `cols` distinct rows of the matrix returned by
`reed_sol_big_vandermonde_distribution_matrix(rows, cols, w)` form an
invertible `cols × cols` matrix over GF(2^w) and are linearly independent. -/
theorem C20_distribution_matrix_mds (L : gf_complete) (rows cols w : Nat) (gf : gf_t)
    (vdm0 : Buf) (W : World) (hc : 1 ≤ cols) (hrc : cols < rows) (hrows : rows ≤ 2 ^ w)
    (hready : Ready L w gf W) (hgf : IsGF w gf)
    (hmalloc : L.malloc_int (rows * cols) = some vdm0) :
    ∃ dist W', reed_sol_big_vandermonde_distribution_matrix L rows cols w W
        = Outcome.ret (some dist, W') ∧
      ∀ sel : Nat → Nat, (∀ i, i < cols → sel i < rows) →
        (∀ i, i < cols → ∀ j, j < cols → sel i = sel j → i = j) →
        RowsInvertible w gf hgf cols dist sel ∧ RowsIndependent w gf cols dist sel := by
  obtain ⟨o, W', e, _, d, rfl, hd⟩ :=
    dist_alloc_yields hgf (yields_mul hgf.ops) (yields_div hgf.ops) hc hrc hrows hmalloc W hready
  obtain ⟨hin, _, _, hmds, _, _⟩ := @distM_spec w gf ⟨hgf⟩ rows cols hc hrc hrows
  refine ⟨d, W', e, fun sel hsel hinj => ?_⟩
  have hdet := rows_invertible_of_MDS hgf hd hmds sel hsel hinj
  refine ⟨hdet, rows_independent_of_invertible hgf sel ?_ hdet⟩
  intro i hi j hj
  rw [hd (sel i) (hsel i hi) j hj]
  exact hin (sel i) (hsel i hi) j hj

theorem C20_distribution_matrix_mds_witness :
    ∃ dist W', reed_sol_big_vandermonde_distribution_matrix ref_lib 4 2 2 World.init
        = Outcome.ret (some dist, W') ∧
      ∀ sel : Nat → Nat, (∀ i, i < 2 → sel i < 4) →
        (∀ i, i < 2 → ∀ j, j < 2 → sel i = sel j → i = j) →
        RowsInvertible 2 (ref_gf 2) isGF_ref_2 2 dist sel ∧
          RowsIndependent 2 (ref_gf 2) 2 dist sel :=
  C20_distribution_matrix_mds ref_lib 4 2 2 (ref_gf 2) (fun _ => 0) World.init
    (by decide) (by decide) (by decide) ready_init_2 isGF_ref_2 rfl

theorem xorReady_heap {L : gf_complete} {gf32 : gf_t} {size : Nat} {W : World} (h : Heap)
    (hW : XorReady L gf32 size W) : XorReady L gf32 size { W with heap := h } :=
  fun hs => ⟨ready_of_gfp_eq rfl (hW hs).1, (hW hs).2⟩

theorem memcpy_runs_xor {L : gf_complete} {gf32 : gf_t} {size : Nat} (dest src n : Nat) :
    Runs (XorReady L gf32 size) (memcpy dest src n) () (fun h => heapCopy h dest src n) :=
  fun W hW => ⟨{ W with heap := heapCopy W.heap dest src n }, rfl, xorReady_heap _ hW, rfl⟩

theorem region_xor_runs_xor {L : gf_complete} {gf32 : gf_t} {size : Nat} (src dest : Nat) :
    Runs (XorReady L gf32 size) (galois_region_xor L src dest size) ()
      (fun h => xorStep gf32 size h src dest) := by
  intro W hW
  unfold galois_region_xor xorStep
  by_cases hs : size ≥ 16
  · rw [if_pos hs]
    simp only [if_pos hs]
    obtain ⟨hr, hreg⟩ := hW hs
    obtain ⟨f, hf⟩ := Option.isSome_iff_exists.mp hreg
    unfold galois_w32_region_xor regionApply
    cases h32 : W.gfp_array 32 with
    | none =>
      refine ⟨{ W.setField 32 (some gf32) with
          heap := f (some gf32.scratch) W.heap src dest 1 size 1 }, ?_,
        xorReady_heap _ (fun _ => ⟨ready_setField hr, hreg⟩), ?_⟩
      · simp only [galois_init_ready hr h32]
        simp only [World.setField, Function.update_same, hf]
      · simp only [hf]
    | some g' =>
      have hg : g' = gf32 := by
        rcases hr.2.2 with h | ⟨h, _⟩
        · rw [h32] at h; exact Option.some.inj h
        · rw [h32] at h; cases h
      subst hg
      refine ⟨{ W with heap := f (some g'.scratch) W.heap src dest 1 size 1 }, ?_,
        xorReady_heap _ hW, ?_⟩
      · simp only [h32, hf]
      · simp only [hf]
  · rw [if_neg hs]
    simp only [if_neg hs]
    exact ⟨{ W with heap := xor_byte_loop size W.heap dest src }, rfl, xorReady_heap _ hW, rfl⟩

/-- For an unsupported width the `switch` of the encoder returns 0 at once. -/
theorem r6_switch_unsupported (L : gf_complete) {w : Nat} (hw : ¬ (w = 8 ∨ w = 16 ∨ w = 32))
    (region size : Nat) : r6_switch L w region size = pure (some 0) := by
  unfold r6_switch
  rw [if_neg (fun h => hw (Or.inl h)), if_neg (fun h => hw (Or.inr (Or.inl h))),
    if_neg (fun h => hw (Or.inr (Or.inr h)))]

theorem iterM_zero_eq {σ : Type} (body : Nat → σ → GM σ) (s : σ) :
    iterM 0 body s = pure s := rfl

theorem iterM_succ_eq {σ : Type} (n : Nat) (body : Nat → σ → GM σ) (s : σ) :
    iterM (n + 1) body s = (iterM n body s >>= body n) := rfl

/-- For an unsupported width the doubling loop, when it runs at least once,
leaves the function with 0 in its first iteration and changes nothing. -/
theorem r6_loop_unsupported (L : gf_complete) (k : Nat) {w : Nat}
    (hw : ¬ (w = 8 ∨ w = 16 ∨ w = 32)) (data_ptrs coding_ptrs : Nat → Nat) (size : Nat)
    (W : World) (n : Nat) :
    r6_loop L k w data_ptrs coding_ptrs size (n + 1) W = Outcome.ret (some 0, W) := by
  unfold r6_loop
  induction n with
  | zero =>
    rw [iterM_succ_eq, iterM_zero_eq]
    have e0 : (pure none : GM (Option Nat)) W = Outcome.ret (none, W) := rfl
    rw [run_bind e0]
    simp only []
    unfold r6_step
    rw [r6_switch_unsupported L hw]
    rfl
  | succ n ih =>
    rw [iterM_succ_eq, run_bind ih]
    rfl

/-- With one data fragment the encoder makes the two copies and returns 1,
whatever the width and the backend. -/
theorem r6_encode_single (L : gf_complete) (w : Nat) (data_ptrs coding_ptrs : Nat → Nat)
    (size : Nat) (W : World) :
    ∃ W', reed_sol_r6_encode L 1 w data_ptrs coding_ptrs size W = Outcome.ret (1, W') ∧
      W'.heap = heapCopy (heapCopy W.heap (coding_ptrs 0) (data_ptrs 0) size) (coding_ptrs 1)
        (data_ptrs 0) size :=
  ⟨_, rfl, rfl⟩

/-- For an unsupported width and `k ≥ 2`, with the backend serving
`galois_region_xor`, the encoder returns 0 after the parity-0 accumulation and
the copy into parity 1. -/
theorem r6_encode_unsupported_runs {L : gf_complete} {gf32 : gf_t} {k w size : Nat}
    (hw : ¬ (w = 8 ∨ w = 16 ∨ w = 32)) (hk : 2 ≤ k) (data_ptrs coding_ptrs : Nat → Nat)
    (W : World) (hW : XorReady L gf32 size W) :
    ∃ W', reed_sol_r6_encode L k w data_ptrs coding_ptrs size W = Outcome.ret (0, W') ∧
      W'.heap = heapCopy
        (iter (k - 1) (fun t h => xorStep gf32 size h (data_ptrs (1 + t)) (coding_ptrs 0))
          (heapCopy W.heap (coding_ptrs 0) (data_ptrs 0) size))
        (coding_ptrs 1) (data_ptrs (k - 1)) size := by
  obtain ⟨W1, e1, i1, h1⟩ := memcpy_runs_xor (L := L) (coding_ptrs 0) (data_ptrs 0) size W hW
  have p1 : Runs (XorReady L gf32 size)
      (forM 1 k (fun i _ => galois_region_xor L (data_ptrs i) (coding_ptrs 0) size) ()) ()
      (fun h => iter (k - 1)
        (fun t h => xorStep gf32 size h (data_ptrs (1 + t)) (coding_ptrs 0)) h) :=
    runs_iterM (k - 1) _ () _
      (fun t _ => region_xor_runs_xor (data_ptrs (1 + t)) (coding_ptrs 0))
  obtain ⟨W2, e2, i2, h2⟩ := p1 W1 i1
  obtain ⟨W3, e3, _, h3⟩ :=
    memcpy_runs_xor (L := L) (coding_ptrs 1) (data_ptrs (k - 1)) size W2 i2
  have e4 := r6_loop_unsupported L k hw data_ptrs coding_ptrs size W3 (k - 2)
  rw [show k - 2 + 1 = k - 1 by omega] at e4
  refine ⟨W3, ?_, ?_⟩
  · unfold reed_sol_r6_encode
    rw [run_bind e1, run_bind e2, run_bind e3, run_bind e4]
    rfl
  · rw [h3, h2, h1]

/-- C21: whenever `reed_sol_r6_encode(k, w, data, coding, size)` returns, it
returns 0 exactly when `w` is not one of 8, 16, 32 and `k ≥ 2`; for `k = 1` it
returns 1 for every width and backend; and for an unsupported width and
`k ≥ 2`, with the backend serving `galois_region_xor` and non-overlapping
fragments, it does return 0, with every byte of parity 0 equal to the `^` of
the data fragments and parity 1 a copy of data fragment `k-1`. -/
theorem C21_r6_encode_returns_zero (L : gf_complete) (k w : Nat)
    (data_ptrs coding_ptrs : Nat → Nat) (size : Nat) :
    (1 ≤ k → ∀ W r W',
      reed_sol_r6_encode L k w data_ptrs coding_ptrs size W = Outcome.ret (r, W') →
      (r = 0 ↔ (¬ (w = 8 ∨ w = 16 ∨ w = 32) ∧ 2 ≤ k))) ∧
    (k = 1 → ∀ W, ∃ W',
      reed_sol_r6_encode L k w data_ptrs coding_ptrs size W = Outcome.ret (1, W')) ∧
    ∀ (gf32 : gf_t) (W : World), ¬ (w = 8 ∨ w = 16 ∨ w = 32) → 2 ≤ k →
      XorReady L gf32 size W →
      (∀ i, i < k → Disj (data_ptrs i) (coding_ptrs 0) size) →
      Disj (coding_ptrs 0) (coding_ptrs 1) size →
      (16 ≤ size → RegionXor gf32) →
      ∃ W', reed_sol_r6_encode L k w data_ptrs coding_ptrs size W = Outcome.ret (0, W') ∧
        (∀ b, b < size → W'.heap (coding_ptrs 0 + b)
          = xor_range k (fun i => W.heap (data_ptrs i + b))) ∧
        ∀ b, b < size → W'.heap (coding_ptrs 1 + b) = W.heap (data_ptrs (k - 1) + b) := by
  refine ⟨?_, ?_, ?_⟩
  · intro _ W r W' h
    by_cases hw : w = 8 ∨ w = 16 ∨ w = 32
    · have h1 : r = 1 := r6_encode_post L hw k data_ptrs coding_ptrs size W r W' h
      constructor
      · intro h0; omega
      · intro hc; exact absurd hw hc.1
    · by_cases hk2 : 2 ≤ k
      · constructor
        · intro _; exact ⟨hw, hk2⟩
        · intro _
          unfold reed_sol_r6_encode at h
          obtain ⟨_, W1, _, h1⟩ := bind_ret_inv h
          obtain ⟨_, W2, _, h2⟩ := bind_ret_inv h1
          obtain ⟨_, W3, _, h3⟩ := bind_ret_inv h2
          obtain ⟨o, W4, e4, h4⟩ := bind_ret_inv h3
          have e := r6_loop_unsupported L k hw data_ptrs coding_ptrs size W3 (k - 2)
          rw [show k - 2 + 1 = k - 1 by omega, e4] at e
          injection e with e
          injection e with eo _
          subst eo
          exact (pure_ret_inv h4).1
      · have hk1 : k = 1 := by omega
        subst hk1
        obtain ⟨W1, e1, _⟩ := r6_encode_single L w data_ptrs coding_ptrs size W
        rw [e1] at h
        injection h with h
        injection h with hr _
        constructor
        · intro h0; omega
        · intro hc; exact absurd hc.2 hk2
  · intro hk1 W
    subst hk1
    obtain ⟨W1, e1, _⟩ := r6_encode_single L w data_ptrs coding_ptrs size W
    exact ⟨W1, e1⟩
  · intro gf32 W hw hk2 hW hd0 hcc hx
    obtain ⟨W', e, hh⟩ := r6_encode_unsupported_runs hw hk2 data_ptrs coding_ptrs W hW
    rw [parity0_iter W.heap hd0 hx (k - 1) (by omega), show k - 1 + 1 = k by omega] at hh
    refine ⟨W', e, ?_, ?_⟩
    · intro b hb
      rw [hh]
      simp only [heapCopy]
      unfold Disj at hcc
      rw [if_neg (by omega), if_pos (by omega), Nat.add_sub_cancel_left]
    · intro b hb
      have hd := hd0 (k - 1) (by omega)
      unfold Disj at hd
      rw [hh]
      simp only [heapCopy]
      rw [if_pos (by omega), Nat.add_sub_cancel_left, if_neg (by omega)]

theorem C21_r6_encode_returns_zero_witness :
    (∃ W', reed_sol_r6_encode ref_lib 1 24 (fun i => 20 * i) (fun i => 100 + 20 * i) 17
        World.init = Outcome.ret (1, W')) ∧
    ∃ W', reed_sol_r6_encode ref_lib 3 24 (fun i => 20 * i) (fun i => 100 + 20 * i) 17
        { World.init with heap := fun a => a % 256 } = Outcome.ret (0, W') ∧
      (∀ b, b < 17 → W'.heap ((fun i => 100 + 20 * i) 0 + b)
        = xor_range 3 (fun i =>
            ({ World.init with heap := fun a => a % 256 } : World).heap
              ((fun i => 20 * i) i + b))) ∧
      ∀ b, b < 17 → W'.heap ((fun i => 100 + 20 * i) 1 + b)
        = ({ World.init with heap := fun a => a % 256 } : World).heap
            ((fun i => 20 * i) (3 - 1) + b) :=
  ⟨(C21_r6_encode_returns_zero ref_lib 1 24 (fun i => 20 * i) (fun i => 100 + 20 * i)
      17).2.1 rfl World.init,
    (C21_r6_encode_returns_zero ref_lib 3 24 (fun i => 20 * i) (fun i => 100 + 20 * i)
      17).2.2 (ref_gf 32) { World.init with heap := fun a => a % 256 } (by decide) (by decide)
      (fun _ => ⟨⟨by decide, by decide, Or.inr ⟨rfl, rfl⟩⟩, rfl⟩)
      (fun i hi => by simp only [Disj]; omega) (by simp only [Disj]; omega)
      (fun _ => regionXor_ref 32)⟩

/-- With an instance `g` registered for width 8 whose region function is `f`,
`galois_w8_region_xor` calls `f` with the content of slot 32 of the registry
as handle. -/
theorem w8_region_xor_registered (L : gf_complete) (g : gf_t)
    (f : Option Nat → Heap → Nat → Nat → Nat → Nat → Nat → Heap) (W : World)
    (src dest n : Nat) (h8 : W.gfp_array 8 = some g) (hf : g.multiply_region = some f) :
    galois_w8_region_xor L src dest n W
      = Outcome.ret ((), { W with
          heap := f ((W.gfp_array 32).map fun g32 => g32.scratch) W.heap src dest 1 n 1 }) := by
  unfold galois_w8_region_xor
  simp only [h8, hf]

/-- In a state with slot 8 of the registry empty, where the default
initialisation for width 8 yields `g` with region function `f`,
`galois_w8_region_xor` registers `g` for width 8 and calls `f` with the
content of slot 32 as handle. -/
theorem w8_region_xor_fresh (L : gf_complete) (g : gf_t)
    (f : Option Nat → Heap → Nat → Nat → Nat → Nat → Nat → Heap) (W : World)
    (src dest n : Nat) (h8 : W.gfp_array 8 = none) (hd : default_field L 8 = some g)
    (hf : g.multiply_region = some f) :
    galois_w8_region_xor L src dest n W
      = Outcome.ret ((), { W.setField 8 (some g) with
          heap := f ((W.gfp_array 32).map fun g32 => g32.scratch) W.heap src dest 1 n 1 }) := by
  have hr : Ready L 8 g W := ⟨by decide, by decide, Or.inr ⟨h8, hd⟩⟩
  unfold galois_w8_region_xor
  simp only [h8, galois_init_ready hr h8]
  simp only [World.setField, Function.update_same, hf]
  rw [Function.update_noteq (by decide : (32 : Nat) ≠ 8)]

/-- With an instance `g` registered for width 16 whose region function is
`f`, `galois_w16_region_xor` calls `f` with `g` itself as handle. -/
theorem w16_region_xor_registered (L : gf_complete) (g : gf_t)
    (f : Option Nat → Heap → Nat → Nat → Nat → Nat → Nat → Heap) (W : World)
    (src dest n : Nat) (h16 : W.gfp_array 16 = some g) (hf : g.multiply_region = some f) :
    galois_w16_region_xor L src dest n W
      = Outcome.ret ((), { W with heap := f (some g.scratch) W.heap src dest 1 n 1 }) := by
  unfold galois_w16_region_xor
  simp only [h16, hf]

/-- With an instance `g` registered for width 32 whose region function is
`f`, `galois_w32_region_xor` calls `f` with `g` itself as handle. -/
theorem w32_region_xor_registered (L : gf_complete) (g : gf_t)
    (f : Option Nat → Heap → Nat → Nat → Nat → Nat → Nat → Heap) (W : World)
    (src dest n : Nat) (h32 : W.gfp_array 32 = some g) (hf : g.multiply_region = some f) :
    galois_w32_region_xor L src dest n W
      = Outcome.ret ((), { W with heap := f (some g.scratch) W.heap src dest 1 n 1 }) := by
  unfold galois_w32_region_xor
  simp only [h32, hf]

/-- C22 (the code at the failing input): with any instance registered for
width 8 (region function `f`) and slot 32 of the registry empty,
`galois_w8_region_xor(src, dest, n)` calls `f` with a null handle, not with
the width-8 instance; with an instance `g32` in slot 32 it passes `g32`.  In
a fresh process with the reference library the width-8 instance is set up and
the handle passed is null as well. -/
theorem C22_w8_region_xor_handle (L : gf_complete) (g g32 : gf_t)
    (f : Option Nat → Heap → Nat → Nat → Nat → Nat → Nat → Heap) (W : World)
    (src dest n : Nat) :
    galois_w8_region_xor L src dest n
        ((W.setField 32 none).setField 8
          (some { g with multiply_region := some f }))
      = Outcome.ret ((), { (W.setField 32 none).setField 8
          (some { g with multiply_region := some f }) with
          heap := f none W.heap src dest 1 n 1 }) ∧
    galois_w8_region_xor L src dest n
        ((W.setField 32 (some g32)).setField 8
          (some { g with multiply_region := some f }))
      = Outcome.ret ((), { (W.setField 32 (some g32)).setField 8
          (some { g with multiply_region := some f }) with
          heap := f (some g32.scratch) W.heap src dest 1 n 1 }) ∧
    galois_w8_region_xor ref_lib src dest n World.init
      = Outcome.ret ((), { World.init.setField 8 (some (ref_gf 8)) with
          heap := ref_region 8 (ref_poly 8) World.init.heap src dest 1 n 1 }) ∧
    (World.init.gfp_array 32).map (fun g => g.scratch) = none := by
  refine ⟨?_, ?_, ?_, rfl⟩
  · rw [w8_region_xor_registered L { g with multiply_region := some f } f _ src dest n
      (by simp [World.setField]) rfl]
    simp [World.setField]
  · rw [w8_region_xor_registered L { g with multiply_region := some f } f _ src dest n
      (by simp [World.setField]) rfl]
    simp [World.setField]
  · exact w8_region_xor_fresh ref_lib (ref_gf 8) _ World.init src dest n rfl rfl rfl

end Jerasure
